import Mathlib

/-!
# Verification of the kitchen-fridge CalDAV sync engine

A shallow embedding, in Lean 4, of the parts of the `kitchen-fridge` crate that
the specification talks about:

* the per-item sync status and the item data model (`src/item.rs`, `src/task.rs`);
* the local calendar operations (`src/calendar/cached_calendar.rs`);
* the remote calendar operations (`src/calendar/remote_calendar.rs`);
* the local source (`src/cache.rs`);
* the iCal codec (`src/ical/parser.rs`, `src/ical/builder.rs`);
* the synchronisation engine (`src/provider/mod.rs`).

Rust `HashMap`s and `HashSet`s are modelled as association lists with no
duplicate keys (iteration order is unspecified in Rust; every theorem below
holds for every order, i.e. for every list representing the map).
Fallible Rust functions (returning `Result<T, Box<dyn Error>>`) are modelled
as `Option`-returning Lean functions, `none` being the error case.
Network faults are modelled by an explicit fault oracle passed to every
remote operation.
-/

namespace KitchenFridge

/-! ## Association lists: the model of `HashMap<Url, V>`

`alookup`, `ainsert` (`HashMap::insert`: replaces the previous binding),
`aremove` (`HashMap::remove`).  Keys are item or calendar URLs, modelled as
strings. -/

/-- Lookup in an association list (model of `HashMap::get`). -/
def alookup {α : Type} : List (String × α) → String → Option α
  | [], _ => none
  | (k, v) :: rest, u => if k = u then some v else alookup rest u

/-- Insert into an association list, replacing any previous binding for the
key (model of `HashMap::insert`). -/
def ainsert {α : Type} : List (String × α) → String → α → List (String × α)
  | [], u, v => [(u, v)]
  | (k, w) :: rest, u, v => if k = u then (u, v) :: rest else (k, w) :: ainsert rest u v

/-- Remove a key from an association list (model of `HashMap::remove`). -/
def aremove {α : Type} : List (String × α) → String → List (String × α)
  | [], _ => []
  | (k, w) :: rest, u => if k = u then rest else (k, w) :: aremove rest u

/-- The keys of an association list. -/
def akeys {α : Type} (l : List (String × α)) : List String := l.map Prod.fst

/-- Well-formedness of the `HashMap` model: no duplicate keys. -/
def NodupKeys {α : Type} (l : List (String × α)) : Prop := (akeys l).Nodup

instance {α : Type} (l : List (String × α)) : Decidable (NodupKeys l) := by
  unfold NodupKeys; infer_instance

@[simp] theorem alookup_nil {α : Type} (u : String) : alookup ([] : List (String × α)) u = none := rfl

@[simp] theorem alookup_cons {α : Type} (k : String) (v : α) (rest : List (String × α)) (u : String) :
    alookup ((k, v) :: rest) u = if k = u then some v else alookup rest u := rfl

@[simp] theorem akeys_nil {α : Type} : akeys ([] : List (String × α)) = [] := rfl

@[simp] theorem akeys_cons {α : Type} (k : String) (v : α) (rest : List (String × α)) :
    akeys ((k, v) :: rest) = k :: akeys rest := rfl

theorem alookup_isSome_iff_mem {α : Type} (l : List (String × α)) (u : String) :
    (alookup l u).isSome ↔ u ∈ akeys l := by
  induction l with
  | nil => simp
  | cons hd tl ih =>
    obtain ⟨k, v⟩ := hd
    by_cases h : k = u
    · subst h; simp
    · have h2 : ¬ u = k := fun hh => h hh.symm
      simp [h, h2, ih]

theorem alookup_eq_none_iff_not_mem {α : Type} (l : List (String × α)) (u : String) :
    alookup l u = none ↔ u ∉ akeys l := by
  rw [← alookup_isSome_iff_mem]
  cases alookup l u <;> simp

theorem mem_akeys_of_alookup {α : Type} {l : List (String × α)} {u : String} {v : α}
    (h : alookup l u = some v) : u ∈ akeys l := by
  rw [← alookup_isSome_iff_mem, h]; rfl

@[simp] theorem alookup_ainsert_self {α : Type} (l : List (String × α)) (u : String) (v : α) :
    alookup (ainsert l u v) u = some v := by
  induction l with
  | nil => simp [ainsert]
  | cons hd tl ih =>
    obtain ⟨k, w⟩ := hd
    by_cases h : k = u <;> simp [ainsert, h, ih]

theorem alookup_ainsert_ne {α : Type} (l : List (String × α)) (u x : String) (v : α)
    (h : x ≠ u) : alookup (ainsert l u v) x = alookup l x := by
  have h2 : ¬ u = x := fun hh => h hh.symm
  induction l with
  | nil => simp [ainsert, h2]
  | cons hd tl ih =>
    obtain ⟨k, w⟩ := hd
    by_cases hk : k = u
    · subst hk
      simp [ainsert, h2]
    · simp only [ainsert, if_neg hk, alookup_cons]
      by_cases hx : k = x
      · simp [hx]
      · simp [hx, ih]

theorem alookup_aremove_self {α : Type} (l : List (String × α)) (u : String)
    (hl : NodupKeys l) : alookup (aremove l u) u = none := by
  induction l with
  | nil => simp [aremove]
  | cons hd tl ih =>
    obtain ⟨k, w⟩ := hd
    simp only [NodupKeys, akeys_cons, List.nodup_cons] at hl
    by_cases h : k = u
    · subst h
      simp only [aremove, if_pos rfl]
      rw [alookup_eq_none_iff_not_mem]
      exact hl.1
    · simp [aremove, h, ih hl.2]

theorem alookup_aremove_ne {α : Type} (l : List (String × α)) (u x : String)
    (h : x ≠ u) : alookup (aremove l u) x = alookup l x := by
  have h2 : ¬ u = x := fun hh => h hh.symm
  induction l with
  | nil => simp [aremove]
  | cons hd tl ih =>
    obtain ⟨k, w⟩ := hd
    by_cases hk : k = u
    · subst hk
      simp [aremove, h2]
    · simp only [aremove, if_neg hk, alookup_cons]
      by_cases hx : k = x
      · simp [hx]
      · simp [hx, ih]

theorem mem_akeys_ainsert {α : Type} (l : List (String × α)) (u x : String) (v : α) :
    x ∈ akeys (ainsert l u v) ↔ x = u ∨ x ∈ akeys l := by
  induction l with
  | nil => simp [ainsert]
  | cons hd tl ih =>
    obtain ⟨k, w⟩ := hd
    by_cases h : k = u
    · subst h
      simp [ainsert, List.mem_cons]
    · simp only [ainsert, if_neg h, akeys_cons, List.mem_cons, ih]
      tauto

theorem nodupKeys_ainsert {α : Type} (l : List (String × α)) (u : String) (v : α)
    (hl : NodupKeys l) : NodupKeys (ainsert l u v) := by
  induction l with
  | nil => simp [ainsert, NodupKeys]
  | cons hd tl ih =>
    obtain ⟨k, w⟩ := hd
    simp only [NodupKeys, akeys_cons, List.nodup_cons] at hl
    by_cases h : k = u
    · subst h
      simpa [ainsert, NodupKeys] using hl
    · have := ih hl.2
      simp only [ainsert, if_neg h, NodupKeys, akeys_cons, List.nodup_cons]
      refine ⟨?_, this⟩
      rw [mem_akeys_ainsert]
      rintro (rfl | hk)
      · exact h rfl
      · exact hl.1 hk

theorem mem_akeys_aremove {α : Type} (l : List (String × α)) (u x : String)
    (hl : NodupKeys l) : x ∈ akeys (aremove l u) ↔ x ≠ u ∧ x ∈ akeys l := by
  induction l with
  | nil => simp [aremove]
  | cons hd tl ih =>
    obtain ⟨k, w⟩ := hd
    simp only [NodupKeys, akeys_cons, List.nodup_cons] at hl
    by_cases h : k = u
    · simp only [aremove, if_pos h, akeys_cons, List.mem_cons]
      constructor
      · intro hx
        refine ⟨fun hh => hl.1 ?_, Or.inr hx⟩
        rw [h.trans hh.symm]
        exact hx
      · intro hx
        rcases hx.2 with hx2 | hx2
        · exact absurd (hx2.trans h) hx.1
        · exact hx2
    · simp only [aremove, if_neg h, akeys_cons, List.mem_cons, ih hl.2]
      constructor
      · intro hx
        rcases hx with hx | hx
        · refine ⟨fun hh => h ?_, Or.inl hx⟩
          rw [← hx]
          exact hh
        · exact ⟨hx.1, Or.inr hx.2⟩
      · intro hx
        rcases hx.2 with hx2 | hx2
        · exact Or.inl hx2
        · exact Or.inr ⟨hx.1, hx2⟩

theorem nodupKeys_aremove {α : Type} (l : List (String × α)) (u : String)
    (hl : NodupKeys l) : NodupKeys (aremove l u) := by
  induction l with
  | nil => simp [aremove, NodupKeys]
  | cons hd tl ih =>
    obtain ⟨k, w⟩ := hd
    simp only [NodupKeys, akeys_cons, List.nodup_cons] at hl
    by_cases h : k = u
    · subst h
      simpa [aremove, NodupKeys] using hl.2
    · have := ih hl.2
      simp only [aremove, if_neg h, NodupKeys, akeys_cons, List.nodup_cons]
      refine ⟨?_, this⟩
      intro hk
      rw [mem_akeys_aremove _ _ _ hl.2] at hk
      exact hl.1 hk.2

theorem mem_akeys_of_aremove {α : Type} {l : List (String × α)} {u x : String}
    (h : x ∈ akeys (aremove l u)) : x ∈ akeys l := by
  induction l with
  | nil => simpa [aremove] using h
  | cons hd tl ih =>
    obtain ⟨k, w⟩ := hd
    by_cases hk : k = u
    · rw [aremove, if_pos hk] at h
      exact List.mem_cons_of_mem _ h
    · rw [aremove, if_neg hk, akeys_cons] at h
      rcases List.mem_cons.mp h with h1 | h2
      · rw [akeys_cons, h1]
        exact List.mem_cons_self _ _
      · exact List.mem_cons_of_mem _ (ih h2)

theorem mem_of_alookup {α : Type} {l : List (String × α)} {u : String} {v : α}
    (h : alookup l u = some v) : (u, v) ∈ l := by
  induction l with
  | nil => cases h
  | cons hd tl ih =>
    obtain ⟨k, w⟩ := hd
    by_cases hk : k = u
    · subst hk
      rw [alookup_cons, if_pos rfl] at h
      injection h with h
      rw [h]
      exact List.mem_cons_self _ _
    · rw [alookup_cons, if_neg hk] at h
      exact List.mem_cons_of_mem _ (ih h)

theorem ainsert_self_of_alookup {α : Type} (l : List (String × α)) (u : String) (v : α)
    (h : alookup l u = some v) : ainsert l u v = l := by
  induction l with
  | nil => simp at h
  | cons hd tl ih =>
    obtain ⟨k, w⟩ := hd
    by_cases hk : k = u
    · rw [alookup_cons, if_pos hk] at h
      injection h with h
      rw [ainsert, if_pos hk, ← h, ← hk]
    · rw [alookup_cons, if_neg hk] at h
      rw [ainsert, if_neg hk, ih h]

/-! ## Data model (`src/item.rs`, `src/task.rs`)

`VersionTag` is an opaque token compared bytewise; it is modelled as a natural
number (only equality and fresh generation are ever used).  `CompletionStatus`
and `SyncStatus` are the tagged variants of `src/task.rs` and `src/item.rs`.
Item content visible to the sync engine is its name (SUMMARY), completion
status and last-modified timestamp; timestamps are opaque to the engine and
modelled as naturals. -/

/-- A server version tag (`VersionTag`, an ETag): opaque, compared by equality. -/
abbrev Tag := Nat

/-- `CompletionStatus` from `src/task.rs`: uncompleted, or completed with an
optional completion timestamp. -/
inductive CompletionStatus where
  | uncompleted : CompletionStatus
  | completed (date : Option Nat) : CompletionStatus
deriving DecidableEq, Repr

/-- `SyncStatus` from `src/item.rs`. -/
inductive SyncStatus where
  | notSynced : SyncStatus
  | synced (v : Tag) : SyncStatus
  | locallyModified (v : Tag) : SyncStatus
  | locallyDeleted (v : Tag) : SyncStatus
deriving DecidableEq, Repr

/-- The content of an item, as the sync engine observes it. -/
structure ItemData where
  name : String
  completion : CompletionStatus
  lastModified : Nat
deriving DecidableEq, Repr

/-- An item held by a local (`CachedCalendar`) calendar: content plus its
`sync_status`. -/
structure LocalItem where
  data : ItemData
  syncStatus : SyncStatus
deriving DecidableEq, Repr

/-- An item held by the remote calendar: content plus the server's etag. -/
structure RemoteItem where
  data : ItemData
  tag : Tag
deriving DecidableEq, Repr

/-- The item map of a local `CachedCalendar` (its `items: HashMap<Url, Item>`). -/
abbrev LocalCal := List (String × LocalItem)

/-- The state of a remote calendar: its item map, plus the next etag the
server will assign (servers mint fresh etags on every PUT; the counter models
that freshness). -/
structure RemoteCal where
  items : List (String × RemoteItem)
  nextTag : Tag
deriving DecidableEq, Repr

/-! ## Local calendar operations (`src/calendar/cached_calendar.rs`)

Each `*_sync` method of `CachedCalendar` is embedded directly; `Result` is
modelled as `Option` (`none` is the error case). -/

/-- `CachedCalendar::add_item_sync`: fails if an item with that URL exists
already, otherwise inserts (via `regular_add_or_update_item`) and returns the
item's own sync status. -/
def addItemSync (cal : LocalCal) (u : String) (it : LocalItem) : Option (LocalCal × SyncStatus) :=
  match alookup cal u with
  | some _ => none
  | none => some (ainsert cal u it, it.syncStatus)

/-- `CachedCalendar::update_item_sync`: fails if no item with that URL exists,
otherwise replaces it and returns the item's own sync status. -/
def updateItemSync (cal : LocalCal) (u : String) (it : LocalItem) : Option (LocalCal × SyncStatus) :=
  match alookup cal u with
  | none => none
  | some _ => some (ainsert cal u it, it.syncStatus)

/-- `CachedCalendar::mark_for_deletion_sync`: `Synced(v)`, `LocallyModified(v)`
and `LocallyDeleted(v)` all become `LocallyDeleted(v)`; a `NotSynced` item is
removed outright; an absent URL is an error. -/
def markForDeletionSync (cal : LocalCal) (u : String) : Option LocalCal :=
  match alookup cal u with
  | none => none
  | some it =>
    match it.syncStatus with
    | .synced v => some (ainsert cal u ⟨it.data, .locallyDeleted v⟩)
    | .locallyModified v => some (ainsert cal u ⟨it.data, .locallyDeleted v⟩)
    | .locallyDeleted v => some (ainsert cal u ⟨it.data, .locallyDeleted v⟩)
    | .notSynced => some (aremove cal u)

/-- `CachedCalendar::immediately_delete_item_sync`: removes the item; error if
it is absent. -/
def immediatelyDeleteItemSync (cal : LocalCal) (u : String) : Option LocalCal :=
  match alookup cal u with
  | none => none
  | some _ => some (aremove cal u)

/-! ## Remote calendar operations (`src/calendar/remote_calendar.rs`)

The remote operations go through the network, so each takes a fault oracle
describing which requests fail in transport.  The HTTP side of a successful
request follows the CalDAV server contract the code relies on:
a `PUT` with `If-None-Match: *` succeeds iff the URL is free, a `PUT` with
`If-Match: v` succeeds iff the URL holds etag `v`, a `DELETE` succeeds iff the
URL exists, and every successful `PUT` returns a fresh `ETag` header.
The client-side guards (and which header is sent) are taken verbatim from
`remote_calendar.rs`. -/

/-- The precondition header of a CalDAV `PUT`. -/
inductive ReqHeader where
  | ifMatch (v : Tag) : ReqHeader
  | ifNoneMatchStar : ReqHeader
deriving DecidableEq, Repr

/-- An HTTP request issued by a remote-calendar operation. -/
structure Request where
  method : String
  url : String
  header : Option ReqHeader
deriving DecidableEq, Repr

/-- The transport fault oracle: which remote operations fail on the wire. -/
structure Faults where
  tagsFail : Bool
  deleteFails : String → Bool
  addFails : String → Bool
  updateFails : String → Bool
  fetchFails : List String → Bool

/-- The oracle under which every request succeeds. -/
def noFaults : Faults :=
  { tagsFail := false
    deleteFails := fun _ => false
    addFails := fun _ => false
    updateFails := fun _ => false
    fetchFails := fun _ => false }

/-- `RemoteCalendar::get_item_version_tags` (successful case): the server's
URL → etag map, from the `calendar-query` REPORT. -/
def getItemVersionTags (r : RemoteCal) : List (String × Tag) :=
  r.items.map (fun p => (p.1, p.2.tag))

/-- `RemoteCalendar::delete_item`: an HTTP `DELETE`; fails on transport fault
or on a non-success HTTP status (deleting a URL the server does not have). -/
def remoteDeleteItem (F : Faults) (r : RemoteCal) (u : String) :
    Option RemoteCal × List Request :=
  let req : Request := ⟨"DELETE", u, none⟩
  if F.deleteFails u then (none, [req])
  else
    match alookup r.items u with
    | none => (none, [req])
    | some _ => (some { r with items := aremove r.items u }, [req])

/-- `RemoteCalendar::add_item`: a `PUT` with `If-None-Match: *`; on success
the server stores the item under a fresh etag, returned as `Synced(etag)`. -/
def remoteAddItem (F : Faults) (r : RemoteCal) (u : String) (it : LocalItem) :
    Option (RemoteCal × SyncStatus) × List Request :=
  let req : Request := ⟨"PUT", u, some .ifNoneMatchStar⟩
  if F.addFails u then (none, [req])
  else
    match alookup r.items u with
    | some _ => (none, [req])
    | none =>
      (some ({ items := ainsert r.items u ⟨it.data, r.nextTag⟩, nextTag := r.nextTag + 1 },
             .synced r.nextTag), [req])

/-- `RemoteCalendar::update_item`: items whose status is `NotSynced` or
`Synced(_)` are rejected before any request is built; otherwise a `PUT` with
`If-Match: old_etag` is issued, `old_etag` being the tag in the item's status.
On success the server stores the item under a fresh etag. -/
def remoteUpdateItem (F : Faults) (r : RemoteCal) (u : String) (it : LocalItem) :
    Option (RemoteCal × SyncStatus) × List Request :=
  match it.syncStatus with
  | .notSynced => (none, [])
  | .synced _ => (none, [])
  | .locallyModified old =>
    let req : Request := ⟨"PUT", u, some (.ifMatch old)⟩
    if F.updateFails u then (none, [req])
    else
      match alookup r.items u with
      | none => (none, [req])
      | some ri =>
        if ri.tag = old then
          (some ({ items := ainsert r.items u ⟨it.data, r.nextTag⟩, nextTag := r.nextTag + 1 },
                 .synced r.nextTag), [req])
        else (none, [req])
  | .locallyDeleted old =>
    let req : Request := ⟨"PUT", u, some (.ifMatch old)⟩
    if F.updateFails u then (none, [req])
    else
      match alookup r.items u with
      | none => (none, [req])
      | some ri =>
        if ri.tag = old then
          (some ({ items := ainsert r.items u ⟨it.data, r.nextTag⟩, nextTag := r.nextTag + 1 },
                 .synced r.nextTag), [req])
        else (none, [req])

/-- `RemoteCalendar::get_items_by_url`: a `calendar-multiget` REPORT; on
success the reply holds one entry per requested URL the server has (misses
simply do not appear in the reply), each parsed with status
`Synced(etag)`. -/
def getItemsByUrl (F : Faults) (r : RemoteCal) (urls : List String) :
    Option (List (String × RemoteItem)) :=
  if F.fetchFails urls then none
  else some (urls.filterMap fun u => (alookup r.items u).map fun ri => (u, ri))

/-! ## Phase A: classification (`src/provider/mod.rs`, lines 196-297)

`sync_calendar_pair` first classifies every item URL into six sets
(`local_del`, `remote_del`, `local_changes`, `remote_changes`,
`local_additions`, `remote_additions`).  It walks the remote URL → etag map,
maintaining `local_items_to_handle` (initially all local URLs, with every URL
found on the remote removed), then walks the leftover local URLs.
`progress.error`/`progress.warn` calls are counted in `errors` (both increment
`SyncProgress::n_errors`, and `sync` returns success iff that count is 0). -/

/-- The six change sets of phase A, plus the number of errors logged while
computing them. -/
structure Classified where
  localDel : List String
  remoteDel : List String
  localChanges : List String
  remoteChanges : List String
  localAdditions : List String
  remoteAdditions : List String
  errors : Nat
deriving DecidableEq, Repr

def Classified.empty : Classified := ⟨[], [], [], [], [], [], 0⟩

/-- The state of the first classification pass: the remaining
`local_items_to_handle` set and the classification so far. -/
structure Pass1Out where
  th : List String
  c : Classified
deriving DecidableEq, Repr

/-- First classification pass: walk the remote `(url, etag)` entries, deciding
each against the local item (lines 213-263).  Returns the leftover
`local_items_to_handle` set together with the partial classification. -/
def pass1 (loc : LocalCal) : List (String × Tag) → List String → Pass1Out
  | [], th => ⟨th, Classified.empty⟩
  | (u, t) :: rest, th =>
    match alookup loc u with
    | none =>
      -- created on the remote
      let p := pass1 loc rest th
      ⟨p.th, { p.c with remoteAdditions := u :: p.c.remoteAdditions }⟩
    | some it =>
      -- `local_items_to_handle.remove(&url)`: an error is logged if it was
      -- not there (inconsistent state)
      let missErr := if u ∈ th then 0 else 1
      let p := pass1 loc rest (th.erase u)
      match it.syncStatus with
      | .notSynced =>
        -- URL reuse between remote and local sources: log error, skip
        ⟨p.th, { p.c with errors := p.c.errors + missErr + 1 }⟩
      | .synced v =>
        if t ≠ v then
          ⟨p.th, { p.c with remoteChanges := u :: p.c.remoteChanges, errors := p.c.errors + missErr }⟩
        else
          ⟨p.th, { p.c with errors := p.c.errors + missErr }⟩
      | .locallyModified v =>
        if t = v then
          ⟨p.th, { p.c with localChanges := u :: p.c.localChanges, errors := p.c.errors + missErr }⟩
        else
          -- conflict: remote wins
          ⟨p.th, { p.c with remoteChanges := u :: p.c.remoteChanges, errors := p.c.errors + missErr }⟩
      | .locallyDeleted v =>
        if t = v then
          ⟨p.th, { p.c with localDel := u :: p.c.localDel, errors := p.c.errors + missErr }⟩
        else
          -- conflict: remote wins
          ⟨p.th, { p.c with remoteChanges := u :: p.c.remoteChanges, errors := p.c.errors + missErr }⟩

/-- Second classification pass: walk the local URLs that were not seen on the
remote (lines 266-297). -/
def pass2 (loc : LocalCal) : List String → Classified → Classified
  | [], c => c
  | u :: rest, c =>
    let c2 := pass2 loc rest c
    match alookup loc u with
    | none => { c2 with errors := c2.errors + 1 }
    | some it =>
      match it.syncStatus with
      | .synced _ => { c2 with remoteDel := u :: c2.remoteDel }
      | .notSynced => { c2 with localAdditions := u :: c2.localAdditions }
      | .locallyDeleted _ => { c2 with remoteDel := u :: c2.remoteDel }
      | .locallyModified _ =>
        -- conflict: deleted from the server, locally modified; local copy goes
        { c2 with remoteDel := u :: c2.remoteDel }

/-- Phase A: classification of a calendar pair. -/
def classify (loc : LocalCal) (rem : RemoteCal) : Classified :=
  let p := pass1 loc (getItemVersionTags rem) (akeys loc)
  pass2 loc p.th p.c

/-! ## Phase B: applying the changes (`src/provider/mod.rs`, lines 300-404)

The six steps run in the textual order of the code:
local deletions, remote deletions, remote additions (batched), remote changes
(batched), local additions, local changes.  Each step returns the updated
state, the number of errors logged, and the list of calendar-mutating /
network operations it performed, in order. -/

/-- An observable operation performed during phase B. -/
inductive Event where
  | remoteDelete (u : String) : Event
  | localDelete (u : String) : Event
  | fetch (urls : List String) : Event
  | localAdd (u : String) : Event
  | localUpdate (u : String) : Event
  | remoteAdd (u : String) : Event
  | remoteUpdate (u : String) : Event
deriving DecidableEq, Repr

/-- The result of a phase-B step that can touch both calendars. -/
structure StepLR where
  loc : LocalCal
  rem : RemoteCal
  errs : Nat
  tr : List Event
deriving DecidableEq, Repr

/-- The result of a phase-B step that only touches the local calendar. -/
structure StepL where
  loc : LocalCal
  errs : Nat
  tr : List Event
deriving DecidableEq, Repr

/-- Step 1 (lines 302-322): push each local deletion to the server with
`delete_item`; on success clear the local tombstone with
`immediately_delete_item`; on failure log a warning and keep the tombstone. -/
def step1 (F : Faults) : List String → LocalCal → RemoteCal → StepLR
  | [], loc, rem => ⟨loc, rem, 0, []⟩
  | u :: rest, loc, rem =>
    match remoteDeleteItem F rem u with
    | (none, _) =>
      let s := step1 F rest loc rem
      ⟨s.loc, s.rem, s.errs + 1, .remoteDelete u :: s.tr⟩
    | (some rem2, _) =>
      match immediatelyDeleteItemSync loc u with
      | none =>
        let s := step1 F rest loc rem2
        ⟨s.loc, s.rem, s.errs + 1, .remoteDelete u :: .localDelete u :: s.tr⟩
      | some loc2 =>
        let s := step1 F rest loc2 rem2
        ⟨s.loc, s.rem, s.errs, .remoteDelete u :: .localDelete u :: s.tr⟩

/-- Step 2 (lines 324-335): apply each remote deletion locally with
`immediately_delete_item`; a failure is a logged warning. -/
def step2 : List String → LocalCal → StepL
  | [], loc => ⟨loc, 0, []⟩
  | u :: rest, loc =>
    match immediatelyDeleteItemSync loc u with
    | none =>
      let s := step2 rest loc
      ⟨s.loc, s.errs + 1, .localDelete u :: s.tr⟩
    | some loc2 =>
      let s := step2 rest loc2
      ⟨s.loc, s.errs, .localDelete u :: s.tr⟩

/-- How many items are batched in one download request
(`DOWNLOAD_BATCH_SIZE`, 30 outside tests). -/
def DOWNLOAD_BATCH_SIZE : Nat := 30

/-- Split a list into chunks of `n + 1` elements (`Itertools::chunks`; the
code always uses a positive chunk size). -/
def chunks {α : Type} (n : Nat) : List α → List (List α)
  | [] => []
  | x :: xs => (x :: xs.take n) :: chunks n (xs.drop n)
termination_by l => l.length
decreasing_by
  simp only [List.length_drop, List.length_cons]
  omega

/-- Apply one fetched item locally: `add_item` for remote additions,
`update_item` for remote changes (lines 459-466); a failure is a logged
error. -/
def applyFetched (isAdd : Bool) (loc : LocalCal) (u : String) (ri : RemoteItem) :
    LocalCal × Nat :=
  let newItem : LocalItem := ⟨ri.data, .synced ri.tag⟩
  match (if isAdd then addItemSync loc u newItem else updateItemSync loc u newItem) with
  | none => (loc, 1)
  | some (loc2, _) => (loc2, 0)

/-- Apply every item of one fetched batch reply, in reply order. -/
def applyFetchedList (isAdd : Bool) : List (String × RemoteItem) → LocalCal → StepL
  | [], loc => ⟨loc, 0, []⟩
  | (u, ri) :: rest, loc =>
    let a := applyFetched isAdd loc u ri
    let s := applyFetchedList isAdd rest a.1
    ⟨s.loc, a.2 + s.errs,
      (if isAdd then Event.localAdd u else Event.localUpdate u) :: s.tr⟩

/-- `Provider::fetch_batch_and_apply` (lines 436-483): one
`get_items_by_url` request for the batch; if it fails, warn and skip the
whole batch, otherwise apply every returned item locally. -/
def fetchBatchAndApply (F : Faults) (isAdd : Bool) (batch : List String)
    (loc : LocalCal) (rem : RemoteCal) : StepL :=
  match getItemsByUrl F rem batch with
  | none => ⟨loc, 1, [.fetch batch]⟩
  | some items =>
    let s := applyFetchedList isAdd items loc
    ⟨s.loc, s.errs, .fetch batch :: s.tr⟩

/-- Steps 3 and 4 (`apply_remote_additions` / `apply_remote_changes`,
lines 412-434): process the URL set in batches of `DOWNLOAD_BATCH_SIZE`. -/
def applyBatches (F : Faults) (isAdd : Bool) : List (List String) → LocalCal → RemoteCal → StepL
  | [], loc, _ => ⟨loc, 0, []⟩
  | batch :: rest, loc, rem =>
    let b := fetchBatchAndApply F isAdd batch loc rem
    let s := applyBatches F isAdd rest b.loc rem
    ⟨s.loc, b.errs + s.errs, b.tr ++ s.tr⟩

/-- Step 5 (lines 354-377): push each local addition with the remote
`add_item`; on success overwrite the local item's sync status with the
returned `Synced(new_etag)`; on failure log an error and leave it. -/
def step5 (F : Faults) : List String → LocalCal → RemoteCal → StepLR
  | [], loc, rem => ⟨loc, rem, 0, []⟩
  | u :: rest, loc, rem =>
    match alookup loc u with
    | none =>
      -- inconsistency: marked for upload but locally missing
      let s := step5 F rest loc rem
      ⟨s.loc, s.rem, s.errs + 1, s.tr⟩
    | some it =>
      match remoteAddItem F rem u it with
      | (none, _) =>
        let s := step5 F rest loc rem
        ⟨s.loc, s.rem, s.errs + 1, .remoteAdd u :: s.tr⟩
      | (some (rem2, newSS), _) =>
        let s := step5 F rest (ainsert loc u ⟨it.data, newSS⟩) rem2
        ⟨s.loc, s.rem, s.errs, .remoteAdd u :: s.tr⟩

/-- Step 6 (lines 379-402): push each local change with the remote
`update_item`; on success overwrite the local item's sync status with the
returned `Synced(new_etag)`; on failure log an error and leave it. -/
def step6 (F : Faults) : List String → LocalCal → RemoteCal → StepLR
  | [], loc, rem => ⟨loc, rem, 0, []⟩
  | u :: rest, loc, rem =>
    match alookup loc u with
    | none =>
      let s := step6 F rest loc rem
      ⟨s.loc, s.rem, s.errs + 1, s.tr⟩
    | some it =>
      match remoteUpdateItem F rem u it with
      | (none, _) =>
        let s := step6 F rest loc rem
        ⟨s.loc, s.rem, s.errs + 1, .remoteUpdate u :: s.tr⟩
      | (some (rem2, newSS), _) =>
        let s := step6 F rest (ainsert loc u ⟨it.data, newSS⟩) rem2
        ⟨s.loc, s.rem, s.errs, .remoteUpdate u :: s.tr⟩

/-! ## `Provider::sync_calendar_pair` (lines 183-405) -/

/-- The outcome of syncing one calendar pair: final states, number of errors
logged, and the trace of operations, each annotated with the phase-B step
(1-6) that performed it. -/
structure PairOutcome where
  loc : LocalCal
  rem : RemoteCal
  errors : Nat
  trace : List (Nat × Event)
deriving DecidableEq, Repr

/-- `Provider::sync_calendar_pair`: classify, then apply the six steps in
order.  If `get_item_version_tags` fails, the function returns early with an
error and no state change (the caller logs one warning). -/
def syncCalendarPair (F : Faults) (loc : LocalCal) (rem : RemoteCal) : PairOutcome :=
  if F.tagsFail then ⟨loc, rem, 1, []⟩
  else
    let c := classify loc rem
    let s1 := step1 F c.localDel loc rem
    let s2 := step2 c.remoteDel s1.loc
    let s3 := applyBatches F true (chunks (DOWNLOAD_BATCH_SIZE - 1) c.remoteAdditions) s2.loc s1.rem
    let s4 := applyBatches F false (chunks (DOWNLOAD_BATCH_SIZE - 1) c.remoteChanges) s3.loc s1.rem
    let s5 := step5 F c.localAdditions s4.loc s1.rem
    let s6 := step6 F c.localChanges s5.loc s5.rem
    ⟨s6.loc, s6.rem, c.errors + s1.errs + s2.errs + s3.errs + s4.errs + s5.errs + s6.errs,
      s1.tr.map (1, ·) ++ s2.tr.map (2, ·) ++ s3.tr.map (3, ·) ++
      s4.tr.map (4, ·) ++ s5.tr.map (5, ·) ++ s6.tr.map (6, ·)⟩

/-! ## Phase A characterisation

The decision table of the specification, stated as per-URL predicates, and
the proof that `classify` computes exactly these. -/

theorem alookup_eq_some_iff_mem {α : Type} {l : List (String × α)} {u : String} {v : α}
    (hl : NodupKeys l) : alookup l u = some v ↔ (u, v) ∈ l := by
  induction l with
  | nil => simp
  | cons hd tl ih =>
    obtain ⟨k, w⟩ := hd
    simp only [NodupKeys, akeys_cons, List.nodup_cons] at hl
    by_cases h : k = u
    · subst h
      rw [alookup_cons, if_pos rfl]
      constructor
      · intro hv
        injection hv with hv
        rw [← hv]
        exact List.mem_cons_self _ _
      · intro hmem
        rcases List.mem_cons.mp hmem with he | hm
        · injection he with h1 h2
          rw [h2]
        · exact absurd (List.mem_map_of_mem Prod.fst hm) hl.1
    · rw [alookup_cons, if_neg h, ih hl.2]
      constructor
      · intro hm
        exact List.mem_cons_of_mem _ hm
      · intro hm
        rcases List.mem_cons.mp hm with he | hm2
        · exact absurd (congrArg Prod.fst he).symm h
        · exact hm2

/-- Decision table: a URL on the remote and absent locally is a remote
addition. -/
def isRemoteAddition (loc : LocalCal) (u : String) : Bool :=
  (alookup loc u).isNone

/-- Decision table: a URL on the remote whose local copy carries an etag
different from the remote one (`Synced`, or the two conflict rows) is a
remote change. -/
def isRemoteChange (loc : LocalCal) (u : String) (t : Tag) : Bool :=
  match alookup loc u with
  | none => false
  | some it =>
    match it.syncStatus with
    | .notSynced => false
    | .synced v => decide (t ≠ v)
    | .locallyModified v => decide (t ≠ v)
    | .locallyDeleted v => decide (t ≠ v)

/-- Decision table: locally modified, remote etag unchanged. -/
def isLocalChange (loc : LocalCal) (u : String) (t : Tag) : Bool :=
  match alookup loc u with
  | none => false
  | some it =>
    match it.syncStatus with
    | .locallyModified v => decide (t = v)
    | _ => false

/-- Decision table: locally deleted, remote etag unchanged. -/
def isLocalDeletion (loc : LocalCal) (u : String) (t : Tag) : Bool :=
  match alookup loc u with
  | none => false
  | some it =>
    match it.syncStatus with
    | .locallyDeleted v => decide (t = v)
    | _ => false

/-- Decision table: URL reuse — a `NotSynced` local item at a URL the remote
also owns; logged and skipped. -/
def isUrlReuse (loc : LocalCal) (u : String) : Bool :=
  match alookup loc u with
  | none => false
  | some it =>
    match it.syncStatus with
    | .notSynced => true
    | _ => false

/-- Decision table (second pass): a local-only `NotSynced` URL is a local
addition. -/
def isLocalAddition (loc : LocalCal) (u : String) : Bool :=
  match alookup loc u with
  | none => false
  | some it =>
    match it.syncStatus with
    | .notSynced => true
    | _ => false

/-- Decision table (second pass): a local-only URL previously seen by the
server (`Synced`, `LocallyModified` or `LocallyDeleted`) is a remote
deletion. -/
def isRemoteDeletion (loc : LocalCal) (u : String) : Bool :=
  match alookup loc u with
  | none => false
  | some it =>
    match it.syncStatus with
    | .notSynced => false
    | _ => true

theorem pass1_remoteAdditions (loc : LocalCal) (rem : List (String × Tag)) :
    ∀ th, (pass1 loc rem th).c.remoteAdditions =
      rem.filterMap (fun p => if isRemoteAddition loc p.1 then some p.1 else none) := by
  induction rem with
  | nil => intro th; rfl
  | cons hd rest ih =>
    intro th
    obtain ⟨u, t⟩ := hd
    simp only [pass1, List.filterMap_cons]
    cases hl : alookup loc u with
    | none => simp [isRemoteAddition, hl, ih]
    | some it =>
      cases hs : it.syncStatus
      all_goals simp only [hs]
      all_goals (try split_ifs)
      all_goals simp_all [isRemoteAddition, ih]

theorem pass1_remoteChanges (loc : LocalCal) (rem : List (String × Tag)) :
    ∀ th, (pass1 loc rem th).c.remoteChanges =
      rem.filterMap (fun p => if isRemoteChange loc p.1 p.2 then some p.1 else none) := by
  induction rem with
  | nil => intro th; rfl
  | cons hd rest ih =>
    intro th
    obtain ⟨u, t⟩ := hd
    simp only [pass1, List.filterMap_cons]
    cases hl : alookup loc u with
    | none => simp [isRemoteChange, hl, ih]
    | some it =>
      cases hs : it.syncStatus
      all_goals simp only [hs]
      all_goals (try split_ifs)
      all_goals simp_all [isRemoteChange, ih]

theorem pass1_localChanges (loc : LocalCal) (rem : List (String × Tag)) :
    ∀ th, (pass1 loc rem th).c.localChanges =
      rem.filterMap (fun p => if isLocalChange loc p.1 p.2 then some p.1 else none) := by
  induction rem with
  | nil => intro th; rfl
  | cons hd rest ih =>
    intro th
    obtain ⟨u, t⟩ := hd
    simp only [pass1, List.filterMap_cons]
    cases hl : alookup loc u with
    | none => simp [isLocalChange, hl, ih]
    | some it =>
      cases hs : it.syncStatus
      all_goals simp only [hs]
      all_goals (try split_ifs)
      all_goals simp_all [isLocalChange, ih]

theorem pass1_localDel (loc : LocalCal) (rem : List (String × Tag)) :
    ∀ th, (pass1 loc rem th).c.localDel =
      rem.filterMap (fun p => if isLocalDeletion loc p.1 p.2 then some p.1 else none) := by
  induction rem with
  | nil => intro th; rfl
  | cons hd rest ih =>
    intro th
    obtain ⟨u, t⟩ := hd
    simp only [pass1, List.filterMap_cons]
    cases hl : alookup loc u with
    | none => simp [isLocalDeletion, hl, ih]
    | some it =>
      cases hs : it.syncStatus
      all_goals simp only [hs]
      all_goals (try split_ifs)
      all_goals simp_all [isLocalDeletion, ih]

theorem pass1_localAdditions (loc : LocalCal) (rem : List (String × Tag)) :
    ∀ th, (pass1 loc rem th).c.localAdditions = [] := by
  induction rem with
  | nil => intro th; rfl
  | cons hd rest ih =>
    intro th
    obtain ⟨u, t⟩ := hd
    simp only [pass1]
    cases hl : alookup loc u with
    | none => simp [ih]
    | some it =>
      cases hs : it.syncStatus
      all_goals simp only [hs]
      all_goals (try split_ifs)
      all_goals simp_all [ih]

theorem pass1_remoteDel (loc : LocalCal) (rem : List (String × Tag)) :
    ∀ th, (pass1 loc rem th).c.remoteDel = [] := by
  induction rem with
  | nil => intro th; rfl
  | cons hd rest ih =>
    intro th
    obtain ⟨u, t⟩ := hd
    simp only [pass1]
    cases hl : alookup loc u with
    | none => simp [ih]
    | some it =>
      cases hs : it.syncStatus
      all_goals simp only [hs]
      all_goals (try split_ifs)
      all_goals simp_all [ih]

theorem pass1_th_mem (loc : LocalCal) (rem : List (String × Tag)) :
    ∀ th, th.Nodup → ∀ x,
      (x ∈ (pass1 loc rem th).th ↔
        x ∈ th ∧ ∀ t, (x, t) ∈ rem → alookup loc x = none) := by
  induction rem with
  | nil =>
    intro th hn x
    simp [pass1]
  | cons hd rest ih =>
    intro th hn x
    obtain ⟨u, t⟩ := hd
    simp only [pass1]
    cases hl : alookup loc u with
    | none =>
      rw [ih th hn x]
      apply and_congr_right
      intro hx
      constructor
      · intro hall t2 hmem
        rcases List.mem_cons.mp hmem with he | hm
        · have hxu : x = u := congrArg Prod.fst he
          rw [hxu, hl]
        · exact hall t2 hm
      · intro hall t2 hm
        exact hall t2 (List.mem_cons_of_mem _ hm)
    | some it =>
      have key : x ∈ (pass1 loc rest (th.erase u)).th ↔
          x ∈ th ∧ ∀ t2, (x, t2) ∈ (u, t) :: rest → alookup loc x = none := by
        rw [ih (th.erase u) (hn.erase u) x, hn.mem_erase_iff]
        by_cases hxu : x = u
        · subst hxu
          constructor
          · intro h
            exact absurd rfl h.1.1
          · rintro ⟨hx, hall⟩
            have h0 := hall t (List.mem_cons_self _ _)
            rw [hl] at h0
            cases h0
        · constructor
          · rintro ⟨⟨hne, hx⟩, hall⟩
            refine ⟨hx, ?_⟩
            intro t2 hmem
            rcases List.mem_cons.mp hmem with he | hm
            · exact absurd (congrArg Prod.fst he) hxu
            · exact hall t2 hm
          · rintro ⟨hx, hall⟩
            exact ⟨⟨hxu, hx⟩, fun t2 hm => hall t2 (List.mem_cons_of_mem _ hm)⟩
      cases hs : it.syncStatus
      all_goals simp only [hs]
      all_goals (try split_ifs)
      all_goals simpa using key

theorem pass2_preserves (loc : LocalCal) :
    ∀ (l : List String) (c : Classified),
      (pass2 loc l c).remoteAdditions = c.remoteAdditions ∧
      (pass2 loc l c).remoteChanges = c.remoteChanges ∧
      (pass2 loc l c).localChanges = c.localChanges ∧
      (pass2 loc l c).localDel = c.localDel := by
  intro l
  induction l with
  | nil => intro c; exact ⟨rfl, rfl, rfl, rfl⟩
  | cons u rest ih =>
    intro c
    simp only [pass2]
    cases hl : alookup loc u with
    | none => simpa using ih c
    | some it =>
      cases hs : it.syncStatus
      all_goals simp only [hs]
      all_goals simpa using ih c

theorem pass2_localAdditions (loc : LocalCal) :
    ∀ (l : List String) (c : Classified),
      (pass2 loc l c).localAdditions =
        l.filter (fun u => isLocalAddition loc u) ++ c.localAdditions := by
  intro l
  induction l with
  | nil => intro c; simp [pass2]
  | cons u rest ih =>
    intro c
    simp only [pass2, List.filter_cons]
    cases hl : alookup loc u with
    | none => simp [isLocalAddition, hl, ih]
    | some it =>
      cases hs : it.syncStatus
      all_goals simp only [hs]
      all_goals simp_all [isLocalAddition, ih]

theorem pass2_remoteDel (loc : LocalCal) :
    ∀ (l : List String) (c : Classified),
      (pass2 loc l c).remoteDel =
        l.filter (fun u => isRemoteDeletion loc u) ++ c.remoteDel := by
  intro l
  induction l with
  | nil => intro c; simp [pass2]
  | cons u rest ih =>
    intro c
    simp only [pass2, List.filter_cons]
    cases hl : alookup loc u with
    | none => simp [isRemoteDeletion, hl, ih]
    | some it =>
      cases hs : it.syncStatus
      all_goals simp only [hs]
      all_goals simp_all [isRemoteDeletion, ih]

theorem mem_getItemVersionTags {rem : RemoteCal} (hr : NodupKeys rem.items)
    (u : String) (t : Tag) :
    (u, t) ∈ getItemVersionTags rem ↔
      ∃ ri, alookup rem.items u = some ri ∧ ri.tag = t := by
  unfold getItemVersionTags
  rw [List.mem_map]
  constructor
  · rintro ⟨p, hp, he⟩
    injection he with h1 h2
    refine ⟨p.2, ?_, h2⟩
    rw [alookup_eq_some_iff_mem hr, ← h1]
    exact hp
  · rintro ⟨ri, hri, htag⟩
    refine ⟨(u, ri), ?_, ?_⟩
    · exact (alookup_eq_some_iff_mem hr).mp hri
    · rw [htag]

theorem exists_mem_getItemVersionTags (rem : RemoteCal) (x : String) :
    (∃ t, (x, t) ∈ getItemVersionTags rem) ↔ x ∈ akeys rem.items := by
  unfold getItemVersionTags akeys
  constructor
  · rintro ⟨t, ht⟩
    rw [List.mem_map] at ht
    obtain ⟨p, hp, he⟩ := ht
    injection he with h1 h2
    rw [List.mem_map]
    exact ⟨p, hp, h1⟩
  · intro hx
    rw [List.mem_map] at hx
    obtain ⟨p, hp, he⟩ := hx
    refine ⟨p.2.tag, ?_⟩
    rw [List.mem_map]
    refine ⟨p, hp, ?_⟩
    rw [he]

theorem isRemoteChange_iff (loc : LocalCal) (u : String) (t : Tag) :
    isRemoteChange loc u t = true ↔
      ∃ it, alookup loc u = some it ∧ ∃ v,
        (it.syncStatus = .synced v ∨ it.syncStatus = .locallyModified v ∨
         it.syncStatus = .locallyDeleted v) ∧ t ≠ v := by
  unfold isRemoteChange
  cases hil : alookup loc u with
  | none => simp
  | some it =>
    cases hss : it.syncStatus
    all_goals simp [hss]

theorem isLocalChange_iff (loc : LocalCal) (u : String) (t : Tag) :
    isLocalChange loc u t = true ↔
      ∃ it v, alookup loc u = some it ∧ it.syncStatus = .locallyModified v ∧ t = v := by
  unfold isLocalChange
  cases hil : alookup loc u with
  | none => simp
  | some it =>
    cases hss : it.syncStatus
    all_goals simp [hss, eq_comm]

theorem isLocalDeletion_iff (loc : LocalCal) (u : String) (t : Tag) :
    isLocalDeletion loc u t = true ↔
      ∃ it v, alookup loc u = some it ∧ it.syncStatus = .locallyDeleted v ∧ t = v := by
  unfold isLocalDeletion
  cases hil : alookup loc u with
  | none => simp
  | some it =>
    cases hss : it.syncStatus
    all_goals simp [hss, eq_comm]

theorem isLocalAddition_iff (loc : LocalCal) (u : String) :
    isLocalAddition loc u = true ↔
      ∃ it, alookup loc u = some it ∧ it.syncStatus = .notSynced := by
  unfold isLocalAddition
  cases hil : alookup loc u with
  | none => simp
  | some it =>
    cases hss : it.syncStatus
    all_goals simp [hss]

theorem isRemoteDeletion_iff (loc : LocalCal) (u : String) :
    isRemoteDeletion loc u = true ↔
      ∃ it v, alookup loc u = some it ∧
        (it.syncStatus = .synced v ∨ it.syncStatus = .locallyModified v ∨
         it.syncStatus = .locallyDeleted v) := by
  unfold isRemoteDeletion
  cases hil : alookup loc u with
  | none => simp
  | some it =>
    cases hss : it.syncStatus
    all_goals simp [hss]

/-- Membership in `remote_additions`: on the remote, absent locally. -/
theorem classify_remoteAdditions_mem (loc : LocalCal) (rem : RemoteCal)
    (hr : NodupKeys rem.items) (u : String) :
    u ∈ (classify loc rem).remoteAdditions ↔
      (∃ ri, alookup rem.items u = some ri) ∧ alookup loc u = none := by
  unfold classify
  rw [(pass2_preserves loc _ _).1, pass1_remoteAdditions, List.mem_filterMap]
  constructor
  · rintro ⟨p, hp, he⟩
    by_cases hc : isRemoteAddition loc p.1
    · rw [if_pos hc] at he
      injection he with he
      subst he
      simp only [isRemoteAddition, Option.isNone_iff_eq_none] at hc
      obtain ⟨ri, hri, -⟩ := (mem_getItemVersionTags hr p.1 p.2).mp (by simpa using hp)
      exact ⟨⟨ri, hri⟩, hc⟩
    · rw [if_neg hc] at he
      cases he
  · rintro ⟨⟨ri, hri⟩, hnone⟩
    refine ⟨(u, ri.tag), ?_, ?_⟩
    · exact (mem_getItemVersionTags hr u ri.tag).mpr ⟨ri, hri, rfl⟩
    · have hc : isRemoteAddition loc u := by
        simp [isRemoteAddition, hnone]
      rw [if_pos hc]

/-- Membership in `remote_changes`: on both sides, and the local status
carries an etag different from the remote one (the `Synced` row, or either
conflict row). -/
theorem classify_remoteChanges_mem (loc : LocalCal) (rem : RemoteCal)
    (hr : NodupKeys rem.items) (u : String) :
    u ∈ (classify loc rem).remoteChanges ↔
      ∃ ri it, alookup rem.items u = some ri ∧ alookup loc u = some it ∧
        ∃ v, (it.syncStatus = .synced v ∨ it.syncStatus = .locallyModified v ∨
              it.syncStatus = .locallyDeleted v) ∧ ri.tag ≠ v := by
  unfold classify
  rw [(pass2_preserves loc _ _).2.1, pass1_remoteChanges, List.mem_filterMap]
  constructor
  · rintro ⟨p, hp, he⟩
    by_cases hc : isRemoteChange loc p.1 p.2
    · rw [if_pos hc] at he
      injection he with he
      subst he
      obtain ⟨ri, hri, htag⟩ := (mem_getItemVersionTags hr p.1 p.2).mp (by simpa using hp)
      obtain ⟨it, hil, v, hss, hne⟩ := (isRemoteChange_iff loc p.1 p.2).mp hc
      refine ⟨ri, it, hri, hil, v, hss, ?_⟩
      rw [htag]
      exact hne
    · rw [if_neg hc] at he
      cases he
  · rintro ⟨ri, it, hri, hil, v, hss, hne⟩
    refine ⟨(u, ri.tag), (mem_getItemVersionTags hr u ri.tag).mpr ⟨ri, hri, rfl⟩, ?_⟩
    have hc : isRemoteChange loc u ri.tag = true :=
      (isRemoteChange_iff loc u ri.tag).mpr ⟨it, hil, v, hss, hne⟩
    rw [if_pos hc]

/-- Membership in `local_changes`: locally modified, remote etag unchanged. -/
theorem classify_localChanges_mem (loc : LocalCal) (rem : RemoteCal)
    (hr : NodupKeys rem.items) (u : String) :
    u ∈ (classify loc rem).localChanges ↔
      ∃ ri it v, alookup rem.items u = some ri ∧ alookup loc u = some it ∧
        it.syncStatus = .locallyModified v ∧ ri.tag = v := by
  unfold classify
  rw [(pass2_preserves loc _ _).2.2.1, pass1_localChanges, List.mem_filterMap]
  constructor
  · rintro ⟨p, hp, he⟩
    by_cases hc : isLocalChange loc p.1 p.2
    · rw [if_pos hc] at he
      injection he with he
      subst he
      obtain ⟨ri, hri, htag⟩ := (mem_getItemVersionTags hr p.1 p.2).mp (by simpa using hp)
      obtain ⟨it, v, hil, hss, hv⟩ := (isLocalChange_iff loc p.1 p.2).mp hc
      refine ⟨ri, it, v, hri, hil, hss, ?_⟩
      rw [htag, hv]
    · rw [if_neg hc] at he
      cases he
  · rintro ⟨ri, it, v, hri, hil, hss, htag⟩
    refine ⟨(u, ri.tag), (mem_getItemVersionTags hr u ri.tag).mpr ⟨ri, hri, rfl⟩, ?_⟩
    have hc : isLocalChange loc u ri.tag = true :=
      (isLocalChange_iff loc u ri.tag).mpr ⟨it, v, hil, hss, htag⟩
    rw [if_pos hc]

/-- Membership in `local_deletions`: locally deleted, remote etag
unchanged. -/
theorem classify_localDel_mem (loc : LocalCal) (rem : RemoteCal)
    (hr : NodupKeys rem.items) (u : String) :
    u ∈ (classify loc rem).localDel ↔
      ∃ ri it v, alookup rem.items u = some ri ∧ alookup loc u = some it ∧
        it.syncStatus = .locallyDeleted v ∧ ri.tag = v := by
  unfold classify
  rw [(pass2_preserves loc _ _).2.2.2, pass1_localDel, List.mem_filterMap]
  constructor
  · rintro ⟨p, hp, he⟩
    by_cases hc : isLocalDeletion loc p.1 p.2
    · rw [if_pos hc] at he
      injection he with he
      subst he
      obtain ⟨ri, hri, htag⟩ := (mem_getItemVersionTags hr p.1 p.2).mp (by simpa using hp)
      obtain ⟨it, v, hil, hss, hv⟩ := (isLocalDeletion_iff loc p.1 p.2).mp hc
      refine ⟨ri, it, v, hri, hil, hss, ?_⟩
      rw [htag, hv]
    · rw [if_neg hc] at he
      cases he
  · rintro ⟨ri, it, v, hri, hil, hss, htag⟩
    refine ⟨(u, ri.tag), (mem_getItemVersionTags hr u ri.tag).mpr ⟨ri, hri, rfl⟩, ?_⟩
    have hc : isLocalDeletion loc u ri.tag = true :=
      (isLocalDeletion_iff loc u ri.tag).mpr ⟨it, v, hil, hss, htag⟩
    rw [if_pos hc]

/-- Membership in the leftover `local_items_to_handle` set after the first
pass: local URLs absent from the remote. -/
theorem classify_leftover_mem (loc : LocalCal) (rem : RemoteCal)
    (hl : NodupKeys loc) (x : String) :
    x ∈ (pass1 loc (getItemVersionTags rem) (akeys loc)).th ↔
      (alookup loc x).isSome ∧ alookup rem.items x = none := by
  rw [pass1_th_mem loc _ (akeys loc) hl x, alookup_isSome_iff_mem]
  apply and_congr_right
  intro hx
  have hsome : (alookup loc x).isSome := (alookup_isSome_iff_mem loc x).mpr hx
  constructor
  · intro hall
    rw [alookup_eq_none_iff_not_mem]
    intro hmem
    obtain ⟨t, ht⟩ := (exists_mem_getItemVersionTags rem x).mpr hmem
    have h0 := hall t ht
    rw [h0] at hsome
    cases hsome
  · intro hnone t ht
    have hmem := (exists_mem_getItemVersionTags rem x).mp ⟨t, ht⟩
    rw [alookup_eq_none_iff_not_mem] at hnone
    exact absurd hmem hnone

/-- Membership in `local_additions`: local-only, never synced. -/
theorem classify_localAdditions_mem (loc : LocalCal) (rem : RemoteCal)
    (hl : NodupKeys loc) (u : String) :
    u ∈ (classify loc rem).localAdditions ↔
      (∃ it, alookup loc u = some it ∧ it.syncStatus = .notSynced) ∧
      alookup rem.items u = none := by
  unfold classify
  rw [pass2_localAdditions, List.mem_append, List.mem_filter, pass1_localAdditions]
  constructor
  · intro hmem
    rcases hmem with ⟨hth, hla⟩ | hnil
    · have hleft := (classify_leftover_mem loc rem hl u).mp hth
      obtain ⟨it, hil, hss⟩ := (isLocalAddition_iff loc u).mp hla
      exact ⟨⟨it, hil, hss⟩, hleft.2⟩
    · cases hnil
  · rintro ⟨⟨it, hil, hss⟩, hnone⟩
    left
    constructor
    · rw [classify_leftover_mem loc rem hl u]
      exact ⟨by rw [hil]; rfl, hnone⟩
    · exact (isLocalAddition_iff loc u).mpr ⟨it, hil, hss⟩

/-- Membership in `remote_deletions`: local-only, but previously seen by the
server. -/
theorem classify_remoteDel_mem (loc : LocalCal) (rem : RemoteCal)
    (hl : NodupKeys loc) (u : String) :
    u ∈ (classify loc rem).remoteDel ↔
      (∃ it v, alookup loc u = some it ∧
        (it.syncStatus = .synced v ∨ it.syncStatus = .locallyModified v ∨
         it.syncStatus = .locallyDeleted v)) ∧
      alookup rem.items u = none := by
  unfold classify
  rw [pass2_remoteDel, List.mem_append, List.mem_filter, pass1_remoteDel]
  constructor
  · intro hmem
    rcases hmem with ⟨hth, hrd⟩ | hnil
    · have hleft := (classify_leftover_mem loc rem hl u).mp hth
      obtain ⟨it, v, hil, hss⟩ := (isRemoteDeletion_iff loc u).mp hrd
      exact ⟨⟨it, v, hil, hss⟩, hleft.2⟩
    · cases hnil
  · rintro ⟨⟨it, v, hil, hss⟩, hnone⟩
    left
    constructor
    · rw [classify_leftover_mem loc rem hl u]
      exact ⟨by rw [hil]; rfl, hnone⟩
    · exact (isRemoteDeletion_iff loc u).mpr ⟨it, v, hil, hss⟩

theorem pass1_errors_pos_of_reuse (loc : LocalCal) (rem : List (String × Tag)) :
    ∀ th, (∃ p ∈ rem, ∃ it, alookup loc p.1 = some it ∧ it.syncStatus = .notSynced) →
      0 < (pass1 loc rem th).c.errors := by
  induction rem with
  | nil =>
    intro th h
    obtain ⟨p, hp, -⟩ := h
    cases hp
  | cons hd rest ih =>
    intro th h
    obtain ⟨u, t⟩ := hd
    simp only [pass1]
    cases hl : alookup loc u with
    | none =>
      have hrest : ∃ p ∈ rest, ∃ it, alookup loc p.1 = some it ∧ it.syncStatus = .notSynced := by
        obtain ⟨p, hp, it, hil, hss⟩ := h
        rcases List.mem_cons.mp hp with he | hm
        · rw [he] at hil
          simp only at hil
          rw [hl] at hil
          cases hil
        · exact ⟨p, hm, it, hil, hss⟩
      simpa using ih th hrest
    | some it =>
      cases hss : it.syncStatus
      case notSynced =>
        simp only [hss]
        split_ifs <;> simp
      all_goals
        have hrest : ∃ p ∈ rest, ∃ it, alookup loc p.1 = some it ∧
            it.syncStatus = .notSynced := by
          obtain ⟨p, hp, it2, hil, hss2⟩ := h
          rcases List.mem_cons.mp hp with he | hm
          · rw [he] at hil
            simp only at hil
            rw [hl] at hil
            injection hil with hil
            rw [hil, hss2] at hss
            simp at hss
          · exact ⟨p, hm, it2, hil, hss2⟩
      all_goals have hih := ih (th.erase u) hrest
      all_goals simp only [hss]
      all_goals (try split_ifs)
      all_goals (try simp)
      all_goals omega

theorem pass2_errors_mono (loc : LocalCal) :
    ∀ (l : List String) (c : Classified), c.errors ≤ (pass2 loc l c).errors := by
  intro l
  induction l with
  | nil => intro c; exact Nat.le_refl _
  | cons u rest ih =>
    intro c
    simp only [pass2]
    cases hl : alookup loc u with
    | none =>
      have := ih c
      simp only []
      omega
    | some it =>
      cases hss : it.syncStatus
      all_goals simp only [hss]
      all_goals have := ih c
      all_goals simp
      all_goals omega

/-- A sync that logged no classification error has no URL-reuse item: no
`NotSynced` local item sits at a URL the remote owns. -/
theorem classify_errors_zero_no_reuse (loc : LocalCal) (rem : RemoteCal)
    (h : (classify loc rem).errors = 0) :
    ∀ u it ri, alookup loc u = some it → alookup rem.items u = some ri →
      it.syncStatus ≠ .notSynced := by
  intro u it ri hil hri hss
  have hmem : (u, ri.tag) ∈ getItemVersionTags rem := by
    unfold getItemVersionTags
    rw [List.mem_map]
    exact ⟨(u, ri), mem_of_alookup hri, rfl⟩
  have hpos := pass1_errors_pos_of_reuse loc (getItemVersionTags rem) (akeys loc)
    ⟨(u, ri.tag), hmem, it, hil, hss⟩
  have hmono := pass2_errors_mono loc
    (pass1 loc (getItemVersionTags rem) (akeys loc)).th
    (pass1 loc (getItemVersionTags rem) (akeys loc)).c
  have h2 : (pass2 loc (pass1 loc (getItemVersionTags rem) (akeys loc)).th
      (pass1 loc (getItemVersionTags rem) (akeys loc)).c).errors = 0 := h
  omega

/-- C3. Phase-A classification follows the decision table: the six
characterisation clauses below, one per set; a URL-reuse item (locally
`NotSynced` but present on the remote) is put in no set (skipped) and the
error it logs makes the sync unsuccessful; and the six sets are pairwise
disjoint. -/
theorem classify_decision_table (loc : LocalCal) (rem : RemoteCal)
    (hl : NodupKeys loc) (hr : NodupKeys rem.items) :
    (∀ u, u ∈ (classify loc rem).remoteAdditions ↔
      (∃ ri, alookup rem.items u = some ri) ∧ alookup loc u = none) ∧
    (∀ u, u ∈ (classify loc rem).remoteChanges ↔
      ∃ ri it, alookup rem.items u = some ri ∧ alookup loc u = some it ∧
        ∃ v, (it.syncStatus = .synced v ∨ it.syncStatus = .locallyModified v ∨
              it.syncStatus = .locallyDeleted v) ∧ ri.tag ≠ v) ∧
    (∀ u, u ∈ (classify loc rem).localChanges ↔
      ∃ ri it v, alookup rem.items u = some ri ∧ alookup loc u = some it ∧
        it.syncStatus = .locallyModified v ∧ ri.tag = v) ∧
    (∀ u, u ∈ (classify loc rem).localDel ↔
      ∃ ri it v, alookup rem.items u = some ri ∧ alookup loc u = some it ∧
        it.syncStatus = .locallyDeleted v ∧ ri.tag = v) ∧
    (∀ u, u ∈ (classify loc rem).localAdditions ↔
      (∃ it, alookup loc u = some it ∧ it.syncStatus = .notSynced) ∧
      alookup rem.items u = none) ∧
    (∀ u, u ∈ (classify loc rem).remoteDel ↔
      (∃ it v, alookup loc u = some it ∧
        (it.syncStatus = .synced v ∨ it.syncStatus = .locallyModified v ∨
         it.syncStatus = .locallyDeleted v)) ∧
      alookup rem.items u = none) ∧
    (∀ u it ri, alookup loc u = some it → it.syncStatus = .notSynced →
      alookup rem.items u = some ri →
      u ∉ (classify loc rem).remoteAdditions ∧ u ∉ (classify loc rem).remoteChanges ∧
      u ∉ (classify loc rem).localChanges ∧ u ∉ (classify loc rem).localDel ∧
      u ∉ (classify loc rem).localAdditions ∧ u ∉ (classify loc rem).remoteDel ∧
      0 < (classify loc rem).errors) ∧
    (∀ u,
      ¬(u ∈ (classify loc rem).localDel ∧ u ∈ (classify loc rem).remoteDel) ∧
      ¬(u ∈ (classify loc rem).localDel ∧ u ∈ (classify loc rem).localChanges) ∧
      ¬(u ∈ (classify loc rem).localDel ∧ u ∈ (classify loc rem).remoteChanges) ∧
      ¬(u ∈ (classify loc rem).localDel ∧ u ∈ (classify loc rem).localAdditions) ∧
      ¬(u ∈ (classify loc rem).localDel ∧ u ∈ (classify loc rem).remoteAdditions) ∧
      ¬(u ∈ (classify loc rem).remoteDel ∧ u ∈ (classify loc rem).localChanges) ∧
      ¬(u ∈ (classify loc rem).remoteDel ∧ u ∈ (classify loc rem).remoteChanges) ∧
      ¬(u ∈ (classify loc rem).remoteDel ∧ u ∈ (classify loc rem).localAdditions) ∧
      ¬(u ∈ (classify loc rem).remoteDel ∧ u ∈ (classify loc rem).remoteAdditions) ∧
      ¬(u ∈ (classify loc rem).localChanges ∧ u ∈ (classify loc rem).remoteChanges) ∧
      ¬(u ∈ (classify loc rem).localChanges ∧ u ∈ (classify loc rem).localAdditions) ∧
      ¬(u ∈ (classify loc rem).localChanges ∧ u ∈ (classify loc rem).remoteAdditions) ∧
      ¬(u ∈ (classify loc rem).remoteChanges ∧ u ∈ (classify loc rem).localAdditions) ∧
      ¬(u ∈ (classify loc rem).remoteChanges ∧ u ∈ (classify loc rem).remoteAdditions) ∧
      ¬(u ∈ (classify loc rem).localAdditions ∧ u ∈ (classify loc rem).remoteAdditions)) := by
  have hmRA := classify_remoteAdditions_mem loc rem hr
  have hmRC := classify_remoteChanges_mem loc rem hr
  have hmLC := classify_localChanges_mem loc rem hr
  have hmLD := classify_localDel_mem loc rem hr
  have hmLA := classify_localAdditions_mem loc rem hl
  have hmRD := classify_remoteDel_mem loc rem hl
  refine ⟨hmRA, hmRC, hmLC, hmLD, hmLA, hmRD, ?_, ?_⟩
  · intro u it ri hil hss hri
    refine ⟨?_, ?_, ?_, ?_, ?_, ?_, ?_⟩
    · rw [hmRA u]
      rintro ⟨-, hnone⟩
      rw [hil] at hnone
      cases hnone
    · rw [hmRC u]
      rintro ⟨ri2, it2, -, hil2, v, hss2, -⟩
      rw [hil] at hil2
      injection hil2 with hil2
      rw [← hil2, hss] at hss2
      rcases hss2 with h | h | h <;> cases h
    · rw [hmLC u]
      rintro ⟨ri2, it2, v, -, hil2, hss2, -⟩
      rw [hil] at hil2
      injection hil2 with hil2
      rw [← hil2, hss] at hss2
      cases hss2
    · rw [hmLD u]
      rintro ⟨ri2, it2, v, -, hil2, hss2, -⟩
      rw [hil] at hil2
      injection hil2 with hil2
      rw [← hil2, hss] at hss2
      cases hss2
    · rw [hmLA u]
      rintro ⟨-, hnone⟩
      rw [hri] at hnone
      cases hnone
    · rw [hmRD u]
      rintro ⟨-, hnone⟩
      rw [hri] at hnone
      cases hnone
    · by_contra hz
      have hz2 : (classify loc rem).errors = 0 := by omega
      exact classify_errors_zero_no_reuse loc rem hz2 u it ri hil hri hss
  · intro u
    refine ⟨?_, ?_, ?_, ?_, ?_, ?_, ?_, ?_, ?_, ?_, ?_, ?_, ?_, ?_, ?_⟩
    -- localDel vs remoteDel
    · rintro ⟨hA, hB⟩
      rw [hmLD u] at hA
      rw [hmRD u] at hB
      obtain ⟨ri, it, v, hri, -, -, -⟩ := hA
      obtain ⟨-, hnone⟩ := hB
      rw [hri] at hnone
      cases hnone
    -- localDel vs localChanges
    · rintro ⟨hA, hB⟩
      rw [hmLD u] at hA
      rw [hmLC u] at hB
      obtain ⟨ri, it, v, hri, hil, hss, htag⟩ := hA
      obtain ⟨ri2, it2, v2, hri2, hil2, hss2, htag2⟩ := hB
      rw [hil] at hil2
      injection hil2 with he
      rw [← he, hss] at hss2
      cases hss2
    -- localDel vs remoteChanges
    · rintro ⟨hA, hB⟩
      rw [hmLD u] at hA
      rw [hmRC u] at hB
      obtain ⟨ri, it, v, hri, hil, hss, htag⟩ := hA
      obtain ⟨ri2, it2, hri2, hil2, v2, hss2, hne2⟩ := hB
      rw [hil] at hil2
      injection hil2 with he
      rw [hri] at hri2
      injection hri2 with hre
      rw [← he, hss] at hss2
      rcases hss2 with h | h | h
      · cases h
      · cases h
      · injection h with hv
        rw [← hre, htag, hv] at hne2
        exact hne2 rfl
    -- localDel vs localAdditions
    · rintro ⟨hA, hB⟩
      rw [hmLD u] at hA
      rw [hmLA u] at hB
      obtain ⟨ri, it, v, hri, -, -, -⟩ := hA
      obtain ⟨-, hnone⟩ := hB
      rw [hri] at hnone
      cases hnone
    -- localDel vs remoteAdditions
    · rintro ⟨hA, hB⟩
      rw [hmLD u] at hA
      rw [hmRA u] at hB
      obtain ⟨ri, it, v, -, hil, -, -⟩ := hA
      obtain ⟨-, hnone⟩ := hB
      rw [hil] at hnone
      cases hnone
    -- remoteDel vs localChanges
    · rintro ⟨hA, hB⟩
      rw [hmRD u] at hA
      rw [hmLC u] at hB
      obtain ⟨-, hnone⟩ := hA
      obtain ⟨ri2, it2, v2, hri2, -, -, -⟩ := hB
      rw [hri2] at hnone
      cases hnone
    -- remoteDel vs remoteChanges
    · rintro ⟨hA, hB⟩
      rw [hmRD u] at hA
      rw [hmRC u] at hB
      obtain ⟨-, hnone⟩ := hA
      obtain ⟨ri2, it2, hri2, -, -⟩ := hB
      rw [hri2] at hnone
      cases hnone
    -- remoteDel vs localAdditions
    · rintro ⟨hA, hB⟩
      rw [hmRD u] at hA
      rw [hmLA u] at hB
      obtain ⟨⟨it, v, hil, hss⟩, -⟩ := hA
      obtain ⟨⟨it2, hil2, hss2⟩, -⟩ := hB
      rw [hil] at hil2
      injection hil2 with he
      rw [← he] at hss2
      rcases hss with h | h | h <;> (rw [hss2] at h; cases h)
    -- remoteDel vs remoteAdditions
    · rintro ⟨hA, hB⟩
      rw [hmRD u] at hA
      rw [hmRA u] at hB
      obtain ⟨⟨it, v, hil, -⟩, -⟩ := hA
      obtain ⟨-, hnone⟩ := hB
      rw [hil] at hnone
      cases hnone
    -- localChanges vs remoteChanges
    · rintro ⟨hA, hB⟩
      rw [hmLC u] at hA
      rw [hmRC u] at hB
      obtain ⟨ri, it, v, hri, hil, hss, htag⟩ := hA
      obtain ⟨ri2, it2, hri2, hil2, v2, hss2, hne2⟩ := hB
      rw [hil] at hil2
      injection hil2 with he
      rw [hri] at hri2
      injection hri2 with hre
      rw [← he, hss] at hss2
      rcases hss2 with h | h | h
      · cases h
      · injection h with hv
        rw [← hre, htag, hv] at hne2
        exact hne2 rfl
      · cases h
    -- localChanges vs localAdditions
    · rintro ⟨hA, hB⟩
      rw [hmLC u] at hA
      rw [hmLA u] at hB
      obtain ⟨ri, it, v, hri, -, -, -⟩ := hA
      obtain ⟨-, hnone⟩ := hB
      rw [hri] at hnone
      cases hnone
    -- localChanges vs remoteAdditions
    · rintro ⟨hA, hB⟩
      rw [hmLC u] at hA
      rw [hmRA u] at hB
      obtain ⟨ri, it, v, -, hil, -, -⟩ := hA
      obtain ⟨-, hnone⟩ := hB
      rw [hil] at hnone
      cases hnone
    -- remoteChanges vs localAdditions
    · rintro ⟨hA, hB⟩
      rw [hmRC u] at hA
      rw [hmLA u] at hB
      obtain ⟨ri, it, hri, -, -⟩ := hA
      obtain ⟨-, hnone⟩ := hB
      rw [hri] at hnone
      cases hnone
    -- remoteChanges vs remoteAdditions
    · rintro ⟨hA, hB⟩
      rw [hmRC u] at hA
      rw [hmRA u] at hB
      obtain ⟨ri, it, -, hil, -⟩ := hA
      obtain ⟨-, hnone⟩ := hB
      rw [hil] at hnone
      cases hnone
    -- localAdditions vs remoteAdditions
    · rintro ⟨hA, hB⟩
      rw [hmLA u] at hA
      rw [hmRA u] at hB
      obtain ⟨⟨it, hil, -⟩, -⟩ := hA
      obtain ⟨-, hnone⟩ := hB
      rw [hil] at hnone
      cases hnone
/-- A concrete local calendar for the classification witness. -/
def c3Loc : LocalCal :=
  [("a", ⟨⟨"A", .uncompleted, 0⟩, .synced 1⟩),
   ("b", ⟨⟨"B", .uncompleted, 0⟩, .notSynced⟩),
   ("d", ⟨⟨"D", .uncompleted, 0⟩, .locallyModified 4⟩)]

/-- A concrete remote calendar for the classification witness. -/
def c3Rem : RemoteCal :=
  ⟨[("a", ⟨⟨"A", .uncompleted, 0⟩, 1⟩),
    ("c", ⟨⟨"C", .uncompleted, 0⟩, 2⟩),
    ("d", ⟨⟨"D2", .uncompleted, 1⟩, 4⟩)], 10⟩

/-- Witness for `classify_decision_table` at a concrete calendar pair. -/
theorem classify_decision_table_witness :
    NodupKeys c3Loc ∧ NodupKeys c3Rem.items ∧
    ("c" ∈ (classify c3Loc c3Rem).remoteAdditions ↔
      (∃ ri, alookup c3Rem.items "c" = some ri) ∧ alookup c3Loc "c" = none) ∧
    ("d" ∈ (classify c3Loc c3Rem).localChanges ↔
      ∃ ri it v, alookup c3Rem.items "d" = some ri ∧ alookup c3Loc "d" = some it ∧
        it.syncStatus = .locallyModified v ∧ ri.tag = v) :=
  ⟨by decide, by decide,
   (classify_decision_table c3Loc c3Rem (by decide) (by decide)).1 "c",
   (classify_decision_table c3Loc c3Rem (by decide) (by decide)).2.2.1 "d"⟩

/-! ## Claim C4: ordering of phase B -/

theorem chunks_join {α : Type} (n : Nat) (l : List α) : (chunks n l).flatten = l := by
  induction l using chunks.induct n with
  | case1 => simp [chunks]
  | case2 x xs ih =>
    rw [chunks]
    simp only [List.flatten_cons, ih]
    simp

theorem step1_tr (F : Faults) (urls : List String) :
    ∀ loc rem, ∀ e ∈ (step1 F urls loc rem).tr,
      ∃ u ∈ urls, e = .remoteDelete u ∨ e = .localDelete u := by
  induction urls with
  | nil => intro loc rem e he; cases he
  | cons u rest ih =>
    intro loc rem e he
    rw [step1] at he
    rcases hdel : remoteDeleteItem F rem u with ⟨r0, reqs⟩
    rw [hdel] at he
    cases r0 with
    | none =>
      simp only at he
      rcases List.mem_cons.mp he with he1 | he2
      · exact ⟨u, List.mem_cons_self _ _, Or.inl he1⟩
      · obtain ⟨w, hw, hor⟩ := ih loc rem e he2
        exact ⟨w, List.mem_cons_of_mem _ hw, hor⟩
    | some rem2 =>
      cases hld : immediatelyDeleteItemSync loc u with
      | none =>
        simp only [hld] at he
        rcases List.mem_cons.mp he with he1 | he2
        · exact ⟨u, List.mem_cons_self _ _, Or.inl he1⟩
        rcases List.mem_cons.mp he2 with he3 | he4
        · exact ⟨u, List.mem_cons_self _ _, Or.inr he3⟩
        · obtain ⟨w, hw, hor⟩ := ih loc rem2 e he4
          exact ⟨w, List.mem_cons_of_mem _ hw, hor⟩
      | some loc2 =>
        simp only [hld] at he
        rcases List.mem_cons.mp he with he1 | he2
        · exact ⟨u, List.mem_cons_self _ _, Or.inl he1⟩
        rcases List.mem_cons.mp he2 with he3 | he4
        · exact ⟨u, List.mem_cons_self _ _, Or.inr he3⟩
        · obtain ⟨w, hw, hor⟩ := ih loc2 rem2 e he4
          exact ⟨w, List.mem_cons_of_mem _ hw, hor⟩

theorem step2_tr (urls : List String) :
    ∀ loc, ∀ e ∈ (step2 urls loc).tr, ∃ u ∈ urls, e = .localDelete u := by
  induction urls with
  | nil => intro loc e he; cases he
  | cons u rest ih =>
    intro loc e he
    rw [step2] at he
    cases hld : immediatelyDeleteItemSync loc u with
    | none =>
      simp only [hld] at he
      rcases List.mem_cons.mp he with he1 | he2
      · exact ⟨u, List.mem_cons_self _ _, he1⟩
      · obtain ⟨w, hw, hor⟩ := ih loc e he2
        exact ⟨w, List.mem_cons_of_mem _ hw, hor⟩
    | some loc2 =>
      simp only [hld] at he
      rcases List.mem_cons.mp he with he1 | he2
      · exact ⟨u, List.mem_cons_self _ _, he1⟩
      · obtain ⟨w, hw, hor⟩ := ih loc2 e he2
        exact ⟨w, List.mem_cons_of_mem _ hw, hor⟩

theorem applyFetchedList_tr (isAdd : Bool) (items : List (String × RemoteItem)) :
    ∀ loc, ∀ e ∈ (applyFetchedList isAdd items loc).tr,
      ∃ u, (∃ ri, (u, ri) ∈ items) ∧
        e = (if isAdd then Event.localAdd u else Event.localUpdate u) := by
  induction items with
  | nil => intro loc e he; cases he
  | cons hd rest ih =>
    intro loc e he
    obtain ⟨u, ri⟩ := hd
    rw [applyFetchedList] at he
    rcases List.mem_cons.mp he with he1 | he2
    · exact ⟨u, ⟨ri, List.mem_cons_self _ _⟩, he1⟩
    · obtain ⟨w, ⟨ri2, hw⟩, hor⟩ := ih _ e he2
      exact ⟨w, ⟨ri2, List.mem_cons_of_mem _ hw⟩, hor⟩

theorem getItemsByUrl_mem (F : Faults) (rem : RemoteCal) (urls : List String)
    {items : List (String × RemoteItem)} (h : getItemsByUrl F rem urls = some items) :
    ∀ u ri, (u, ri) ∈ items → u ∈ urls := by
  unfold getItemsByUrl at h
  split_ifs at h
  injection h with h
  intro u ri hmem
  rw [← h] at hmem
  rw [List.mem_filterMap] at hmem
  obtain ⟨a, ha, he⟩ := hmem
  cases hla : alookup rem.items a with
  | none => rw [hla] at he; cases he
  | some ri2 =>
    rw [hla, Option.map_some'] at he
    injection he with he
    injection he with he1 he2
    rw [← he1]
    exact ha

theorem fetchBatchAndApply_tr (F : Faults) (isAdd : Bool) (batch : List String)
    (loc : LocalCal) (rem : RemoteCal) :
    ∀ e ∈ (fetchBatchAndApply F isAdd batch loc rem).tr,
      e = .fetch batch ∨ ∃ u ∈ batch,
        e = (if isAdd then Event.localAdd u else Event.localUpdate u) := by
  intro e he
  unfold fetchBatchAndApply at he
  cases hfetch : getItemsByUrl F rem batch with
  | none =>
    rw [hfetch] at he
    simp only at he
    rcases List.mem_cons.mp he with he1 | he2
    · exact Or.inl he1
    · cases he2
  | some items =>
    rw [hfetch] at he
    simp only at he
    rcases List.mem_cons.mp he with he1 | he2
    · exact Or.inl he1
    · obtain ⟨u, ⟨ri, hmem⟩, hor⟩ := applyFetchedList_tr isAdd items loc e he2
      exact Or.inr ⟨u, getItemsByUrl_mem F rem batch hfetch u ri hmem, hor⟩

theorem applyBatches_tr (F : Faults) (isAdd : Bool) (batches : List (List String)) :
    ∀ loc rem, ∀ e ∈ (applyBatches F isAdd batches loc rem).tr,
      ∃ batch ∈ batches, e = .fetch batch ∨ ∃ u ∈ batch,
        e = (if isAdd then Event.localAdd u else Event.localUpdate u) := by
  induction batches with
  | nil => intro loc rem e he; cases he
  | cons batch rest ih =>
    intro loc rem e he
    rw [applyBatches] at he
    rcases List.mem_append.mp he with he1 | he2
    · exact ⟨batch, List.mem_cons_self _ _, fetchBatchAndApply_tr F isAdd batch loc rem e he1⟩
    · obtain ⟨b, hb, hor⟩ := ih _ rem e he2
      exact ⟨b, List.mem_cons_of_mem _ hb, hor⟩

theorem step5_tr (F : Faults) (urls : List String) :
    ∀ loc rem, ∀ e ∈ (step5 F urls loc rem).tr, ∃ u ∈ urls, e = .remoteAdd u := by
  induction urls with
  | nil => intro loc rem e he; cases he
  | cons u rest ih =>
    intro loc rem e he
    rw [step5] at he
    cases hla : alookup loc u with
    | none =>
      simp only [hla] at he
      obtain ⟨w, hw, hor⟩ := ih loc rem e he
      exact ⟨w, List.mem_cons_of_mem _ hw, hor⟩
    | some it =>
      simp only [hla] at he
      rcases hadd : remoteAddItem F rem u it with ⟨r0, reqs⟩
      rw [hadd] at he
      cases r0 with
      | none =>
        simp only at he
        rcases List.mem_cons.mp he with he1 | he2
        · exact ⟨u, List.mem_cons_self _ _, he1⟩
        · obtain ⟨w, hw, hor⟩ := ih loc rem e he2
          exact ⟨w, List.mem_cons_of_mem _ hw, hor⟩
      | some pr =>
        obtain ⟨rem2, newSS⟩ := pr
        simp only at he
        rcases List.mem_cons.mp he with he1 | he2
        · exact ⟨u, List.mem_cons_self _ _, he1⟩
        · obtain ⟨w, hw, hor⟩ := ih _ rem2 e he2
          exact ⟨w, List.mem_cons_of_mem _ hw, hor⟩

theorem step6_tr (F : Faults) (urls : List String) :
    ∀ loc rem, ∀ e ∈ (step6 F urls loc rem).tr, ∃ u ∈ urls, e = .remoteUpdate u := by
  induction urls with
  | nil => intro loc rem e he; cases he
  | cons u rest ih =>
    intro loc rem e he
    rw [step6] at he
    cases hla : alookup loc u with
    | none =>
      simp only [hla] at he
      obtain ⟨w, hw, hor⟩ := ih loc rem e he
      exact ⟨w, List.mem_cons_of_mem _ hw, hor⟩
    | some it =>
      simp only [hla] at he
      rcases hupd : remoteUpdateItem F rem u it with ⟨r0, reqs⟩
      rw [hupd] at he
      cases r0 with
      | none =>
        simp only at he
        rcases List.mem_cons.mp he with he1 | he2
        · exact ⟨u, List.mem_cons_self _ _, he1⟩
        · obtain ⟨w, hw, hor⟩ := ih loc rem e he2
          exact ⟨w, List.mem_cons_of_mem _ hw, hor⟩
      | some pr =>
        obtain ⟨rem2, newSS⟩ := pr
        simp only at he
        rcases List.mem_cons.mp he with he1 | he2
        · exact ⟨u, List.mem_cons_self _ _, he1⟩
        · obtain ⟨w, hw, hor⟩ := ih _ rem2 e he2
          exact ⟨w, List.mem_cons_of_mem _ hw, hor⟩

theorem pairwise_map_const_first {k : Nat} (t : List Event) :
    List.Pairwise (fun a b : Nat × Event => a.1 ≤ b.1) (t.map (k, ·)) := by
  induction t with
  | nil => exact List.Pairwise.nil
  | cons e rest ih =>
    rw [List.map_cons]
    refine List.Pairwise.cons ?_ ih
    intro b hb
    rw [List.mem_map] at hb
    obtain ⟨x, -, hx⟩ := hb
    rw [← hx]

theorem first_of_mem_map_const {k : Nat} {t : List Event} {p : Nat × Event}
    (h : p ∈ t.map (k, ·)) : p.1 = k := by
  rw [List.mem_map] at h
  obtain ⟨x, -, hx⟩ := h
  rw [← hx]

theorem trace_order_generic (t1 t2 t3 t4 t5 t6 : List Event) :
    List.Pairwise (fun a b : Nat × Event => a.1 ≤ b.1)
      (t1.map (1, ·) ++ t2.map (2, ·) ++ t3.map (3, ·) ++
       t4.map (4, ·) ++ t5.map (5, ·) ++ t6.map (6, ·)) := by
  have cross : ∀ (i j : Nat) (ti tj : List Event), i ≤ j →
      ∀ a ∈ ti.map (i, ·), ∀ b ∈ tj.map (j, ·), a.1 ≤ b.1 := by
    intro i j ti tj hij a ha b hb
    rw [first_of_mem_map_const ha, first_of_mem_map_const hb]
    exact hij
  have bound : ∀ (i : Nat) (ti : List Event), ∀ p ∈ ti.map (i, ·), p.1 = i :=
    fun i ti p hp => first_of_mem_map_const hp
  -- build left-to-right
  have h12 : List.Pairwise (fun a b : Nat × Event => a.1 ≤ b.1)
      (t1.map (1, ·) ++ t2.map (2, ·)) :=
    List.pairwise_append.mpr ⟨pairwise_map_const_first t1, pairwise_map_const_first t2,
      cross 1 2 t1 t2 (by omega)⟩
  have b12 : ∀ p ∈ t1.map (1, ·) ++ t2.map (2, ·), p.1 ≤ 2 := by
    intro p hp
    rcases List.mem_append.mp hp with h | h
    · rw [bound 1 t1 p h]; omega
    · rw [bound 2 t2 p h]
  have h123 : List.Pairwise (fun a b : Nat × Event => a.1 ≤ b.1)
      (t1.map (1, ·) ++ t2.map (2, ·) ++ t3.map (3, ·)) :=
    List.pairwise_append.mpr ⟨h12, pairwise_map_const_first t3,
      fun a ha b hb => by rw [first_of_mem_map_const hb]; exact (b12 a ha).trans (by omega)⟩
  have b123 : ∀ p ∈ t1.map (1, ·) ++ t2.map (2, ·) ++ t3.map (3, ·), p.1 ≤ 3 := by
    intro p hp
    rcases List.mem_append.mp hp with h | h
    · exact (b12 p h).trans (by omega)
    · rw [bound 3 t3 p h]
  have h1234 : List.Pairwise (fun a b : Nat × Event => a.1 ≤ b.1)
      (t1.map (1, ·) ++ t2.map (2, ·) ++ t3.map (3, ·) ++ t4.map (4, ·)) :=
    List.pairwise_append.mpr ⟨h123, pairwise_map_const_first t4,
      fun a ha b hb => by rw [first_of_mem_map_const hb]; exact (b123 a ha).trans (by omega)⟩
  have b1234 : ∀ p ∈ t1.map (1, ·) ++ t2.map (2, ·) ++ t3.map (3, ·) ++ t4.map (4, ·),
      p.1 ≤ 4 := by
    intro p hp
    rcases List.mem_append.mp hp with h | h
    · exact (b123 p h).trans (by omega)
    · rw [bound 4 t4 p h]
  have h12345 : List.Pairwise (fun a b : Nat × Event => a.1 ≤ b.1)
      (t1.map (1, ·) ++ t2.map (2, ·) ++ t3.map (3, ·) ++ t4.map (4, ·) ++ t5.map (5, ·)) :=
    List.pairwise_append.mpr ⟨h1234, pairwise_map_const_first t5,
      fun a ha b hb => by rw [first_of_mem_map_const hb]; exact (b1234 a ha).trans (by omega)⟩
  have b12345 : ∀ p ∈ t1.map (1, ·) ++ t2.map (2, ·) ++ t3.map (3, ·) ++ t4.map (4, ·) ++
      t5.map (5, ·), p.1 ≤ 5 := by
    intro p hp
    rcases List.mem_append.mp hp with h | h
    · exact (b1234 p h).trans (by omega)
    · rw [bound 5 t5 p h]
  exact List.pairwise_append.mpr ⟨h12345, pairwise_map_const_first t6,
    fun a ha b hb => by rw [first_of_mem_map_const hb]; exact (b12345 a ha).trans (by omega)⟩

theorem trace_mem_generic (t1 t2 t3 t4 t5 t6 : List Event) (p : Nat × Event)
    (hp : p ∈ t1.map (1, ·) ++ t2.map (2, ·) ++ t3.map (3, ·) ++
      t4.map (4, ·) ++ t5.map (5, ·) ++ t6.map (6, ·)) :
    (p.1 = 1 ∧ p.2 ∈ t1) ∨ (p.1 = 2 ∧ p.2 ∈ t2) ∨ (p.1 = 3 ∧ p.2 ∈ t3) ∨
    (p.1 = 4 ∧ p.2 ∈ t4) ∨ (p.1 = 5 ∧ p.2 ∈ t5) ∨ (p.1 = 6 ∧ p.2 ∈ t6) := by
  have hmap : ∀ (k : Nat) (t : List Event), p ∈ t.map (k, ·) → p.1 = k ∧ p.2 ∈ t := by
    intro k t h
    rw [List.mem_map] at h
    obtain ⟨e, he, hpe⟩ := h
    rw [← hpe]
    exact ⟨rfl, he⟩
  rcases List.mem_append.mp hp with h | h
  rotate_left
  · exact Or.inr (Or.inr (Or.inr (Or.inr (Or.inr (hmap 6 t6 h)))))
  rcases List.mem_append.mp h with h | h
  rotate_left
  · exact Or.inr (Or.inr (Or.inr (Or.inr (Or.inl (hmap 5 t5 h)))))
  rcases List.mem_append.mp h with h | h
  rotate_left
  · exact Or.inr (Or.inr (Or.inr (Or.inl (hmap 4 t4 h))))
  rcases List.mem_append.mp h with h | h
  rotate_left
  · exact Or.inr (Or.inr (Or.inl (hmap 3 t3 h)))
  rcases List.mem_append.mp h with h | h
  · exact Or.inl (hmap 1 t1 h)
  · exact Or.inr (Or.inl (hmap 2 t2 h))

/-- C4. Phase B applies the six change sets in the fixed order
local-deletions, remote-deletions, remote-additions (batched fetches),
remote-changes (batched fetches), local-additions, local-changes: the trace
of `sync_calendar_pair` is sorted by step number, and every operation of
step `k` is one of step `k`'s operations on step `k`'s classified set. -/
theorem syncCalendarPair_phaseB_order (F : Faults) (loc : LocalCal) (rem : RemoteCal) :
    List.Pairwise (fun a b : Nat × Event => a.1 ≤ b.1) (syncCalendarPair F loc rem).trace ∧
    ∀ p ∈ (syncCalendarPair F loc rem).trace,
      (p.1 = 1 ∧ ∃ u ∈ (classify loc rem).localDel,
        p.2 = .remoteDelete u ∨ p.2 = .localDelete u) ∨
      (p.1 = 2 ∧ ∃ u ∈ (classify loc rem).remoteDel, p.2 = .localDelete u) ∨
      (p.1 = 3 ∧ ∃ batch, (∀ x ∈ batch, x ∈ (classify loc rem).remoteAdditions) ∧
        (p.2 = .fetch batch ∨ ∃ u ∈ batch, p.2 = .localAdd u)) ∨
      (p.1 = 4 ∧ ∃ batch, (∀ x ∈ batch, x ∈ (classify loc rem).remoteChanges) ∧
        (p.2 = .fetch batch ∨ ∃ u ∈ batch, p.2 = .localUpdate u)) ∨
      (p.1 = 5 ∧ ∃ u ∈ (classify loc rem).localAdditions, p.2 = .remoteAdd u) ∨
      (p.1 = 6 ∧ ∃ u ∈ (classify loc rem).localChanges, p.2 = .remoteUpdate u) := by
  by_cases htags : F.tagsFail
  · constructor
    · simp [syncCalendarPair, htags]
    · intro p hp
      simp [syncCalendarPair, htags] at hp
  · have htr : (syncCalendarPair F loc rem).trace =
        (step1 F (classify loc rem).localDel loc rem).tr.map (1, ·) ++
        (step2 (classify loc rem).remoteDel
          (step1 F (classify loc rem).localDel loc rem).loc).tr.map (2, ·) ++
        (applyBatches F true (chunks (DOWNLOAD_BATCH_SIZE - 1) (classify loc rem).remoteAdditions)
          (step2 (classify loc rem).remoteDel (step1 F (classify loc rem).localDel loc rem).loc).loc
          (step1 F (classify loc rem).localDel loc rem).rem).tr.map (3, ·) ++
        (applyBatches F false (chunks (DOWNLOAD_BATCH_SIZE - 1) (classify loc rem).remoteChanges)
          (applyBatches F true (chunks (DOWNLOAD_BATCH_SIZE - 1) (classify loc rem).remoteAdditions)
            (step2 (classify loc rem).remoteDel (step1 F (classify loc rem).localDel loc rem).loc).loc
            (step1 F (classify loc rem).localDel loc rem).rem).loc
          (step1 F (classify loc rem).localDel loc rem).rem).tr.map (4, ·) ++
        (step5 F (classify loc rem).localAdditions
          (applyBatches F false (chunks (DOWNLOAD_BATCH_SIZE - 1) (classify loc rem).remoteChanges)
            (applyBatches F true (chunks (DOWNLOAD_BATCH_SIZE - 1) (classify loc rem).remoteAdditions)
              (step2 (classify loc rem).remoteDel (step1 F (classify loc rem).localDel loc rem).loc).loc
              (step1 F (classify loc rem).localDel loc rem).rem).loc
            (step1 F (classify loc rem).localDel loc rem).rem).loc
          (step1 F (classify loc rem).localDel loc rem).rem).tr.map (5, ·) ++
        (step6 F (classify loc rem).localChanges
          (step5 F (classify loc rem).localAdditions
            (applyBatches F false (chunks (DOWNLOAD_BATCH_SIZE - 1) (classify loc rem).remoteChanges)
              (applyBatches F true (chunks (DOWNLOAD_BATCH_SIZE - 1) (classify loc rem).remoteAdditions)
                (step2 (classify loc rem).remoteDel (step1 F (classify loc rem).localDel loc rem).loc).loc
                (step1 F (classify loc rem).localDel loc rem).rem).loc
              (step1 F (classify loc rem).localDel loc rem).rem).loc
            (step1 F (classify loc rem).localDel loc rem).rem).loc
          (step5 F (classify loc rem).localAdditions
            (applyBatches F false (chunks (DOWNLOAD_BATCH_SIZE - 1) (classify loc rem).remoteChanges)
              (applyBatches F true (chunks (DOWNLOAD_BATCH_SIZE - 1) (classify loc rem).remoteAdditions)
                (step2 (classify loc rem).remoteDel (step1 F (classify loc rem).localDel loc rem).loc).loc
                (step1 F (classify loc rem).localDel loc rem).rem).loc
              (step1 F (classify loc rem).localDel loc rem).rem).loc
            (step1 F (classify loc rem).localDel loc rem).rem).rem).tr.map (6, ·) := by
      simp only [syncCalendarPair, if_neg htags]
    constructor
    · rw [htr]
      exact trace_order_generic _ _ _ _ _ _
    · intro p hp
      rw [htr] at hp
      have hsix := trace_mem_generic _ _ _ _ _ _ p hp
      have hbatchmem : ∀ (l : List String) (batch : List String),
          batch ∈ chunks (DOWNLOAD_BATCH_SIZE - 1) l → ∀ x ∈ batch, x ∈ l := by
        intro l batch hb x hx
        have : x ∈ (chunks (DOWNLOAD_BATCH_SIZE - 1) l).flatten :=
          List.mem_flatten.mpr ⟨batch, hb, hx⟩
        rwa [chunks_join] at this
      rcases hsix with ⟨h1, he⟩ | ⟨h1, he⟩ | ⟨h1, he⟩ | ⟨h1, he⟩ | ⟨h1, he⟩ | ⟨h1, he⟩
      · exact Or.inl ⟨h1, step1_tr F _ _ _ p.2 he⟩
      · exact Or.inr (Or.inl ⟨h1, step2_tr _ _ p.2 he⟩)
      · refine Or.inr (Or.inr (Or.inl ⟨h1, ?_⟩))
        obtain ⟨batch, hb, hor⟩ := applyBatches_tr F true _ _ _ p.2 he
        exact ⟨batch, hbatchmem _ batch hb, by simpa using hor⟩
      · refine Or.inr (Or.inr (Or.inr (Or.inl ⟨h1, ?_⟩)))
        obtain ⟨batch, hb, hor⟩ := applyBatches_tr F false _ _ _ p.2 he
        exact ⟨batch, hbatchmem _ batch hb, by simpa using hor⟩
      · exact Or.inr (Or.inr (Or.inr (Or.inr (Or.inl ⟨h1, step5_tr F _ _ _ p.2 he⟩))))
      · exact Or.inr (Or.inr (Or.inr (Or.inr (Or.inr ⟨h1, step6_tr F _ _ _ p.2 he⟩))))

/-! ## Phase B: state-effect lemmas

For each step: URLs outside the step's set are untouched (framing); when the
step logged no error, each of its URLs ends in the state the step is meant to
produce; and a URL whose remote operation faults keeps its local state.
First, inversion lemmas for the individual calendar operations. -/

theorem remoteDeleteItem_some {F : Faults} {rem : RemoteCal} {u : String}
    {rem2 : RemoteCal} {reqs : List Request}
    (h : remoteDeleteItem F rem u = (some rem2, reqs)) :
    F.deleteFails u = false ∧ rem2.items = aremove rem.items u ∧
    rem2.nextTag = rem.nextTag := by
  unfold remoteDeleteItem at h
  split_ifs at h with hf
  · injection h with h1 h2
    cases h1
  · cases halook : alookup rem.items u with
    | none =>
      rw [halook] at h
      injection h with h1 h2
      cases h1
    | some ri =>
      rw [halook] at h
      injection h with h1 h2
      injection h1 with h1
      refine ⟨by simpa using hf, ?_, ?_⟩
      · rw [← h1]
      · rw [← h1]

theorem remoteDeleteItem_fail {F : Faults} {rem : RemoteCal} {u : String}
    (hf : F.deleteFails u = true) : (remoteDeleteItem F rem u).1 = none := by
  unfold remoteDeleteItem
  rw [if_pos hf]

theorem immediatelyDelete_some {loc : LocalCal} {u : String} {loc2 : LocalCal}
    (h : immediatelyDeleteItemSync loc u = some loc2) :
    loc2 = aremove loc u := by
  unfold immediatelyDeleteItemSync at h
  cases halook : alookup loc u with
  | none => rw [halook] at h; cases h
  | some it =>
    rw [halook] at h
    injection h with h
    rw [← h]

theorem step1_frame (F : Faults) (urls : List String) :
    ∀ loc rem x, x ∉ urls →
      alookup (step1 F urls loc rem).loc x = alookup loc x ∧
      alookup (step1 F urls loc rem).rem.items x = alookup rem.items x ∧
      (step1 F urls loc rem).rem.nextTag = rem.nextTag := by
  induction urls with
  | nil => intro loc rem x hx; exact ⟨rfl, rfl, rfl⟩
  | cons u rest ih =>
    intro loc rem x hx
    have hxu : x ≠ u := fun he => hx (he ▸ List.mem_cons_self _ _)
    have hxr : x ∉ rest := fun hm => hx (List.mem_cons_of_mem _ hm)
    rw [step1]
    rcases hdel : remoteDeleteItem F rem u with ⟨r0, reqs⟩
    cases r0 with
    | none =>
      simp only
      exact ih loc rem x hxr
    | some rem2 =>
      obtain ⟨-, hitems, htag⟩ := remoteDeleteItem_some hdel
      have hrem2 : alookup rem2.items x = alookup rem.items x := by
        rw [hitems]
        exact alookup_aremove_ne _ _ _ hxu
      cases hld : immediatelyDeleteItemSync loc u with
      | none =>
        simp only
        obtain ⟨a, b, c⟩ := ih loc rem2 x hxr
        exact ⟨a, b.trans hrem2, c.trans htag⟩
      | some loc2 =>
        have hloc2 : alookup loc2 x = alookup loc x := by
          rw [immediatelyDelete_some hld]
          exact alookup_aremove_ne _ _ _ hxu
        simp only
        obtain ⟨a, b, c⟩ := ih loc2 rem2 x hxr
        exact ⟨a.trans hloc2, b.trans hrem2, c.trans htag⟩

theorem step1_absent (F : Faults) (urls : List String) :
    ∀ loc rem x, alookup loc x = none →
      alookup (step1 F urls loc rem).loc x = none := by
  induction urls with
  | nil => intro loc rem x hx; exact hx
  | cons u rest ih =>
    intro loc rem x hx
    rw [step1]
    rcases hdel : remoteDeleteItem F rem u with ⟨r0, reqs⟩
    cases r0 with
    | none => exact ih loc rem x hx
    | some rem2 =>
      cases hld : immediatelyDeleteItemSync loc u with
      | none => exact ih loc rem2 x hx
      | some loc2 =>
        refine ih loc2 rem2 x ?_
        rw [immediatelyDelete_some hld]
        by_cases hxu : x = u
        · subst hxu
          rw [alookup_eq_none_iff_not_mem] at hx ⊢
          intro hmem
          -- removal only shrinks the key set (no nodup needed)
          exact hx (mem_akeys_of_aremove hmem)
        · rw [alookup_aremove_ne _ _ _ hxu]
          exact hx

theorem step1_rem_absent (F : Faults) (urls : List String) :
    ∀ loc rem x, alookup rem.items x = none →
      alookup (step1 F urls loc rem).rem.items x = none := by
  induction urls with
  | nil => intro loc rem x hx; exact hx
  | cons u rest ih =>
    intro loc rem x hx
    rw [step1]
    rcases hdel : remoteDeleteItem F rem u with ⟨r0, reqs⟩
    cases r0 with
    | none => exact ih loc rem x hx
    | some rem2 =>
      obtain ⟨-, hitems, -⟩ := remoteDeleteItem_some hdel
      have hx2 : alookup rem2.items x = none := by
        rw [hitems]
        by_cases hxu : x = u
        · subst hxu
          rw [alookup_eq_none_iff_not_mem] at hx ⊢
          intro hmem
          exact hx (mem_akeys_of_aremove hmem)
        · rw [alookup_aremove_ne _ _ _ hxu]
          exact hx
      cases hld : immediatelyDeleteItemSync loc u with
      | none => exact ih loc rem2 x hx2
      | some loc2 => exact ih loc2 rem2 x hx2

theorem step1_nodup (F : Faults) (urls : List String) :
    ∀ loc rem, NodupKeys loc → NodupKeys rem.items →
      NodupKeys (step1 F urls loc rem).loc ∧ NodupKeys (step1 F urls loc rem).rem.items := by
  induction urls with
  | nil => intro loc rem hl hr; exact ⟨hl, hr⟩
  | cons u rest ih =>
    intro loc rem hl hr
    rw [step1]
    rcases hdel : remoteDeleteItem F rem u with ⟨r0, reqs⟩
    cases r0 with
    | none => exact ih loc rem hl hr
    | some rem2 =>
      obtain ⟨-, hitems, -⟩ := remoteDeleteItem_some hdel
      have hr2 : NodupKeys rem2.items := by
        rw [hitems]; exact nodupKeys_aremove _ _ hr
      cases hld : immediatelyDeleteItemSync loc u with
      | none => exact ih loc rem2 hl hr2
      | some loc2 =>
        have hl2 : NodupKeys loc2 := by
          rw [immediatelyDelete_some hld]; exact nodupKeys_aremove _ _ hl
        exact ih loc2 rem2 hl2 hr2

theorem step1_post (F : Faults) (urls : List String) :
    ∀ loc rem, NodupKeys loc → NodupKeys rem.items →
      (step1 F urls loc rem).errs = 0 → ∀ u ∈ urls,
      alookup (step1 F urls loc rem).loc u = none ∧
      alookup (step1 F urls loc rem).rem.items u = none ∧
      F.deleteFails u = false := by
  induction urls with
  | nil => intro loc rem hl hr he u hu; cases hu
  | cons u0 rest ih =>
    intro loc rem hl hr he u hu
    rw [step1] at he ⊢
    rcases hdel : remoteDeleteItem F rem u0 with ⟨r0, reqs⟩
    rw [hdel] at he
    cases r0 with
    | none =>
      simp only at he
      omega
    | some rem2 =>
      obtain ⟨hfail, hitems, -⟩ := remoteDeleteItem_some hdel
      have hr2 : NodupKeys rem2.items := by
        rw [hitems]; exact nodupKeys_aremove _ _ hr
      cases hld : immediatelyDeleteItemSync loc u0 with
      | none =>
        rw [hld] at he
        simp only at he
        omega
      | some loc2 =>
        rw [hld] at he
        simp only at he
        have hl2 : NodupKeys loc2 := by
          rw [immediatelyDelete_some hld]; exact nodupKeys_aremove _ _ hl
        rcases List.mem_cons.mp hu with he0 | hm
        · subst he0
          have hrem2 : alookup rem2.items u = none := by
            rw [hitems]
            exact alookup_aremove_self _ _ hr
          have hloc2 : alookup loc2 u = none := by
            rw [immediatelyDelete_some hld]
            exact alookup_aremove_self _ _ hl
          exact ⟨step1_absent F rest loc2 rem2 u hloc2,
                 step1_rem_absent F rest loc2 rem2 u hrem2, hfail⟩
        · exact ih loc2 rem2 hl2 hr2 he u hm

theorem step1_fail_keep (F : Faults) (urls : List String) :
    ∀ loc rem u, F.deleteFails u = true →
      alookup (step1 F urls loc rem).loc u = alookup loc u ∧
      alookup (step1 F urls loc rem).rem.items u = alookup rem.items u := by
  induction urls with
  | nil => intro loc rem u hf; exact ⟨rfl, rfl⟩
  | cons u0 rest ih =>
    intro loc rem u hf
    rw [step1]
    rcases hdel : remoteDeleteItem F rem u0 with ⟨r0, reqs⟩
    cases r0 with
    | none => exact ih loc rem u hf
    | some rem2 =>
      obtain ⟨hfail0, hitems, -⟩ := remoteDeleteItem_some hdel
      have hne : u ≠ u0 := by
        intro he
        rw [he, hfail0] at hf
        cases hf
      have hrem2 : alookup rem2.items u = alookup rem.items u := by
        rw [hitems]
        exact alookup_aremove_ne _ _ _ hne
      cases hld : immediatelyDeleteItemSync loc u0 with
      | none =>
        obtain ⟨a, b⟩ := ih loc rem2 u hf
        exact ⟨a, b.trans hrem2⟩
      | some loc2 =>
        have hloc2 : alookup loc2 u = alookup loc u := by
          rw [immediatelyDelete_some hld]
          exact alookup_aremove_ne _ _ _ hne
        obtain ⟨a, b⟩ := ih loc2 rem2 u hf
        exact ⟨a.trans hloc2, b.trans hrem2⟩

theorem step2_frame (urls : List String) :
    ∀ loc x, x ∉ urls → alookup (step2 urls loc).loc x = alookup loc x := by
  induction urls with
  | nil => intro loc x hx; rfl
  | cons u rest ih =>
    intro loc x hx
    have hxu : x ≠ u := fun he => hx (he ▸ List.mem_cons_self _ _)
    have hxr : x ∉ rest := fun hm => hx (List.mem_cons_of_mem _ hm)
    rw [step2]
    cases hld : immediatelyDeleteItemSync loc u with
    | none => exact ih loc x hxr
    | some loc2 =>
      have hloc2 : alookup loc2 x = alookup loc x := by
        rw [immediatelyDelete_some hld]
        exact alookup_aremove_ne _ _ _ hxu
      exact (ih loc2 x hxr).trans hloc2

theorem step2_absent (urls : List String) :
    ∀ loc x, alookup loc x = none → alookup (step2 urls loc).loc x = none := by
  induction urls with
  | nil => intro loc x hx; exact hx
  | cons u rest ih =>
    intro loc x hx
    rw [step2]
    cases hld : immediatelyDeleteItemSync loc u with
    | none => exact ih loc x hx
    | some loc2 =>
      refine ih loc2 x ?_
      rw [immediatelyDelete_some hld]
      by_cases hxu : x = u
      · subst hxu
        rw [alookup_eq_none_iff_not_mem] at hx ⊢
        intro hmem
        exact hx (mem_akeys_of_aremove hmem)
      · rw [alookup_aremove_ne _ _ _ hxu]
        exact hx

theorem step2_nodup (urls : List String) :
    ∀ loc, NodupKeys loc → NodupKeys (step2 urls loc).loc := by
  induction urls with
  | nil => intro loc hl; exact hl
  | cons u rest ih =>
    intro loc hl
    rw [step2]
    cases hld : immediatelyDeleteItemSync loc u with
    | none => exact ih loc hl
    | some loc2 =>
      refine ih loc2 ?_
      rw [immediatelyDelete_some hld]
      exact nodupKeys_aremove _ _ hl

theorem step2_post (urls : List String) :
    ∀ loc, NodupKeys loc → (step2 urls loc).errs = 0 → ∀ u ∈ urls,
      alookup (step2 urls loc).loc u = none := by
  induction urls with
  | nil => intro loc hl he u hu; cases hu
  | cons u0 rest ih =>
    intro loc hl he u hu
    rw [step2] at he ⊢
    cases hld : immediatelyDeleteItemSync loc u0 with
    | none =>
      rw [hld] at he
      simp only at he
      omega
    | some loc2 =>
      rw [hld] at he
      simp only at he
      have hl2 : NodupKeys loc2 := by
        rw [immediatelyDelete_some hld]
        exact nodupKeys_aremove _ _ hl
      rcases List.mem_cons.mp hu with he0 | hm
      · subst he0
        refine step2_absent rest loc2 u ?_
        rw [immediatelyDelete_some hld]
        exact alookup_aremove_self _ _ hl
      · exact ih loc2 hl2 he u hm

theorem remoteAddItem_some {F : Faults} {rem : RemoteCal} {u : String} {it : LocalItem}
    {rem2 : RemoteCal} {ss : SyncStatus} {reqs : List Request}
    (h : remoteAddItem F rem u it = (some (rem2, ss), reqs)) :
    F.addFails u = false ∧ alookup rem.items u = none ∧
    rem2.items = ainsert rem.items u ⟨it.data, rem.nextTag⟩ ∧
    rem2.nextTag = rem.nextTag + 1 ∧ ss = .synced rem.nextTag := by
  unfold remoteAddItem at h
  split_ifs at h with hf
  · injection h with h1 h2
    cases h1
  · cases halook : alookup rem.items u with
    | some ri =>
      rw [halook] at h
      injection h with h1 h2
      cases h1
    | none =>
      rw [halook] at h
      injection h with h1 h2
      injection h1 with h1
      injection h1 with ha hb
      exact ⟨by simpa using hf, rfl, by rw [← ha], by rw [← ha], hb.symm⟩

theorem remoteAddItem_fail {F : Faults} {rem : RemoteCal} {u : String} {it : LocalItem}
    (hf : F.addFails u = true) : (remoteAddItem F rem u it).1 = none := by
  unfold remoteAddItem
  rw [if_pos hf]

theorem remoteUpdateItem_some {F : Faults} {rem : RemoteCal} {u : String} {it : LocalItem}
    {rem2 : RemoteCal} {ss : SyncStatus} {reqs : List Request}
    (h : remoteUpdateItem F rem u it = (some (rem2, ss), reqs)) :
    F.updateFails u = false ∧
    rem2.items = ainsert rem.items u ⟨it.data, rem.nextTag⟩ ∧
    rem2.nextTag = rem.nextTag + 1 ∧ ss = .synced rem.nextTag := by
  unfold remoteUpdateItem at h
  cases hss : it.syncStatus <;> rw [hss] at h
  · injection h with h1 h2
    cases h1
  · injection h with h1 h2
    cases h1
  all_goals
    split_ifs at h with hf
    · injection h with h1 h2
      cases h1
    · cases halook : alookup rem.items u with
      | none =>
        rw [halook] at h
        injection h with h1 h2
        cases h1
      | some ri =>
        simp only [halook] at h
        split_ifs at h with ht
        · injection h with h1 h2
          injection h1 with h1
          injection h1 with ha hb
          exact ⟨by simpa using hf, by rw [← ha], by rw [← ha], hb.symm⟩
        · injection h with h1 h2
          cases h1

theorem remoteUpdateItem_fail {F : Faults} {rem : RemoteCal} {u : String} {it : LocalItem}
    (hf : F.updateFails u = true) : (remoteUpdateItem F rem u it).1 = none := by
  unfold remoteUpdateItem
  cases hss : it.syncStatus
  · rfl
  · rfl
  all_goals simp [hf]

theorem addItemSync_some {loc : LocalCal} {u : String} {it : LocalItem}
    {loc2 : LocalCal} {ss : SyncStatus}
    (h : addItemSync loc u it = some (loc2, ss)) :
    alookup loc u = none ∧ loc2 = ainsert loc u it := by
  unfold addItemSync at h
  cases halook : alookup loc u with
  | some w => rw [halook] at h; cases h
  | none =>
    rw [halook] at h
    injection h with h
    injection h with h1 h2
    exact ⟨rfl, h1.symm⟩

theorem updateItemSync_some {loc : LocalCal} {u : String} {it : LocalItem}
    {loc2 : LocalCal} {ss : SyncStatus}
    (h : updateItemSync loc u it = some (loc2, ss)) :
    loc2 = ainsert loc u it := by
  unfold updateItemSync at h
  cases halook : alookup loc u with
  | none => rw [halook] at h; cases h
  | some w =>
    rw [halook] at h
    injection h with h
    injection h with h1 h2
    exact h1.symm

theorem applyFetched_frame (isAdd : Bool) (loc : LocalCal) (u : String) (ri : RemoteItem)
    (x : String) (hx : x ≠ u) :
    alookup (applyFetched isAdd loc u ri).1 x = alookup loc x := by
  unfold applyFetched
  cases isAdd with
  | true =>
    simp only [if_pos rfl]
    cases hadd : addItemSync loc u ⟨ri.data, .synced ri.tag⟩ with
    | none => rfl
    | some pr =>
      obtain ⟨loc2, ss⟩ := pr
      obtain ⟨-, h2⟩ := addItemSync_some hadd
      simp only [h2]
      exact alookup_ainsert_ne _ _ _ _ hx
  | false =>
    simp only
    cases hupd : updateItemSync loc u ⟨ri.data, .synced ri.tag⟩ with
    | none => rfl
    | some pr =>
      obtain ⟨loc2, ss⟩ := pr
      have h2 := updateItemSync_some hupd
      simp only [h2]
      exact alookup_ainsert_ne _ _ _ _ hx

theorem applyFetched_nodup (isAdd : Bool) (loc : LocalCal) (u : String) (ri : RemoteItem)
    (hl : NodupKeys loc) : NodupKeys (applyFetched isAdd loc u ri).1 := by
  unfold applyFetched
  cases isAdd with
  | true =>
    simp only [if_pos rfl]
    cases hadd : addItemSync loc u ⟨ri.data, .synced ri.tag⟩ with
    | none => exact hl
    | some pr =>
      obtain ⟨loc2, ss⟩ := pr
      obtain ⟨-, h2⟩ := addItemSync_some hadd
      simp only [h2]
      exact nodupKeys_ainsert _ _ _ hl
  | false =>
    simp only
    cases hupd : updateItemSync loc u ⟨ri.data, .synced ri.tag⟩ with
    | none => exact hl
    | some pr =>
      obtain ⟨loc2, ss⟩ := pr
      have h2 := updateItemSync_some hupd
      simp only [h2]
      exact nodupKeys_ainsert _ _ _ hl

theorem applyFetched_success (isAdd : Bool) (loc : LocalCal) (u : String) (ri : RemoteItem)
    (h : (applyFetched isAdd loc u ri).2 = 0) :
    alookup (applyFetched isAdd loc u ri).1 u = some ⟨ri.data, .synced ri.tag⟩ := by
  unfold applyFetched at h ⊢
  cases isAdd with
  | true =>
    simp only [if_pos rfl] at h ⊢
    cases hadd : addItemSync loc u ⟨ri.data, .synced ri.tag⟩ with
    | none => rw [hadd] at h; cases h
    | some pr =>
      obtain ⟨loc2, ss⟩ := pr
      obtain ⟨-, h2⟩ := addItemSync_some hadd
      simp only [h2]
      exact alookup_ainsert_self _ _ _
  | false =>
    simp only at h ⊢
    cases hupd : updateItemSync loc u ⟨ri.data, .synced ri.tag⟩ with
    | none => rw [hupd] at h; cases h
    | some pr =>
      obtain ⟨loc2, ss⟩ := pr
      have h2 := updateItemSync_some hupd
      simp only [h2]
      exact alookup_ainsert_self _ _ _

theorem applyFetchedList_frame (isAdd : Bool) (items : List (String × RemoteItem)) :
    ∀ loc x, x ∉ items.map Prod.fst →
      alookup (applyFetchedList isAdd items loc).loc x = alookup loc x := by
  induction items with
  | nil => intro loc x hx; rfl
  | cons hd rest ih =>
    intro loc x hx
    obtain ⟨u, ri⟩ := hd
    have hxu : x ≠ u := by
      intro he
      exact hx (by rw [he]; exact List.mem_cons_self _ _)
    have hxr : x ∉ rest.map Prod.fst := fun hm => hx (List.mem_cons_of_mem _ hm)
    rw [applyFetchedList]
    simp only
    exact (ih _ x hxr).trans (applyFetched_frame isAdd loc u ri x hxu)

theorem applyFetchedList_nodup (isAdd : Bool) (items : List (String × RemoteItem)) :
    ∀ loc, NodupKeys loc → NodupKeys (applyFetchedList isAdd items loc).loc := by
  induction items with
  | nil => intro loc hl; exact hl
  | cons hd rest ih =>
    intro loc hl
    obtain ⟨u, ri⟩ := hd
    rw [applyFetchedList]
    exact ih _ (applyFetched_nodup isAdd loc u ri hl)

theorem applyFetchedList_post (isAdd : Bool) (items : List (String × RemoteItem)) :
    ∀ loc, (items.map Prod.fst).Nodup → (applyFetchedList isAdd items loc).errs = 0 →
      ∀ u ri, (u, ri) ∈ items →
        alookup (applyFetchedList isAdd items loc).loc u = some ⟨ri.data, .synced ri.tag⟩ := by
  induction items with
  | nil => intro loc hn he u ri hm; cases hm
  | cons hd rest ih =>
    intro loc hn he u ri hm
    obtain ⟨u0, ri0⟩ := hd
    rw [List.map_cons, List.nodup_cons] at hn
    rw [applyFetchedList] at he ⊢
    simp only at he ⊢
    have he0 : (applyFetched isAdd loc u0 ri0).2 = 0 := by omega
    have her : (applyFetchedList isAdd rest (applyFetched isAdd loc u0 ri0).1).errs = 0 := by
      omega
    rcases List.mem_cons.mp hm with h0 | hrest
    · injection h0 with h1 h2
      subst h1
      subst h2
      rw [applyFetchedList_frame isAdd rest _ u hn.1]
      exact applyFetched_success isAdd loc u ri he0
    · exact ih _ hn.2 her u ri hrest

theorem getItemsByUrl_some_of_not_fetchFails {F : Faults} {rem : RemoteCal}
    {batch : List String} (h : F.fetchFails batch = false) :
    getItemsByUrl F rem batch =
      some (batch.filterMap fun u => (alookup rem.items u).map fun ri => (u, ri)) := by
  unfold getItemsByUrl
  rw [h]
  simp

theorem items_fst_sublist (rem : RemoteCal) (batch : List String) :
    ((batch.filterMap fun u => (alookup rem.items u).map fun ri => (u, ri)).map
      Prod.fst).Sublist batch := by
  induction batch with
  | nil => simp
  | cons u rest ih =>
    rw [List.filterMap_cons]
    cases halook : alookup rem.items u with
    | none =>
      simp only [Option.map_none']
      exact ih.cons u
    | some ri =>
      simp only [Option.map_some']
      rw [List.map_cons]
      exact ih.cons₂ u

theorem fetchBatchAndApply_frame (F : Faults) (isAdd : Bool) (batch : List String)
    (loc : LocalCal) (rem : RemoteCal) (x : String) (hx : x ∉ batch) :
    alookup (fetchBatchAndApply F isAdd batch loc rem).loc x = alookup loc x := by
  unfold fetchBatchAndApply
  cases hf : getItemsByUrl F rem batch with
  | none => rfl
  | some items =>
    simp only
    refine applyFetchedList_frame isAdd items loc x ?_
    intro hm
    rw [List.mem_map] at hm
    obtain ⟨p, hp, hpe⟩ := hm
    obtain ⟨u2, ri2⟩ := p
    have := getItemsByUrl_mem F rem batch hf u2 ri2 hp
    rw [← hpe] at hx
    exact hx this

theorem fetchBatchAndApply_nodup (F : Faults) (isAdd : Bool) (batch : List String)
    (loc : LocalCal) (rem : RemoteCal) (hl : NodupKeys loc) :
    NodupKeys (fetchBatchAndApply F isAdd batch loc rem).loc := by
  unfold fetchBatchAndApply
  cases hf : getItemsByUrl F rem batch with
  | none => exact hl
  | some items => exact applyFetchedList_nodup isAdd items loc hl

theorem fetchBatchAndApply_post (F : Faults) (isAdd : Bool) (batch : List String)
    (loc : LocalCal) (rem : RemoteCal) (hbn : batch.Nodup)
    (he : (fetchBatchAndApply F isAdd batch loc rem).errs = 0) :
    ∀ u ∈ batch, ∀ ri, alookup rem.items u = some ri →
      alookup (fetchBatchAndApply F isAdd batch loc rem).loc u =
        some ⟨ri.data, .synced ri.tag⟩ := by
  intro u hu ri hri
  unfold fetchBatchAndApply at he ⊢
  cases hf : getItemsByUrl F rem batch with
  | none =>
    rw [hf] at he
    cases he
  | some items =>
    rw [hf] at he
    simp only at he
    have hff : F.fetchFails batch = false := by
      cases h0 : F.fetchFails batch with
      | false => rfl
      | true =>
        unfold getItemsByUrl at hf
        rw [h0] at hf
        simp at hf
    have hitems : items = batch.filterMap fun w => (alookup rem.items w).map fun r => (w, r) := by
      have := @getItemsByUrl_some_of_not_fetchFails F rem batch hff
      rw [hf] at this
      exact Option.some.inj this
    have hmem : (u, ri) ∈ items := by
      rw [hitems, List.mem_filterMap]
      exact ⟨u, hu, by rw [hri]; rfl⟩
    have hn : (items.map Prod.fst).Nodup := by
      rw [hitems]
      exact (items_fst_sublist rem batch).nodup hbn
    exact applyFetchedList_post isAdd items loc hn he u ri hmem

theorem applyBatches_frame (F : Faults) (isAdd : Bool) (batches : List (List String)) :
    ∀ loc rem x, x ∉ batches.flatten →
      alookup (applyBatches F isAdd batches loc rem).loc x = alookup loc x := by
  induction batches with
  | nil => intro loc rem x hx; rfl
  | cons b rest ih =>
    intro loc rem x hx
    rw [List.flatten_cons] at hx
    have hxb : x ∉ b := fun hm => hx (List.mem_append.mpr (Or.inl hm))
    have hxr : x ∉ rest.flatten := fun hm => hx (List.mem_append.mpr (Or.inr hm))
    rw [applyBatches]
    simp only
    exact (ih _ rem x hxr).trans (fetchBatchAndApply_frame F isAdd b loc rem x hxb)

theorem applyBatches_nodup (F : Faults) (isAdd : Bool) (batches : List (List String)) :
    ∀ loc rem, NodupKeys loc → NodupKeys (applyBatches F isAdd batches loc rem).loc := by
  induction batches with
  | nil => intro loc rem hl; exact hl
  | cons b rest ih =>
    intro loc rem hl
    rw [applyBatches]
    exact ih _ rem (fetchBatchAndApply_nodup F isAdd b loc rem hl)

theorem applyBatches_post (F : Faults) (isAdd : Bool) (batches : List (List String)) :
    ∀ loc rem, batches.flatten.Nodup →
      (applyBatches F isAdd batches loc rem).errs = 0 →
      ∀ u ∈ batches.flatten, ∀ ri, alookup rem.items u = some ri →
        alookup (applyBatches F isAdd batches loc rem).loc u =
          some ⟨ri.data, .synced ri.tag⟩ := by
  induction batches with
  | nil => intro loc rem hn he u hu; cases hu
  | cons b rest ih =>
    intro loc rem hn he u hu ri hri
    rw [List.flatten_cons] at hn hu
    rw [applyBatches] at he ⊢
    simp only at he ⊢
    have he0 : (fetchBatchAndApply F isAdd b loc rem).errs = 0 := by omega
    have her : (applyBatches F isAdd rest (fetchBatchAndApply F isAdd b loc rem).loc
        rem).errs = 0 := by omega
    have hbn : b.Nodup := hn.of_append_left
    rcases List.mem_append.mp hu with hub | hur
    · have hnotr : u ∉ rest.flatten := by
        intro hm
        exact (List.disjoint_of_nodup_append hn) hub hm
      rw [applyBatches_frame F isAdd rest _ rem u hnotr]
      exact fetchBatchAndApply_post F isAdd b loc rem hbn he0 u hub ri hri
    · exact ih _ rem hn.of_append_right her u hur ri hri

theorem step5_frame (F : Faults) (urls : List String) :
    ∀ loc rem x, x ∉ urls →
      alookup (step5 F urls loc rem).loc x = alookup loc x ∧
      alookup (step5 F urls loc rem).rem.items x = alookup rem.items x := by
  induction urls with
  | nil => intro loc rem x hx; exact ⟨rfl, rfl⟩
  | cons u rest ih =>
    intro loc rem x hx
    have hxu : x ≠ u := fun he => hx (he ▸ List.mem_cons_self _ _)
    have hxr : x ∉ rest := fun hm => hx (List.mem_cons_of_mem _ hm)
    cases hl : alookup loc u with
    | none =>
      rw [step5]
      simp only [hl]
      exact ih loc rem x hxr
    | some it =>
      rw [step5]
      simp only [hl]
      rcases hra : remoteAddItem F rem u it with ⟨o, reqs⟩
      cases o with
      | none => exact ih loc rem x hxr
      | some pr =>
        obtain ⟨rem2, newSS⟩ := pr
        obtain ⟨-, -, hitems, -, -⟩ := remoteAddItem_some hra
        obtain ⟨a, b⟩ := ih (ainsert loc u ⟨it.data, newSS⟩) rem2 x hxr
        refine ⟨a.trans (alookup_ainsert_ne _ _ _ _ hxu), b.trans ?_⟩
        rw [hitems]
        exact alookup_ainsert_ne _ _ _ _ hxu

theorem step5_nodup (F : Faults) (urls : List String) :
    ∀ loc rem, NodupKeys loc → NodupKeys (step5 F urls loc rem).loc := by
  induction urls with
  | nil => intro loc rem hn; exact hn
  | cons u rest ih =>
    intro loc rem hn
    cases hl : alookup loc u with
    | none =>
      rw [step5]
      simp only [hl]
      exact ih loc rem hn
    | some it =>
      rw [step5]
      simp only [hl]
      rcases hra : remoteAddItem F rem u it with ⟨o, reqs⟩
      cases o with
      | none => exact ih loc rem hn
      | some pr =>
        obtain ⟨rem2, newSS⟩ := pr
        exact ih _ rem2 (nodupKeys_ainsert _ _ _ hn)

theorem step5_post (F : Faults) (urls : List String) :
    ∀ loc rem, urls.Nodup → (step5 F urls loc rem).errs = 0 →
      ∀ u ∈ urls, ∀ it, alookup loc u = some it →
        ∃ w, alookup (step5 F urls loc rem).loc u = some ⟨it.data, .synced w⟩ ∧
          alookup (step5 F urls loc rem).rem.items u = some ⟨it.data, w⟩ := by
  induction urls with
  | nil => intro loc rem hn he u hu; cases hu
  | cons u0 rest ih =>
    intro loc rem hn he u hu it hit
    rw [List.nodup_cons] at hn
    cases hl : alookup loc u0 with
    | none =>
      rw [step5] at he
      simp only [hl] at he
      omega
    | some it0 =>
      rw [step5] at he ⊢
      simp only [hl] at he ⊢
      rcases hra : remoteAddItem F rem u0 it0 with ⟨o, reqs⟩
      rw [hra] at he
      cases o with
      | none =>
        simp only at he
        omega
      | some pr =>
        obtain ⟨rem2, newSS⟩ := pr
        simp only at he ⊢
        obtain ⟨-, -, hitems, -, hss⟩ := remoteAddItem_some hra
        rcases List.mem_cons.mp hu with h0 | hrest
        · subst h0
          rw [hl] at hit
          injection hit with hit
          subst hit
          obtain ⟨a, b⟩ := step5_frame F rest (ainsert loc u ⟨it0.data, newSS⟩) rem2 u hn.1
          refine ⟨rem.nextTag, ?_, ?_⟩
          · rw [a, alookup_ainsert_self, hss]
          · rw [b, hitems, alookup_ainsert_self]
        · have hne : u ≠ u0 := fun he2 => hn.1 (he2 ▸ hrest)
          refine ih _ rem2 hn.2 he u hrest it ?_
          rw [alookup_ainsert_ne _ _ _ _ hne]
          exact hit

theorem step5_fail_keep (F : Faults) (urls : List String) :
    ∀ loc rem u, F.addFails u = true →
      alookup (step5 F urls loc rem).loc u = alookup loc u ∧
      alookup (step5 F urls loc rem).rem.items u = alookup rem.items u := by
  induction urls with
  | nil => intro loc rem u hf; exact ⟨rfl, rfl⟩
  | cons u0 rest ih =>
    intro loc rem u hf
    cases hl : alookup loc u0 with
    | none =>
      rw [step5]
      simp only [hl]
      exact ih loc rem u hf
    | some it0 =>
      rw [step5]
      simp only [hl]
      rcases hra : remoteAddItem F rem u0 it0 with ⟨o, reqs⟩
      cases o with
      | none => exact ih loc rem u hf
      | some pr =>
        obtain ⟨rem2, newSS⟩ := pr
        obtain ⟨hf0, -, hitems, -, -⟩ := remoteAddItem_some hra
        have hne : u ≠ u0 := by
          intro he
          rw [he, hf0] at hf
          cases hf
        obtain ⟨a, b⟩ := ih (ainsert loc u0 ⟨it0.data, newSS⟩) rem2 u hf
        refine ⟨a.trans (alookup_ainsert_ne _ _ _ _ hne), b.trans ?_⟩
        rw [hitems]
        exact alookup_ainsert_ne _ _ _ _ hne

theorem step6_frame (F : Faults) (urls : List String) :
    ∀ loc rem x, x ∉ urls →
      alookup (step6 F urls loc rem).loc x = alookup loc x ∧
      alookup (step6 F urls loc rem).rem.items x = alookup rem.items x := by
  induction urls with
  | nil => intro loc rem x hx; exact ⟨rfl, rfl⟩
  | cons u rest ih =>
    intro loc rem x hx
    have hxu : x ≠ u := fun he => hx (he ▸ List.mem_cons_self _ _)
    have hxr : x ∉ rest := fun hm => hx (List.mem_cons_of_mem _ hm)
    cases hl : alookup loc u with
    | none =>
      rw [step6]
      simp only [hl]
      exact ih loc rem x hxr
    | some it =>
      rw [step6]
      simp only [hl]
      rcases hru : remoteUpdateItem F rem u it with ⟨o, reqs⟩
      cases o with
      | none => exact ih loc rem x hxr
      | some pr =>
        obtain ⟨rem2, newSS⟩ := pr
        obtain ⟨-, hitems, -, -⟩ := remoteUpdateItem_some hru
        obtain ⟨a, b⟩ := ih (ainsert loc u ⟨it.data, newSS⟩) rem2 x hxr
        refine ⟨a.trans (alookup_ainsert_ne _ _ _ _ hxu), b.trans ?_⟩
        rw [hitems]
        exact alookup_ainsert_ne _ _ _ _ hxu

theorem step6_nodup (F : Faults) (urls : List String) :
    ∀ loc rem, NodupKeys loc → NodupKeys (step6 F urls loc rem).loc := by
  induction urls with
  | nil => intro loc rem hn; exact hn
  | cons u rest ih =>
    intro loc rem hn
    cases hl : alookup loc u with
    | none =>
      rw [step6]
      simp only [hl]
      exact ih loc rem hn
    | some it =>
      rw [step6]
      simp only [hl]
      rcases hru : remoteUpdateItem F rem u it with ⟨o, reqs⟩
      cases o with
      | none => exact ih loc rem hn
      | some pr =>
        obtain ⟨rem2, newSS⟩ := pr
        exact ih _ rem2 (nodupKeys_ainsert _ _ _ hn)

theorem step6_post (F : Faults) (urls : List String) :
    ∀ loc rem, urls.Nodup → (step6 F urls loc rem).errs = 0 →
      ∀ u ∈ urls, ∀ it, alookup loc u = some it →
        ∃ w, alookup (step6 F urls loc rem).loc u = some ⟨it.data, .synced w⟩ ∧
          alookup (step6 F urls loc rem).rem.items u = some ⟨it.data, w⟩ := by
  induction urls with
  | nil => intro loc rem hn he u hu; cases hu
  | cons u0 rest ih =>
    intro loc rem hn he u hu it hit
    rw [List.nodup_cons] at hn
    cases hl : alookup loc u0 with
    | none =>
      rw [step6] at he
      simp only [hl] at he
      omega
    | some it0 =>
      rw [step6] at he ⊢
      simp only [hl] at he ⊢
      rcases hru : remoteUpdateItem F rem u0 it0 with ⟨o, reqs⟩
      rw [hru] at he
      cases o with
      | none =>
        simp only at he
        omega
      | some pr =>
        obtain ⟨rem2, newSS⟩ := pr
        simp only at he ⊢
        obtain ⟨-, hitems, -, hss⟩ := remoteUpdateItem_some hru
        rcases List.mem_cons.mp hu with h0 | hrest
        · subst h0
          rw [hl] at hit
          injection hit with hit
          subst hit
          obtain ⟨a, b⟩ := step6_frame F rest (ainsert loc u ⟨it0.data, newSS⟩) rem2 u hn.1
          refine ⟨rem.nextTag, ?_, ?_⟩
          · rw [a, alookup_ainsert_self, hss]
          · rw [b, hitems, alookup_ainsert_self]
        · have hne : u ≠ u0 := fun he2 => hn.1 (he2 ▸ hrest)
          refine ih _ rem2 hn.2 he u hrest it ?_
          rw [alookup_ainsert_ne _ _ _ _ hne]
          exact hit

theorem step6_fail_keep (F : Faults) (urls : List String) :
    ∀ loc rem u, F.updateFails u = true →
      alookup (step6 F urls loc rem).loc u = alookup loc u ∧
      alookup (step6 F urls loc rem).rem.items u = alookup rem.items u := by
  induction urls with
  | nil => intro loc rem u hf; exact ⟨rfl, rfl⟩
  | cons u0 rest ih =>
    intro loc rem u hf
    cases hl : alookup loc u0 with
    | none =>
      rw [step6]
      simp only [hl]
      exact ih loc rem u hf
    | some it0 =>
      rw [step6]
      simp only [hl]
      rcases hru : remoteUpdateItem F rem u0 it0 with ⟨o, reqs⟩
      cases o with
      | none => exact ih loc rem u hf
      | some pr =>
        obtain ⟨rem2, newSS⟩ := pr
        obtain ⟨hf0, hitems, -, -⟩ := remoteUpdateItem_some hru
        have hne : u ≠ u0 := by
          intro he
          rw [he, hf0] at hf
          cases hf
        obtain ⟨a, b⟩ := ih (ainsert loc u0 ⟨it0.data, newSS⟩) rem2 u hf
        refine ⟨a.trans (alookup_ainsert_ne _ _ _ _ hne), b.trans ?_⟩
        rw [hitems]
        exact alookup_ainsert_ne _ _ _ _ hne

theorem step5_rem_nodup (F : Faults) (urls : List String) :
    ∀ loc rem, NodupKeys rem.items → NodupKeys (step5 F urls loc rem).rem.items := by
  induction urls with
  | nil => intro loc rem hn; exact hn
  | cons u rest ih =>
    intro loc rem hn
    cases hl : alookup loc u with
    | none =>
      rw [step5]
      simp only [hl]
      exact ih loc rem hn
    | some it =>
      rw [step5]
      simp only [hl]
      rcases hra : remoteAddItem F rem u it with ⟨o, reqs⟩
      cases o with
      | none => exact ih loc rem hn
      | some pr =>
        obtain ⟨rem2, newSS⟩ := pr
        obtain ⟨-, -, hitems, -, -⟩ := remoteAddItem_some hra
        refine ih _ rem2 ?_
        rw [hitems]
        exact nodupKeys_ainsert _ _ _ hn

theorem step6_rem_nodup (F : Faults) (urls : List String) :
    ∀ loc rem, NodupKeys rem.items → NodupKeys (step6 F urls loc rem).rem.items := by
  induction urls with
  | nil => intro loc rem hn; exact hn
  | cons u rest ih =>
    intro loc rem hn
    cases hl : alookup loc u with
    | none =>
      rw [step6]
      simp only [hl]
      exact ih loc rem hn
    | some it =>
      rw [step6]
      simp only [hl]
      rcases hru : remoteUpdateItem F rem u it with ⟨o, reqs⟩
      cases o with
      | none => exact ih loc rem hn
      | some pr =>
        obtain ⟨rem2, newSS⟩ := pr
        obtain ⟨-, hitems, -, -⟩ := remoteUpdateItem_some hru
        refine ih _ rem2 ?_
        rw [hitems]
        exact nodupKeys_ainsert _ _ _ hn

theorem step5_ok (F : Faults) (urls : List String) :
    ∀ loc rem, (step5 F urls loc rem).errs = 0 → ∀ u ∈ urls, F.addFails u = false := by
  induction urls with
  | nil => intro loc rem he u hu; cases hu
  | cons u0 rest ih =>
    intro loc rem he u hu
    cases hl : alookup loc u0 with
    | none =>
      rw [step5] at he
      simp only [hl] at he
      omega
    | some it0 =>
      rw [step5] at he
      simp only [hl] at he
      rcases hra : remoteAddItem F rem u0 it0 with ⟨o, reqs⟩
      rw [hra] at he
      cases o with
      | none =>
        simp only at he
        omega
      | some pr =>
        obtain ⟨rem2, newSS⟩ := pr
        simp only at he
        rcases List.mem_cons.mp hu with h0 | hrest
        · subst h0
          exact (remoteAddItem_some hra).1
        · exact ih _ rem2 he u hrest

theorem step6_ok (F : Faults) (urls : List String) :
    ∀ loc rem, (step6 F urls loc rem).errs = 0 → ∀ u ∈ urls, F.updateFails u = false := by
  induction urls with
  | nil => intro loc rem he u hu; cases hu
  | cons u0 rest ih =>
    intro loc rem he u hu
    cases hl : alookup loc u0 with
    | none =>
      rw [step6] at he
      simp only [hl] at he
      omega
    | some it0 =>
      rw [step6] at he
      simp only [hl] at he
      rcases hru : remoteUpdateItem F rem u0 it0 with ⟨o, reqs⟩
      rw [hru] at he
      cases o with
      | none =>
        simp only at he
        omega
      | some pr =>
        obtain ⟨rem2, newSS⟩ := pr
        simp only at he
        rcases List.mem_cons.mp hu with h0 | hrest
        · subst h0
          exact (remoteUpdateItem_some hru).1
        · exact ih _ rem2 he u hrest

/-! ### No duplicate URLs inside the classification lists -/

theorem filterMap_if_fst_sublist {β : Type} (q : String × β → Bool) :
    ∀ l : List (String × β),
      (l.filterMap fun p => if q p then some p.1 else none).Sublist (l.map Prod.fst) := by
  intro l
  induction l with
  | nil => simp
  | cons p rest ih =>
    cases hq : q p with
    | false =>
      simp only [List.filterMap_cons, List.map_cons, hq]
      exact ih.cons p.1
    | true =>
      simp only [List.filterMap_cons, List.map_cons, hq]
      exact ih.cons₂ p.1

theorem pass1_th_sublist (loc : LocalCal) (rem : List (String × Tag)) :
    ∀ th, (pass1 loc rem th).th.Sublist th := by
  induction rem with
  | nil => intro th; exact List.Sublist.refl th
  | cons hd rest ih =>
    intro th
    obtain ⟨u, t⟩ := hd
    cases hl : alookup loc u with
    | none =>
      rw [pass1]
      simp only [hl]
      exact ih th
    | some it =>
      rw [pass1]
      simp only [hl]
      cases hs : it.syncStatus
      all_goals simp only
      all_goals (try split_ifs)
      all_goals exact (ih (th.erase u)).trans (List.erase_sublist u th)

theorem getItemVersionTags_fst (rem : RemoteCal) :
    (getItemVersionTags rem).map Prod.fst = rem.items.map Prod.fst := by
  unfold getItemVersionTags
  rw [List.map_map]
  rfl

theorem classify_remoteAdditions_nodup (loc : LocalCal) (rem : RemoteCal)
    (hr : NodupKeys rem.items) : (classify loc rem).remoteAdditions.Nodup := by
  unfold classify
  rw [(pass2_preserves loc _ _).1, pass1_remoteAdditions]
  refine List.Sublist.nodup (filterMap_if_fst_sublist _ _) ?_
  rw [getItemVersionTags_fst]
  exact hr

theorem classify_remoteChanges_nodup (loc : LocalCal) (rem : RemoteCal)
    (hr : NodupKeys rem.items) : (classify loc rem).remoteChanges.Nodup := by
  unfold classify
  rw [(pass2_preserves loc _ _).2.1, pass1_remoteChanges]
  refine List.Sublist.nodup (filterMap_if_fst_sublist _ _) ?_
  rw [getItemVersionTags_fst]
  exact hr

theorem classify_localChanges_nodup (loc : LocalCal) (rem : RemoteCal)
    (hr : NodupKeys rem.items) : (classify loc rem).localChanges.Nodup := by
  unfold classify
  rw [(pass2_preserves loc _ _).2.2.1, pass1_localChanges]
  refine List.Sublist.nodup (filterMap_if_fst_sublist _ _) ?_
  rw [getItemVersionTags_fst]
  exact hr

theorem classify_localDel_nodup (loc : LocalCal) (rem : RemoteCal)
    (hr : NodupKeys rem.items) : (classify loc rem).localDel.Nodup := by
  unfold classify
  rw [(pass2_preserves loc _ _).2.2.2, pass1_localDel]
  refine List.Sublist.nodup (filterMap_if_fst_sublist _ _) ?_
  rw [getItemVersionTags_fst]
  exact hr

theorem classify_localAdditions_nodup (loc : LocalCal) (rem : RemoteCal)
    (hl : NodupKeys loc) : (classify loc rem).localAdditions.Nodup := by
  unfold classify
  rw [pass2_localAdditions, pass1_localAdditions, List.append_nil]
  refine List.Sublist.nodup (List.filter_sublist _) ?_
  exact List.Sublist.nodup (pass1_th_sublist loc _ (akeys loc)) hl

theorem classify_remoteDel_nodup (loc : LocalCal) (rem : RemoteCal)
    (hl : NodupKeys loc) : (classify loc rem).remoteDel.Nodup := by
  unfold classify
  rw [pass2_remoteDel, pass1_remoteDel, List.append_nil]
  refine List.Sublist.nodup (List.filter_sublist _) ?_
  exact List.Sublist.nodup (pass1_th_sublist loc _ (akeys loc)) hl

/-! ### The six-step pipeline, named stage by stage

Abbreviations for the intermediate states of `syncCalendarPair` (its
`let`-bound `s1` … `s6`), so that facts about one stage can be stated
without repeating the whole pipeline. -/

def pairS1 (F : Faults) (loc : LocalCal) (rem : RemoteCal) : StepLR :=
  step1 F (classify loc rem).localDel loc rem

def pairS2 (F : Faults) (loc : LocalCal) (rem : RemoteCal) : StepL :=
  step2 (classify loc rem).remoteDel (pairS1 F loc rem).loc

def pairS3 (F : Faults) (loc : LocalCal) (rem : RemoteCal) : StepL :=
  applyBatches F true (chunks (DOWNLOAD_BATCH_SIZE - 1) (classify loc rem).remoteAdditions)
    (pairS2 F loc rem).loc (pairS1 F loc rem).rem

def pairS4 (F : Faults) (loc : LocalCal) (rem : RemoteCal) : StepL :=
  applyBatches F false (chunks (DOWNLOAD_BATCH_SIZE - 1) (classify loc rem).remoteChanges)
    (pairS3 F loc rem).loc (pairS1 F loc rem).rem

def pairS5 (F : Faults) (loc : LocalCal) (rem : RemoteCal) : StepLR :=
  step5 F (classify loc rem).localAdditions (pairS4 F loc rem).loc (pairS1 F loc rem).rem

def pairS6 (F : Faults) (loc : LocalCal) (rem : RemoteCal) : StepLR :=
  step6 F (classify loc rem).localChanges (pairS5 F loc rem).loc (pairS5 F loc rem).rem

theorem syncCalendarPair_eq (F : Faults) (loc : LocalCal) (rem : RemoteCal)
    (htf : F.tagsFail = false) :
    syncCalendarPair F loc rem =
      ⟨(pairS6 F loc rem).loc, (pairS6 F loc rem).rem,
        (classify loc rem).errors + (pairS1 F loc rem).errs + (pairS2 F loc rem).errs +
          (pairS3 F loc rem).errs + (pairS4 F loc rem).errs + (pairS5 F loc rem).errs +
          (pairS6 F loc rem).errs,
        (pairS1 F loc rem).tr.map (fun e => (1, e)) ++
          (pairS2 F loc rem).tr.map (fun e => (2, e)) ++
          (pairS3 F loc rem).tr.map (fun e => (3, e)) ++
          (pairS4 F loc rem).tr.map (fun e => (4, e)) ++
          (pairS5 F loc rem).tr.map (fun e => (5, e)) ++
          (pairS6 F loc rem).tr.map (fun e => (6, e))⟩ := by
  unfold syncCalendarPair pairS6 pairS5 pairS4 pairS3 pairS2 pairS1
  rw [htf]
  simp

theorem pair_success_tagsFail {F : Faults} {loc : LocalCal} {rem : RemoteCal}
    (he : (syncCalendarPair F loc rem).errors = 0) : F.tagsFail = false := by
  cases h : F.tagsFail with
  | false => rfl
  | true =>
    unfold syncCalendarPair at he
    rw [h] at he
    simp at he

theorem pair_success_parts {F : Faults} {loc : LocalCal} {rem : RemoteCal}
    (he : (syncCalendarPair F loc rem).errors = 0) :
    (classify loc rem).errors = 0 ∧ (pairS1 F loc rem).errs = 0 ∧
    (pairS2 F loc rem).errs = 0 ∧ (pairS3 F loc rem).errs = 0 ∧
    (pairS4 F loc rem).errs = 0 ∧ (pairS5 F loc rem).errs = 0 ∧
    (pairS6 F loc rem).errs = 0 := by
  have htf := pair_success_tagsFail he
  rw [syncCalendarPair_eq F loc rem htf] at he
  simp only at he
  omega

/-! ### Convergence and alignment predicates -/

/-- The two calendars agree on their URL set, on the data stored at every
URL, and every local item is `Synced(v)` with `v` the remote etag.  This is
what "convergence" (and the absence of tombstones) means for one pair. -/
def pairConverged (loc : LocalCal) (rem : RemoteCal) : Prop :=
  (∀ u it, alookup loc u = some it → ∃ ri, alookup rem.items u = some ri ∧
      it.data = ri.data ∧ it.syncStatus = .synced ri.tag) ∧
  (∀ u ri, alookup rem.items u = some ri → ∃ it, alookup loc u = some it ∧
      it.data = ri.data ∧ it.syncStatus = .synced ri.tag)

/-- The weaker "tag alignment": same URL sets and every local item is
`Synced(v)` with `v` the remote etag — the data may still differ.  This is
the invariant a successful sync establishes even without assuming anything
about the initial pair, and it makes the next sync classify every URL as
unchanged. -/
def tagAligned (loc : LocalCal) (rem : RemoteCal) : Prop :=
  (∀ u it, alookup loc u = some it → ∃ ri, alookup rem.items u = some ri ∧
      it.syncStatus = .synced ri.tag) ∧
  (∀ u ri, alookup rem.items u = some ri → ∃ it, alookup loc u = some it ∧
      it.syncStatus = .synced ri.tag)

/-- Initial coherence of the already-synced items: a local `Synced(v)` item
whose URL still carries etag `v` on the server holds the same data as the
server (pass A skips such URLs entirely, so a sync can only converge if
they agree beforehand). -/
def SyncedCoherent (loc : LocalCal) (rem : RemoteCal) : Prop :=
  ∀ u it ri, alookup loc u = some it → alookup rem.items u = some ri →
    it.syncStatus = .synced ri.tag → it.data = ri.data

theorem pairConverged_tagAligned {loc : LocalCal} {rem : RemoteCal}
    (h : pairConverged loc rem) : tagAligned loc rem := by
  refine ⟨fun u it hit => ?_, fun u ri hri => ?_⟩
  · obtain ⟨ri, h1, -, h3⟩ := h.1 u it hit
    exact ⟨ri, h1, h3⟩
  · obtain ⟨it, h1, -, h3⟩ := h.2 u ri hri
    exact ⟨it, h1, h3⟩

/-! ### What one successful pass does to each URL -/

theorem pair_frame (F : Faults) (loc : LocalCal) (rem : RemoteCal) (u : String)
    (h1 : u ∉ (classify loc rem).localDel)
    (h2 : u ∉ (classify loc rem).remoteDel)
    (h3 : u ∉ (classify loc rem).remoteAdditions)
    (h4 : u ∉ (classify loc rem).remoteChanges)
    (h5 : u ∉ (classify loc rem).localAdditions)
    (h6 : u ∉ (classify loc rem).localChanges) :
    alookup (syncCalendarPair F loc rem).loc u = alookup loc u ∧
    alookup (syncCalendarPair F loc rem).rem.items u = alookup rem.items u := by
  cases htf : F.tagsFail with
  | true =>
    unfold syncCalendarPair
    rw [htf]
    exact ⟨rfl, rfl⟩
  | false =>
    rw [syncCalendarPair_eq F loc rem htf]
    simp only
    have f1 := step1_frame F (classify loc rem).localDel loc rem u h1
    have f2 := step2_frame (classify loc rem).remoteDel (pairS1 F loc rem).loc u h2
    have h3f : u ∉ (chunks (DOWNLOAD_BATCH_SIZE - 1) (classify loc rem).remoteAdditions).flatten := by
      rw [chunks_join]; exact h3
    have h4f : u ∉ (chunks (DOWNLOAD_BATCH_SIZE - 1) (classify loc rem).remoteChanges).flatten := by
      rw [chunks_join]; exact h4
    have f3 := applyBatches_frame F true
      (chunks (DOWNLOAD_BATCH_SIZE - 1) (classify loc rem).remoteAdditions)
      (pairS2 F loc rem).loc (pairS1 F loc rem).rem u h3f
    have f4 := applyBatches_frame F false
      (chunks (DOWNLOAD_BATCH_SIZE - 1) (classify loc rem).remoteChanges)
      (pairS3 F loc rem).loc (pairS1 F loc rem).rem u h4f
    have f5 := step5_frame F (classify loc rem).localAdditions
      (pairS4 F loc rem).loc (pairS1 F loc rem).rem u h5
    have f6 := step6_frame F (classify loc rem).localChanges
      (pairS5 F loc rem).loc (pairS5 F loc rem).rem u h6
    exact ⟨f6.1.trans (f5.1.trans (f4.trans (f3.trans (f2.trans f1.1)))),
           f6.2.trans (f5.2.trans f1.2.1)⟩

theorem pair_case_remoteAddition (F : Faults) (loc : LocalCal) (rem : RemoteCal)
    (hl : NodupKeys loc) (hr : NodupKeys rem.items)
    (he : (syncCalendarPair F loc rem).errors = 0)
    (u : String) (ri : RemoteItem)
    (hRi : alookup rem.items u = some ri) (hLnone : alookup loc u = none) :
    alookup (syncCalendarPair F loc rem).loc u = some ⟨ri.data, .synced ri.tag⟩ ∧
    alookup (syncCalendarPair F loc rem).rem.items u = some ri := by
  have htf := pair_success_tagsFail he
  obtain ⟨hc0, he1, he2, he3, he4, he5, he6⟩ := pair_success_parts he
  have h1 : u ∉ (classify loc rem).localDel := by
    rw [classify_localDel_mem loc rem hr]
    rintro ⟨ri', it', v', -, hit', -⟩
    rw [hLnone] at hit'
    cases hit'
  have h2 : u ∉ (classify loc rem).remoteDel := by
    rw [classify_remoteDel_mem loc rem hl]
    rintro ⟨⟨it', v', hit', -⟩, -⟩
    rw [hLnone] at hit'
    cases hit'
  have h4 : u ∉ (classify loc rem).remoteChanges := by
    rw [classify_remoteChanges_mem loc rem hr]
    rintro ⟨ri', it', -, hit', -⟩
    rw [hLnone] at hit'
    cases hit'
  have h5 : u ∉ (classify loc rem).localAdditions := by
    rw [classify_localAdditions_mem loc rem hl]
    rintro ⟨⟨it', hit', -⟩, -⟩
    rw [hLnone] at hit'
    cases hit'
  have h6 : u ∉ (classify loc rem).localChanges := by
    rw [classify_localChanges_mem loc rem hr]
    rintro ⟨ri', it', v', -, hit', -⟩
    rw [hLnone] at hit'
    cases hit'
  have h3 : u ∈ (classify loc rem).remoteAdditions := by
    rw [classify_remoteAdditions_mem loc rem hr]
    exact ⟨⟨ri, hRi⟩, hLnone⟩
  rw [syncCalendarPair_eq F loc rem htf]
  have f1 := step1_frame F (classify loc rem).localDel loc rem u h1
  have f2 := step2_frame (classify loc rem).remoteDel (pairS1 F loc rem).loc u h2
  have h3f : u ∈ (chunks (DOWNLOAD_BATCH_SIZE - 1) (classify loc rem).remoteAdditions).flatten := by
    rw [chunks_join]
    exact h3
  have h4f : u ∉ (chunks (DOWNLOAD_BATCH_SIZE - 1) (classify loc rem).remoteChanges).flatten := by
    rw [chunks_join]
    exact h4
  have hn3 : (chunks (DOWNLOAD_BATCH_SIZE - 1) (classify loc rem).remoteAdditions).flatten.Nodup := by
    rw [chunks_join]
    exact classify_remoteAdditions_nodup loc rem hr
  have hrem1 : alookup (pairS1 F loc rem).rem.items u = some ri := f1.2.1.trans hRi
  have p3 := applyBatches_post F true
    (chunks (DOWNLOAD_BATCH_SIZE - 1) (classify loc rem).remoteAdditions)
    (pairS2 F loc rem).loc (pairS1 F loc rem).rem hn3 he3 u h3f ri hrem1
  have f4 := applyBatches_frame F false
    (chunks (DOWNLOAD_BATCH_SIZE - 1) (classify loc rem).remoteChanges)
    (pairS3 F loc rem).loc (pairS1 F loc rem).rem u h4f
  have f5 := step5_frame F (classify loc rem).localAdditions
    (pairS4 F loc rem).loc (pairS1 F loc rem).rem u h5
  have f6 := step6_frame F (classify loc rem).localChanges
    (pairS5 F loc rem).loc (pairS5 F loc rem).rem u h6
  exact ⟨f6.1.trans (f5.1.trans (f4.trans p3)),
         f6.2.trans (f5.2.trans (f1.2.1.trans hRi))⟩

theorem pair_case_remoteChange (F : Faults) (loc : LocalCal) (rem : RemoteCal)
    (hl : NodupKeys loc) (hr : NodupKeys rem.items)
    (he : (syncCalendarPair F loc rem).errors = 0)
    (u : String) (ri : RemoteItem) (it : LocalItem) (v : Tag)
    (hRi : alookup rem.items u = some ri) (hLit : alookup loc u = some it)
    (hss : it.syncStatus = .synced v ∨ it.syncStatus = .locallyModified v ∨
           it.syncStatus = .locallyDeleted v)
    (hne : ri.tag ≠ v) :
    alookup (syncCalendarPair F loc rem).loc u = some ⟨ri.data, .synced ri.tag⟩ ∧
    alookup (syncCalendarPair F loc rem).rem.items u = some ri := by
  have htf := pair_success_tagsFail he
  obtain ⟨hc0, he1, he2, he3, he4, he5, he6⟩ := pair_success_parts he
  have h1 : u ∉ (classify loc rem).localDel := by
    rw [classify_localDel_mem loc rem hr]
    rintro ⟨ri', it', v', hri', hit', hss', htag'⟩
    rw [hRi] at hri'
    injection hri' with hri'
    rw [hLit] at hit'
    injection hit' with hit'
    subst hri'
    subst hit'
    rcases hss with h | h | h <;> rw [h] at hss'
    · cases hss'
    · cases hss'
    · injection hss' with hv
      exact hne (hv ▸ htag')
  have h2 : u ∉ (classify loc rem).remoteDel := by
    rw [classify_remoteDel_mem loc rem hl]
    rintro ⟨-, hrn⟩
    rw [hRi] at hrn
    cases hrn
  have h3 : u ∉ (classify loc rem).remoteAdditions := by
    rw [classify_remoteAdditions_mem loc rem hr]
    rintro ⟨-, hln⟩
    rw [hLit] at hln
    cases hln
  have h5 : u ∉ (classify loc rem).localAdditions := by
    rw [classify_localAdditions_mem loc rem hl]
    rintro ⟨-, hrn⟩
    rw [hRi] at hrn
    cases hrn
  have h6 : u ∉ (classify loc rem).localChanges := by
    rw [classify_localChanges_mem loc rem hr]
    rintro ⟨ri', it', v', hri', hit', hss', htag'⟩
    rw [hRi] at hri'
    injection hri' with hri'
    rw [hLit] at hit'
    injection hit' with hit'
    subst hri'
    subst hit'
    rcases hss with h | h | h <;> rw [h] at hss'
    · cases hss'
    · injection hss' with hv
      exact hne (hv ▸ htag')
    · cases hss'
  have h4 : u ∈ (classify loc rem).remoteChanges := by
    rw [classify_remoteChanges_mem loc rem hr]
    exact ⟨ri, it, hRi, hLit, v, hss, hne⟩
  rw [syncCalendarPair_eq F loc rem htf]
  have f1 := step1_frame F (classify loc rem).localDel loc rem u h1
  have f2 := step2_frame (classify loc rem).remoteDel (pairS1 F loc rem).loc u h2
  have h3f : u ∉ (chunks (DOWNLOAD_BATCH_SIZE - 1) (classify loc rem).remoteAdditions).flatten := by
    rw [chunks_join]
    exact h3
  have h4f : u ∈ (chunks (DOWNLOAD_BATCH_SIZE - 1) (classify loc rem).remoteChanges).flatten := by
    rw [chunks_join]
    exact h4
  have hn4 : (chunks (DOWNLOAD_BATCH_SIZE - 1) (classify loc rem).remoteChanges).flatten.Nodup := by
    rw [chunks_join]
    exact classify_remoteChanges_nodup loc rem hr
  have hrem1 : alookup (pairS1 F loc rem).rem.items u = some ri := f1.2.1.trans hRi
  have f3 := applyBatches_frame F true
    (chunks (DOWNLOAD_BATCH_SIZE - 1) (classify loc rem).remoteAdditions)
    (pairS2 F loc rem).loc (pairS1 F loc rem).rem u h3f
  have p4 := applyBatches_post F false
    (chunks (DOWNLOAD_BATCH_SIZE - 1) (classify loc rem).remoteChanges)
    (pairS3 F loc rem).loc (pairS1 F loc rem).rem hn4 he4 u h4f ri hrem1
  have f5 := step5_frame F (classify loc rem).localAdditions
    (pairS4 F loc rem).loc (pairS1 F loc rem).rem u h5
  have f6 := step6_frame F (classify loc rem).localChanges
    (pairS5 F loc rem).loc (pairS5 F loc rem).rem u h6
  exact ⟨f6.1.trans (f5.1.trans p4),
         f6.2.trans (f5.2.trans (f1.2.1.trans hRi))⟩

theorem pair_case_localChange (F : Faults) (loc : LocalCal) (rem : RemoteCal)
    (hl : NodupKeys loc) (hr : NodupKeys rem.items)
    (he : (syncCalendarPair F loc rem).errors = 0)
    (u : String) (ri : RemoteItem) (it : LocalItem) (v : Tag)
    (hRi : alookup rem.items u = some ri) (hLit : alookup loc u = some it)
    (hss : it.syncStatus = .locallyModified v) (htag : ri.tag = v) :
    ∃ w, alookup (syncCalendarPair F loc rem).loc u = some ⟨it.data, .synced w⟩ ∧
      alookup (syncCalendarPair F loc rem).rem.items u = some ⟨it.data, w⟩ := by
  have htf := pair_success_tagsFail he
  obtain ⟨hc0, he1, he2, he3, he4, he5, he6⟩ := pair_success_parts he
  have h1 : u ∉ (classify loc rem).localDel := by
    rw [classify_localDel_mem loc rem hr]
    rintro ⟨ri', it', v', hri', hit', hss', htag'⟩
    rw [hLit] at hit'
    injection hit' with hit'
    subst hit'
    rw [hss] at hss'
    cases hss'
  have h2 : u ∉ (classify loc rem).remoteDel := by
    rw [classify_remoteDel_mem loc rem hl]
    rintro ⟨-, hrn⟩
    rw [hRi] at hrn
    cases hrn
  have h3 : u ∉ (classify loc rem).remoteAdditions := by
    rw [classify_remoteAdditions_mem loc rem hr]
    rintro ⟨-, hln⟩
    rw [hLit] at hln
    cases hln
  have h4 : u ∉ (classify loc rem).remoteChanges := by
    rw [classify_remoteChanges_mem loc rem hr]
    rintro ⟨ri', it', hri', hit', v', hss', hne'⟩
    rw [hRi] at hri'
    injection hri' with hri'
    rw [hLit] at hit'
    injection hit' with hit'
    subst hri'
    subst hit'
    rcases hss' with h | h | h <;> rw [hss] at h
    · cases h
    · injection h with hv
      exact hne' (htag.trans hv)
    · cases h
  have h5 : u ∉ (classify loc rem).localAdditions := by
    rw [classify_localAdditions_mem loc rem hl]
    rintro ⟨-, hrn⟩
    rw [hRi] at hrn
    cases hrn
  have h6 : u ∈ (classify loc rem).localChanges := by
    rw [classify_localChanges_mem loc rem hr]
    exact ⟨ri, it, v, hRi, hLit, hss, htag⟩
  rw [syncCalendarPair_eq F loc rem htf]
  have f1 := step1_frame F (classify loc rem).localDel loc rem u h1
  have f2 := step2_frame (classify loc rem).remoteDel (pairS1 F loc rem).loc u h2
  have h3f : u ∉ (chunks (DOWNLOAD_BATCH_SIZE - 1) (classify loc rem).remoteAdditions).flatten := by
    rw [chunks_join]
    exact h3
  have h4f : u ∉ (chunks (DOWNLOAD_BATCH_SIZE - 1) (classify loc rem).remoteChanges).flatten := by
    rw [chunks_join]
    exact h4
  have f3 := applyBatches_frame F true
    (chunks (DOWNLOAD_BATCH_SIZE - 1) (classify loc rem).remoteAdditions)
    (pairS2 F loc rem).loc (pairS1 F loc rem).rem u h3f
  have f4 := applyBatches_frame F false
    (chunks (DOWNLOAD_BATCH_SIZE - 1) (classify loc rem).remoteChanges)
    (pairS3 F loc rem).loc (pairS1 F loc rem).rem u h4f
  have f5 := step5_frame F (classify loc rem).localAdditions
    (pairS4 F loc rem).loc (pairS1 F loc rem).rem u h5
  have hloc5 : alookup (pairS5 F loc rem).loc u = some it :=
    f5.1.trans (f4.trans (f3.trans (f2.trans (f1.1.trans hLit))))
  obtain ⟨w, hw1, hw2⟩ := step6_post F (classify loc rem).localChanges
    (pairS5 F loc rem).loc (pairS5 F loc rem).rem
    (classify_localChanges_nodup loc rem hr) he6 u h6 it hloc5
  exact ⟨w, hw1, hw2⟩

theorem pair_case_localDeletion (F : Faults) (loc : LocalCal) (rem : RemoteCal)
    (hl : NodupKeys loc) (hr : NodupKeys rem.items)
    (he : (syncCalendarPair F loc rem).errors = 0)
    (u : String) (ri : RemoteItem) (it : LocalItem) (v : Tag)
    (hRi : alookup rem.items u = some ri) (hLit : alookup loc u = some it)
    (hss : it.syncStatus = .locallyDeleted v) (htag : ri.tag = v) :
    alookup (syncCalendarPair F loc rem).loc u = none ∧
    alookup (syncCalendarPair F loc rem).rem.items u = none := by
  have htf := pair_success_tagsFail he
  obtain ⟨hc0, he1, he2, he3, he4, he5, he6⟩ := pair_success_parts he
  have h1 : u ∈ (classify loc rem).localDel := by
    rw [classify_localDel_mem loc rem hr]
    exact ⟨ri, it, v, hRi, hLit, hss, htag⟩
  have h2 : u ∉ (classify loc rem).remoteDel := by
    rw [classify_remoteDel_mem loc rem hl]
    rintro ⟨-, hrn⟩
    rw [hRi] at hrn
    cases hrn
  have h3 : u ∉ (classify loc rem).remoteAdditions := by
    rw [classify_remoteAdditions_mem loc rem hr]
    rintro ⟨-, hln⟩
    rw [hLit] at hln
    cases hln
  have h4 : u ∉ (classify loc rem).remoteChanges := by
    rw [classify_remoteChanges_mem loc rem hr]
    rintro ⟨ri', it', hri', hit', v', hss', hne'⟩
    rw [hRi] at hri'
    injection hri' with hri'
    rw [hLit] at hit'
    injection hit' with hit'
    subst hri'
    subst hit'
    rcases hss' with h | h | h <;> rw [hss] at h
    · cases h
    · cases h
    · injection h with hv
      exact hne' (htag.trans hv)
  have h5 : u ∉ (classify loc rem).localAdditions := by
    rw [classify_localAdditions_mem loc rem hl]
    rintro ⟨-, hrn⟩
    rw [hRi] at hrn
    cases hrn
  have h6 : u ∉ (classify loc rem).localChanges := by
    rw [classify_localChanges_mem loc rem hr]
    rintro ⟨ri', it', v', hri', hit', hss', htag'⟩
    rw [hLit] at hit'
    injection hit' with hit'
    subst hit'
    rw [hss] at hss'
    cases hss'
  rw [syncCalendarPair_eq F loc rem htf]
  obtain ⟨p1l, p1r, -⟩ := step1_post F (classify loc rem).localDel loc rem hl hr he1 u h1
  have f2 := step2_frame (classify loc rem).remoteDel (pairS1 F loc rem).loc u h2
  have h3f : u ∉ (chunks (DOWNLOAD_BATCH_SIZE - 1) (classify loc rem).remoteAdditions).flatten := by
    rw [chunks_join]
    exact h3
  have h4f : u ∉ (chunks (DOWNLOAD_BATCH_SIZE - 1) (classify loc rem).remoteChanges).flatten := by
    rw [chunks_join]
    exact h4
  have f3 := applyBatches_frame F true
    (chunks (DOWNLOAD_BATCH_SIZE - 1) (classify loc rem).remoteAdditions)
    (pairS2 F loc rem).loc (pairS1 F loc rem).rem u h3f
  have f4 := applyBatches_frame F false
    (chunks (DOWNLOAD_BATCH_SIZE - 1) (classify loc rem).remoteChanges)
    (pairS3 F loc rem).loc (pairS1 F loc rem).rem u h4f
  have f5 := step5_frame F (classify loc rem).localAdditions
    (pairS4 F loc rem).loc (pairS1 F loc rem).rem u h5
  have f6 := step6_frame F (classify loc rem).localChanges
    (pairS5 F loc rem).loc (pairS5 F loc rem).rem u h6
  exact ⟨f6.1.trans (f5.1.trans (f4.trans (f3.trans (f2.trans p1l)))),
         f6.2.trans (f5.2.trans p1r)⟩

theorem pair_case_localAddition (F : Faults) (loc : LocalCal) (rem : RemoteCal)
    (hl : NodupKeys loc) (hr : NodupKeys rem.items)
    (he : (syncCalendarPair F loc rem).errors = 0)
    (u : String) (it : LocalItem)
    (hLit : alookup loc u = some it) (hss : it.syncStatus = .notSynced)
    (hRnone : alookup rem.items u = none) :
    ∃ w, alookup (syncCalendarPair F loc rem).loc u = some ⟨it.data, .synced w⟩ ∧
      alookup (syncCalendarPair F loc rem).rem.items u = some ⟨it.data, w⟩ := by
  have htf := pair_success_tagsFail he
  obtain ⟨hc0, he1, he2, he3, he4, he5, he6⟩ := pair_success_parts he
  have h1 : u ∉ (classify loc rem).localDel := by
    rw [classify_localDel_mem loc rem hr]
    rintro ⟨ri', it', v', hri', -⟩
    rw [hRnone] at hri'
    cases hri'
  have h2 : u ∉ (classify loc rem).remoteDel := by
    rw [classify_remoteDel_mem loc rem hl]
    rintro ⟨⟨it', v', hit', hss'⟩, -⟩
    rw [hLit] at hit'
    injection hit' with hit'
    subst hit'
    rcases hss' with h | h | h <;> rw [hss] at h <;> cases h
  have h3 : u ∉ (classify loc rem).remoteAdditions := by
    rw [classify_remoteAdditions_mem loc rem hr]
    rintro ⟨⟨ri', hri'⟩, -⟩
    rw [hRnone] at hri'
    cases hri'
  have h4 : u ∉ (classify loc rem).remoteChanges := by
    rw [classify_remoteChanges_mem loc rem hr]
    rintro ⟨ri', it', hri', -⟩
    rw [hRnone] at hri'
    cases hri'
  have h6 : u ∉ (classify loc rem).localChanges := by
    rw [classify_localChanges_mem loc rem hr]
    rintro ⟨ri', it', v', hri', -⟩
    rw [hRnone] at hri'
    cases hri'
  have h5 : u ∈ (classify loc rem).localAdditions := by
    rw [classify_localAdditions_mem loc rem hl]
    exact ⟨⟨it, hLit, hss⟩, hRnone⟩
  rw [syncCalendarPair_eq F loc rem htf]
  have f1 := step1_frame F (classify loc rem).localDel loc rem u h1
  have f2 := step2_frame (classify loc rem).remoteDel (pairS1 F loc rem).loc u h2
  have h3f : u ∉ (chunks (DOWNLOAD_BATCH_SIZE - 1) (classify loc rem).remoteAdditions).flatten := by
    rw [chunks_join]
    exact h3
  have h4f : u ∉ (chunks (DOWNLOAD_BATCH_SIZE - 1) (classify loc rem).remoteChanges).flatten := by
    rw [chunks_join]
    exact h4
  have f3 := applyBatches_frame F true
    (chunks (DOWNLOAD_BATCH_SIZE - 1) (classify loc rem).remoteAdditions)
    (pairS2 F loc rem).loc (pairS1 F loc rem).rem u h3f
  have f4 := applyBatches_frame F false
    (chunks (DOWNLOAD_BATCH_SIZE - 1) (classify loc rem).remoteChanges)
    (pairS3 F loc rem).loc (pairS1 F loc rem).rem u h4f
  have hloc4 : alookup (pairS4 F loc rem).loc u = some it :=
    f4.trans (f3.trans (f2.trans (f1.1.trans hLit)))
  obtain ⟨w, hw1, hw2⟩ := step5_post F (classify loc rem).localAdditions
    (pairS4 F loc rem).loc (pairS1 F loc rem).rem
    (classify_localAdditions_nodup loc rem hl) he5 u h5 it hloc4
  have f6 := step6_frame F (classify loc rem).localChanges
    (pairS5 F loc rem).loc (pairS5 F loc rem).rem u h6
  exact ⟨w, f6.1.trans hw1, f6.2.trans hw2⟩

theorem pair_case_remoteDeletion (F : Faults) (loc : LocalCal) (rem : RemoteCal)
    (hl : NodupKeys loc) (hr : NodupKeys rem.items)
    (he : (syncCalendarPair F loc rem).errors = 0)
    (u : String) (it : LocalItem)
    (hLit : alookup loc u = some it) (hss : it.syncStatus ≠ .notSynced)
    (hRnone : alookup rem.items u = none) :
    alookup (syncCalendarPair F loc rem).loc u = none ∧
    alookup (syncCalendarPair F loc rem).rem.items u = none := by
  have htf := pair_success_tagsFail he
  obtain ⟨hc0, he1, he2, he3, he4, he5, he6⟩ := pair_success_parts he
  have h1 : u ∉ (classify loc rem).localDel := by
    rw [classify_localDel_mem loc rem hr]
    rintro ⟨ri', it', v', hri', -⟩
    rw [hRnone] at hri'
    cases hri'
  have h3 : u ∉ (classify loc rem).remoteAdditions := by
    rw [classify_remoteAdditions_mem loc rem hr]
    rintro ⟨⟨ri', hri'⟩, -⟩
    rw [hRnone] at hri'
    cases hri'
  have h4 : u ∉ (classify loc rem).remoteChanges := by
    rw [classify_remoteChanges_mem loc rem hr]
    rintro ⟨ri', it', hri', -⟩
    rw [hRnone] at hri'
    cases hri'
  have h5 : u ∉ (classify loc rem).localAdditions := by
    rw [classify_localAdditions_mem loc rem hl]
    rintro ⟨⟨it', hit', hss'⟩, -⟩
    rw [hLit] at hit'
    injection hit' with hit'
    subst hit'
    exact hss hss'
  have h6 : u ∉ (classify loc rem).localChanges := by
    rw [classify_localChanges_mem loc rem hr]
    rintro ⟨ri', it', v', hri', -⟩
    rw [hRnone] at hri'
    cases hri'
  have h2 : u ∈ (classify loc rem).remoteDel := by
    rw [classify_remoteDel_mem loc rem hl]
    refine ⟨⟨it, ?_⟩, hRnone⟩
    cases hs : it.syncStatus with
    | notSynced => exact absurd hs hss
    | synced v => exact ⟨v, hLit, Or.inl rfl⟩
    | locallyModified v => exact ⟨v, hLit, Or.inr (Or.inl rfl)⟩
    | locallyDeleted v => exact ⟨v, hLit, Or.inr (Or.inr rfl)⟩
  rw [syncCalendarPair_eq F loc rem htf]
  have f1 := step1_frame F (classify loc rem).localDel loc rem u h1
  have hnl1 : NodupKeys (pairS1 F loc rem).loc :=
    (step1_nodup F (classify loc rem).localDel loc rem hl hr).1
  have p2 := step2_post (classify loc rem).remoteDel (pairS1 F loc rem).loc hnl1 he2 u h2
  have h3f : u ∉ (chunks (DOWNLOAD_BATCH_SIZE - 1) (classify loc rem).remoteAdditions).flatten := by
    rw [chunks_join]
    exact h3
  have h4f : u ∉ (chunks (DOWNLOAD_BATCH_SIZE - 1) (classify loc rem).remoteChanges).flatten := by
    rw [chunks_join]
    exact h4
  have f3 := applyBatches_frame F true
    (chunks (DOWNLOAD_BATCH_SIZE - 1) (classify loc rem).remoteAdditions)
    (pairS2 F loc rem).loc (pairS1 F loc rem).rem u h3f
  have f4 := applyBatches_frame F false
    (chunks (DOWNLOAD_BATCH_SIZE - 1) (classify loc rem).remoteChanges)
    (pairS3 F loc rem).loc (pairS1 F loc rem).rem u h4f
  have f5 := step5_frame F (classify loc rem).localAdditions
    (pairS4 F loc rem).loc (pairS1 F loc rem).rem u h5
  have f6 := step6_frame F (classify loc rem).localChanges
    (pairS5 F loc rem).loc (pairS5 F loc rem).rem u h6
  exact ⟨f6.1.trans (f5.1.trans (f4.trans (f3.trans p2))),
         f6.2.trans (f5.2.trans (f1.2.1.trans hRnone))⟩

theorem pair_case_skip (F : Faults) (loc : LocalCal) (rem : RemoteCal)
    (hl : NodupKeys loc) (hr : NodupKeys rem.items)
    (u : String) (ri : RemoteItem) (it : LocalItem)
    (hRi : alookup rem.items u = some ri) (hLit : alookup loc u = some it)
    (hss : it.syncStatus = .synced ri.tag) :
    alookup (syncCalendarPair F loc rem).loc u = some it ∧
    alookup (syncCalendarPair F loc rem).rem.items u = some ri := by
  have h1 : u ∉ (classify loc rem).localDel := by
    rw [classify_localDel_mem loc rem hr]
    rintro ⟨ri', it', v', hri', hit', hss', -⟩
    rw [hLit] at hit'
    injection hit' with hit'
    subst hit'
    rw [hss] at hss'
    cases hss'
  have h2 : u ∉ (classify loc rem).remoteDel := by
    rw [classify_remoteDel_mem loc rem hl]
    rintro ⟨-, hrn⟩
    rw [hRi] at hrn
    cases hrn
  have h3 : u ∉ (classify loc rem).remoteAdditions := by
    rw [classify_remoteAdditions_mem loc rem hr]
    rintro ⟨-, hln⟩
    rw [hLit] at hln
    cases hln
  have h4 : u ∉ (classify loc rem).remoteChanges := by
    rw [classify_remoteChanges_mem loc rem hr]
    rintro ⟨ri', it', hri', hit', v', hss', hne'⟩
    rw [hRi] at hri'
    injection hri' with hri'
    rw [hLit] at hit'
    injection hit' with hit'
    subst hri'
    subst hit'
    rcases hss' with h | h | h <;> rw [hss] at h
    · injection h with hv
      exact hne' hv
    · cases h
    · cases h
  have h5 : u ∉ (classify loc rem).localAdditions := by
    rw [classify_localAdditions_mem loc rem hl]
    rintro ⟨-, hrn⟩
    rw [hRi] at hrn
    cases hrn
  have h6 : u ∉ (classify loc rem).localChanges := by
    rw [classify_localChanges_mem loc rem hr]
    rintro ⟨ri', it', v', hri', hit', hss', -⟩
    rw [hLit] at hit'
    injection hit' with hit'
    subst hit'
    rw [hss] at hss'
    cases hss'
  obtain ⟨a, b⟩ := pair_frame F loc rem u h1 h2 h3 h4 h5 h6
  exact ⟨a.trans hLit, b.trans hRi⟩

theorem pair_case_absent (F : Faults) (loc : LocalCal) (rem : RemoteCal)
    (hl : NodupKeys loc) (hr : NodupKeys rem.items)
    (u : String)
    (hLnone : alookup loc u = none) (hRnone : alookup rem.items u = none) :
    alookup (syncCalendarPair F loc rem).loc u = none ∧
    alookup (syncCalendarPair F loc rem).rem.items u = none := by
  have h1 : u ∉ (classify loc rem).localDel := by
    rw [classify_localDel_mem loc rem hr]
    rintro ⟨ri', it', v', hri', -⟩
    rw [hRnone] at hri'
    cases hri'
  have h2 : u ∉ (classify loc rem).remoteDel := by
    rw [classify_remoteDel_mem loc rem hl]
    rintro ⟨⟨it', v', hit', -⟩, -⟩
    rw [hLnone] at hit'
    cases hit'
  have h3 : u ∉ (classify loc rem).remoteAdditions := by
    rw [classify_remoteAdditions_mem loc rem hr]
    rintro ⟨⟨ri', hri'⟩, -⟩
    rw [hRnone] at hri'
    cases hri'
  have h4 : u ∉ (classify loc rem).remoteChanges := by
    rw [classify_remoteChanges_mem loc rem hr]
    rintro ⟨ri', it', hri', -⟩
    rw [hRnone] at hri'
    cases hri'
  have h5 : u ∉ (classify loc rem).localAdditions := by
    rw [classify_localAdditions_mem loc rem hl]
    rintro ⟨⟨it', hit', -⟩, -⟩
    rw [hLnone] at hit'
    cases hit'
  have h6 : u ∉ (classify loc rem).localChanges := by
    rw [classify_localChanges_mem loc rem hr]
    rintro ⟨ri', it', v', hri', -⟩
    rw [hRnone] at hri'
    cases hri'
  obtain ⟨a, b⟩ := pair_frame F loc rem u h1 h2 h3 h4 h5 h6
  exact ⟨a.trans hLnone, b.trans hRnone⟩

theorem pair_nodup (F : Faults) (loc : LocalCal) (rem : RemoteCal)
    (hl : NodupKeys loc) (hr : NodupKeys rem.items) :
    NodupKeys (syncCalendarPair F loc rem).loc ∧
    NodupKeys (syncCalendarPair F loc rem).rem.items := by
  cases htf : F.tagsFail with
  | true =>
    unfold syncCalendarPair
    rw [htf]
    exact ⟨hl, hr⟩
  | false =>
    rw [syncCalendarPair_eq F loc rem htf]
    have n1 := step1_nodup F (classify loc rem).localDel loc rem hl hr
    have n2 := step2_nodup (classify loc rem).remoteDel (pairS1 F loc rem).loc n1.1
    have n3 := applyBatches_nodup F true
      (chunks (DOWNLOAD_BATCH_SIZE - 1) (classify loc rem).remoteAdditions)
      (pairS2 F loc rem).loc (pairS1 F loc rem).rem n2
    have n4 := applyBatches_nodup F false
      (chunks (DOWNLOAD_BATCH_SIZE - 1) (classify loc rem).remoteChanges)
      (pairS3 F loc rem).loc (pairS1 F loc rem).rem n3
    have n5l := step5_nodup F (classify loc rem).localAdditions
      (pairS4 F loc rem).loc (pairS1 F loc rem).rem n4
    have n5r := step5_rem_nodup F (classify loc rem).localAdditions
      (pairS4 F loc rem).loc (pairS1 F loc rem).rem n1.2
    have n6l := step6_nodup F (classify loc rem).localChanges
      (pairS5 F loc rem).loc (pairS5 F loc rem).rem n5l
    have n6r := step6_rem_nodup F (classify loc rem).localChanges
      (pairS5 F loc rem).loc (pairS5 F loc rem).rem n5r
    exact ⟨n6l, n6r⟩

/-- After a successful pass, each URL falls in one of three buckets: absent
from both sides, freshly written to both sides with the same data and a
matching tag, or skipped entirely (it was already `Synced` with a matching
etag and both sides still hold their original items). -/
theorem pair_final_cases (F : Faults) (loc : LocalCal) (rem : RemoteCal)
    (hl : NodupKeys loc) (hr : NodupKeys rem.items)
    (he : (syncCalendarPair F loc rem).errors = 0) (u : String) :
    (alookup (syncCalendarPair F loc rem).loc u = none ∧
     alookup (syncCalendarPair F loc rem).rem.items u = none) ∨
    (∃ d w, alookup (syncCalendarPair F loc rem).loc u = some ⟨d, .synced w⟩ ∧
      alookup (syncCalendarPair F loc rem).rem.items u = some ⟨d, w⟩) ∨
    (∃ it0 ri0, alookup loc u = some it0 ∧ alookup rem.items u = some ri0 ∧
      it0.syncStatus = .synced ri0.tag ∧
      alookup (syncCalendarPair F loc rem).loc u = some it0 ∧
      alookup (syncCalendarPair F loc rem).rem.items u = some ri0) := by
  obtain ⟨hc0, -, -, -, -, -, -⟩ := pair_success_parts he
  cases hL : alookup loc u with
  | none =>
    cases hR : alookup rem.items u with
    | none =>
      exact Or.inl (pair_case_absent F loc rem hl hr u hL hR)
    | some ri =>
      obtain ⟨a, b⟩ := pair_case_remoteAddition F loc rem hl hr he u ri hR hL
      exact Or.inr (Or.inl ⟨ri.data, ri.tag, a, b⟩)
  | some it0 =>
    cases hR : alookup rem.items u with
    | none =>
      cases hs : it0.syncStatus with
      | notSynced =>
        obtain ⟨w, a, b⟩ := pair_case_localAddition F loc rem hl hr he u it0 hL hs hR
        exact Or.inr (Or.inl ⟨it0.data, w, a, b⟩)
      | synced v =>
        exact Or.inl (pair_case_remoteDeletion F loc rem hl hr he u it0 hL
          (by rw [hs]; intro h; cases h) hR)
      | locallyModified v =>
        exact Or.inl (pair_case_remoteDeletion F loc rem hl hr he u it0 hL
          (by rw [hs]; intro h; cases h) hR)
      | locallyDeleted v =>
        exact Or.inl (pair_case_remoteDeletion F loc rem hl hr he u it0 hL
          (by rw [hs]; intro h; cases h) hR)
    | some ri =>
      cases hs : it0.syncStatus with
      | notSynced =>
        exact absurd hs (classify_errors_zero_no_reuse loc rem hc0 u it0 ri hL hR)
      | synced v =>
        by_cases hv : ri.tag = v
        · obtain ⟨a, b⟩ := pair_case_skip F loc rem hl hr u ri it0 hR hL
            (by rw [hs, hv])
          exact Or.inr (Or.inr ⟨it0, ri, rfl, rfl, by rw [hs, hv], a, b⟩)
        · obtain ⟨a, b⟩ := pair_case_remoteChange F loc rem hl hr he u ri it0 v hR hL
            (Or.inl hs) hv
          exact Or.inr (Or.inl ⟨ri.data, ri.tag, a, b⟩)
      | locallyModified v =>
        by_cases hv : ri.tag = v
        · obtain ⟨w, a, b⟩ := pair_case_localChange F loc rem hl hr he u ri it0 v hR hL hs hv
          exact Or.inr (Or.inl ⟨it0.data, w, a, b⟩)
        · obtain ⟨a, b⟩ := pair_case_remoteChange F loc rem hl hr he u ri it0 v hR hL
            (Or.inr (Or.inl hs)) hv
          exact Or.inr (Or.inl ⟨ri.data, ri.tag, a, b⟩)
      | locallyDeleted v =>
        by_cases hv : ri.tag = v
        · exact Or.inl (pair_case_localDeletion F loc rem hl hr he u ri it0 v hR hL hs hv)
        · obtain ⟨a, b⟩ := pair_case_remoteChange F loc rem hl hr he u ri it0 v hR hL
            (Or.inr (Or.inr hs)) hv
          exact Or.inr (Or.inl ⟨ri.data, ri.tag, a, b⟩)

theorem pair_aligned (F : Faults) (loc : LocalCal) (rem : RemoteCal)
    (hl : NodupKeys loc) (hr : NodupKeys rem.items)
    (he : (syncCalendarPair F loc rem).errors = 0) :
    tagAligned (syncCalendarPair F loc rem).loc (syncCalendarPair F loc rem).rem := by
  constructor
  · intro u it hit
    rcases pair_final_cases F loc rem hl hr he u with ⟨a, -⟩ | ⟨d, w, a, b⟩ |
      ⟨it0, ri0, -, -, hs0, a, b⟩
    · rw [a] at hit
      cases hit
    · rw [a] at hit
      injection hit with hit
      subst hit
      exact ⟨⟨d, w⟩, b, rfl⟩
    · rw [a] at hit
      injection hit with hit
      subst hit
      exact ⟨ri0, b, hs0⟩
  · intro u ri hri
    rcases pair_final_cases F loc rem hl hr he u with ⟨-, b⟩ | ⟨d, w, a, b⟩ |
      ⟨it0, ri0, -, -, hs0, a, b⟩
    · rw [b] at hri
      cases hri
    · rw [b] at hri
      injection hri with hri
      subst hri
      exact ⟨⟨d, .synced w⟩, a, rfl⟩
    · rw [b] at hri
      injection hri with hri
      subst hri
      exact ⟨it0, a, hs0⟩

theorem pair_converged (F : Faults) (loc : LocalCal) (rem : RemoteCal)
    (hl : NodupKeys loc) (hr : NodupKeys rem.items)
    (hcoh : SyncedCoherent loc rem)
    (he : (syncCalendarPair F loc rem).errors = 0) :
    pairConverged (syncCalendarPair F loc rem).loc (syncCalendarPair F loc rem).rem := by
  constructor
  · intro u it hit
    rcases pair_final_cases F loc rem hl hr he u with ⟨a, -⟩ | ⟨d, w, a, b⟩ |
      ⟨it0, ri0, hL0, hR0, hs0, a, b⟩
    · rw [a] at hit
      cases hit
    · rw [a] at hit
      injection hit with hit
      subst hit
      exact ⟨⟨d, w⟩, b, rfl, rfl⟩
    · rw [a] at hit
      injection hit with hit
      subst hit
      exact ⟨ri0, b, hcoh u it0 ri0 hL0 hR0 hs0, hs0⟩
  · intro u ri hri
    rcases pair_final_cases F loc rem hl hr he u with ⟨-, b⟩ | ⟨d, w, a, b⟩ |
      ⟨it0, ri0, hL0, hR0, hs0, a, b⟩
    · rw [b] at hri
      cases hri
    · rw [b] at hri
      injection hri with hri
      subst hri
      exact ⟨⟨d, .synced w⟩, a, rfl, rfl⟩
    · rw [b] at hri
      injection hri with hri
      subst hri
      exact ⟨it0, a, hcoh u it0 ri0 hL0 hR0 hs0, hs0⟩

/-- Under tag alignment, Phase A classifies nothing: all six sets are empty. -/
theorem classify_lists_nil (loc : LocalCal) (rem : RemoteCal)
    (hl : NodupKeys loc) (hr : NodupKeys rem.items) (ha : tagAligned loc rem) :
    (classify loc rem).localDel = [] ∧ (classify loc rem).remoteDel = [] ∧
    (classify loc rem).remoteAdditions = [] ∧ (classify loc rem).remoteChanges = [] ∧
    (classify loc rem).localAdditions = [] ∧ (classify loc rem).localChanges = [] := by
  have key : ∀ u t, (u, t) ∈ getItemVersionTags rem →
      ∃ it ri, alookup loc u = some it ∧ alookup rem.items u = some ri ∧
        it.syncStatus = .synced ri.tag ∧ ri.tag = t := by
    intro u t hm
    obtain ⟨ri, hri, htag⟩ := (mem_getItemVersionTags hr u t).mp hm
    obtain ⟨it, hit, hss⟩ := ha.2 u ri hri
    exact ⟨it, ri, hit, hri, hss, htag⟩
  have hth : ∀ x, x ∉ (pass1 loc (getItemVersionTags rem) (akeys loc)).th := by
    intro x hx
    obtain ⟨hsome, hnone⟩ := (classify_leftover_mem loc rem hl x).mp hx
    obtain ⟨it, hit⟩ := Option.isSome_iff_exists.mp hsome
    obtain ⟨ri, hri, -⟩ := ha.1 x it hit
    rw [hnone] at hri
    cases hri
  refine ⟨?_, ?_, ?_, ?_, ?_, ?_⟩
  · unfold classify
    rw [(pass2_preserves loc _ _).2.2.2, pass1_localDel]
    rw [List.filterMap_eq_nil]
    rintro ⟨u, t⟩ hm
    obtain ⟨it, ri, hit, hri, hss, htag⟩ := key u t hm
    simp [isLocalDeletion, hit, hss]
  · unfold classify
    rw [pass2_remoteDel, pass1_remoteDel, List.append_nil, List.filter_eq_nil]
    intro x hx
    exact absurd hx (hth x)
  · unfold classify
    rw [(pass2_preserves loc _ _).1, pass1_remoteAdditions]
    rw [List.filterMap_eq_nil]
    rintro ⟨u, t⟩ hm
    obtain ⟨it, ri, hit, hri, hss, htag⟩ := key u t hm
    simp [isRemoteAddition, hit]
  · unfold classify
    rw [(pass2_preserves loc _ _).2.1, pass1_remoteChanges]
    rw [List.filterMap_eq_nil]
    rintro ⟨u, t⟩ hm
    obtain ⟨it, ri, hit, hri, hss, htag⟩ := key u t hm
    simp [isRemoteChange, hit, hss, htag]
  · unfold classify
    rw [pass2_localAdditions, pass1_localAdditions, List.append_nil, List.filter_eq_nil]
    intro x hx
    exact absurd hx (hth x)
  · unfold classify
    rw [(pass2_preserves loc _ _).2.2.1, pass1_localChanges]
    rw [List.filterMap_eq_nil]
    rintro ⟨u, t⟩ hm
    obtain ⟨it, ri, hit, hri, hss, htag⟩ := key u t hm
    simp [isLocalChange, hit, hss]

/-- A tag-aligned pair is a fixed point of `syncCalendarPair`, whatever the
fault oracle does: nothing is classified, so nothing is applied. -/
theorem pair_noop (F : Faults) (loc : LocalCal) (rem : RemoteCal)
    (hl : NodupKeys loc) (hr : NodupKeys rem.items) (ha : tagAligned loc rem) :
    (syncCalendarPair F loc rem).loc = loc ∧
    (syncCalendarPair F loc rem).rem = rem ∧
    (syncCalendarPair F loc rem).errors =
      (if F.tagsFail then 1 else (classify loc rem).errors) := by
  obtain ⟨n1, n2, n3, n4, n5, n6⟩ := classify_lists_nil loc rem hl hr ha
  cases htf : F.tagsFail with
  | true =>
    unfold syncCalendarPair
    rw [htf]
    exact ⟨rfl, rfl, rfl⟩
  | false =>
    rw [syncCalendarPair_eq F loc rem htf]
    have hch : ∀ b : Bool, chunks (DOWNLOAD_BATCH_SIZE - 1) ([] : List String) = [] := by
      intro b
      rw [chunks]
    have e1 : pairS1 F loc rem = ⟨loc, rem, 0, []⟩ := by
      unfold pairS1
      rw [n1]
      rfl
    have e2 : pairS2 F loc rem = ⟨loc, 0, []⟩ := by
      unfold pairS2
      rw [n2, e1]
      rfl
    have e3 : pairS3 F loc rem = ⟨loc, 0, []⟩ := by
      unfold pairS3
      rw [n3, e1, e2, hch true]
      rfl
    have e4 : pairS4 F loc rem = ⟨loc, 0, []⟩ := by
      unfold pairS4
      rw [n4, e1, e3, hch false]
      rfl
    have e5 : pairS5 F loc rem = ⟨loc, rem, 0, []⟩ := by
      unfold pairS5
      rw [n5, e1, e4]
      rfl
    have e6 : pairS6 F loc rem = ⟨loc, rem, 0, []⟩ := by
      unfold pairS6
      rw [n6, e5]
      rfl
    rw [e1, e2, e3, e4, e5, e6]
    exact ⟨rfl, rfl, rfl⟩

/-! ## `Provider::run_sync` (`src/provider/mod.rs`, lines 117-188)

The outer sync: walk the remote calendars, get-or-create the local
counterpart of each and sync the pair; then walk the local calendars that
were not handled, get-or-create their remote counterpart (`MKCALENDAR`) and
sync those pairs.  A failing step is logged (warn or error, both count
into `n_errors`) and the calendar is skipped; `sync()` returns
`is_success()`, i.e. whether `n_errors == 0`. -/

/-- The two sources a `Provider` holds: each maps a calendar URL to that
calendar's state. -/
structure ProviderState where
  locCals : List (String × LocalCal)
  remCals : List (String × RemoteCal)
deriving DecidableEq, Repr

/-- Fault oracle for a whole `run_sync`: a pair-level oracle per calendar
URL, plus create/get-calendars failures. -/
structure SourceFaults where
  pair : String → Faults
  localCreateFails : String → Bool
  remoteCreateFails : String → Bool
  remoteGetCalsFails : Bool
  localGetCalsFails : Bool

/-- The all-success source oracle. -/
def noSourceFaults : SourceFaults :=
  { pair := fun _ => noFaults
    localCreateFails := fun _ => false
    remoteCreateFails := fun _ => false
    remoteGetCalsFails := false
    localGetCalsFails := false }

/-- `get_or_insert_counterpart_calendar` against the local source (lines
487-514): return the calendar if `get_calendar` finds it, otherwise
`create_calendar` (a fresh empty calendar) and loop — which then finds it.
Calendar metadata (name, components, colour) plays no role in the sync
and is not modelled. -/
def getOrInsertLocal (SF : SourceFaults) (cals : List (String × LocalCal))
    (url : String) : Option (List (String × LocalCal) × LocalCal) :=
  match alookup cals url with
  | some c => some (cals, c)
  | none =>
    if SF.localCreateFails url then none
    else some (ainsert cals url [], [])

/-- `get_or_insert_counterpart_calendar` against the remote source:
`Client::create_calendar` (`src/client.rs`, lines 246-274) issues the
server-side `MKCALENDAR`; the freshly made calendar holds no items (server
behaviour, modelled like the rest of the remote state). -/
def getOrInsertRemote (SF : SourceFaults) (cals : List (String × RemoteCal))
    (url : String) : Option (List (String × RemoteCal) × RemoteCal) :=
  match alookup cals url with
  | some c => some (cals, c)
  | none =>
    if SF.remoteCreateFails url then none
    else some (ainsert cals url ⟨[], 0⟩, ⟨[], 0⟩)

/-- First loop of `run_sync_inner` (lines 130-147): sync every remote
calendar against its local counterpart.  Returns the new state, the number
of errors, and the `handled_calendars` set.  A counterpart failure or a
pair-sync error (`get_item_version_tags` failing) warns and skips; only a
fully started pair is added to `handled_calendars`. -/
def remoteLoop (SF : SourceFaults) : List (String × RemoteCal) → ProviderState →
    ProviderState × Nat × List String
  | [], st => (st, 0, [])
  | (url, rcal) :: rest, st =>
    match getOrInsertLocal SF st.locCals url with
    | none =>
      let r := remoteLoop SF rest st
      (r.1, r.2.1 + 1, r.2.2)
    | some (locCals2, lcal) =>
      let out := syncCalendarPair (SF.pair url) lcal rcal
      let st2 : ProviderState := ⟨ainsert locCals2 url out.loc, ainsert st.remCals url out.rem⟩
      let r := remoteLoop SF rest st2
      if (SF.pair url).tagsFail then
        (r.1, r.2.1 + out.errors, r.2.2)
      else
        (r.1, r.2.1 + out.errors, url :: r.2.2)

/-- Second loop of `run_sync_inner` (lines 150-168): sync every local
calendar not in `handled_calendars` against its (possibly freshly created)
remote counterpart. -/
def localLoop (SF : SourceFaults) (handled : List String) :
    List (String × LocalCal) → ProviderState → ProviderState × Nat
  | [], st => (st, 0)
  | (url, lcal) :: rest, st =>
    if url ∈ handled then localLoop SF handled rest st
    else
      match getOrInsertRemote SF st.remCals url with
      | none =>
        let r := localLoop SF handled rest st
        (r.1, r.2 + 1)
      | some (remCals2, rcal) =>
        let out := syncCalendarPair (SF.pair url) lcal rcal
        let st2 : ProviderState := ⟨ainsert st.locCals url out.loc, ainsert remCals2 url out.rem⟩
        let r := localLoop SF handled rest st2
        (r.1, r.2 + out.errors)

/-- `Provider::sync` / `run_sync`: run both loops; a failing
`get_calendars` aborts with one logged error.  The second component is the
total `n_errors`; `sync()` returns `true` iff it is `0`. -/
def runSync (SF : SourceFaults) (st : ProviderState) : ProviderState × Nat :=
  if SF.remoteGetCalsFails then (st, 1)
  else
    let r := remoteLoop SF st.remCals st
    if SF.localGetCalsFails then (r.1, r.2.1 + 1)
    else
      let l := localLoop SF r.2.2 r.1.locCals r.1
      (l.1, r.2.1 + l.2)

/-- Well-formedness of a provider state: no duplicate calendar URLs, and no
duplicate item URLs inside any calendar. -/
def ProviderWF (st : ProviderState) : Prop :=
  NodupKeys st.locCals ∧ NodupKeys st.remCals ∧
  (∀ url c, alookup st.locCals url = some c → NodupKeys c) ∧
  (∀ url rc, alookup st.remCals url = some rc → NodupKeys rc.items)

/-- Source-level alignment: the two sources have the same calendar URLs and
each pair of counterpart calendars is tag-aligned. -/
def SourceAligned (st : ProviderState) : Prop :=
  (∀ url lc, alookup st.locCals url = some lc →
    ∃ rc, alookup st.remCals url = some rc ∧ tagAligned lc rc) ∧
  (∀ url rc, alookup st.remCals url = some rc →
    ∃ lc, alookup st.locCals url = some lc ∧ tagAligned lc rc)

theorem remoteLoop_noop (SF : SourceFaults) :
    ∀ (cals : List (String × RemoteCal)) (st : ProviderState),
      (∀ url c, alookup st.locCals url = some c → NodupKeys c) →
      (∀ url rc, alookup st.remCals url = some rc → NodupKeys rc.items) →
      SourceAligned st →
      (∀ p ∈ cals, alookup st.remCals p.1 = some p.2) →
      (remoteLoop SF cals st).1 = st := by
  intro cals
  induction cals with
  | nil => intro st _ _ _ _; rfl
  | cons p rest ih =>
    intro st hwl hwr hal hsnap
    obtain ⟨url, rcal⟩ := p
    have hrc : alookup st.remCals url = some rcal :=
      hsnap (url, rcal) (List.mem_cons_self _ _)
    obtain ⟨lc, hlc, halign⟩ := hal.2 url rcal hrc
    have hg : getOrInsertLocal SF st.locCals url = some (st.locCals, lc) := by
      unfold getOrInsertLocal
      rw [hlc]
    rw [remoteLoop]
    simp only [hg]
    obtain ⟨ol, orr, -⟩ := pair_noop (SF.pair url) lc rcal (hwl url lc hlc)
      (hwr url rcal hrc) halign
    have hst2 : (⟨ainsert st.locCals url (syncCalendarPair (SF.pair url) lc rcal).loc,
        ainsert st.remCals url (syncCalendarPair (SF.pair url) lc rcal).rem⟩ :
          ProviderState) = st := by
      rw [ol, orr, ainsert_self_of_alookup _ _ _ hlc, ainsert_self_of_alookup _ _ _ hrc]
    rw [hst2]
    have hrest := ih st hwl hwr hal (fun q hq => hsnap q (List.mem_cons_of_mem _ hq))
    split_ifs <;> exact hrest

theorem localLoop_noop (SF : SourceFaults) (handled : List String) :
    ∀ (cals : List (String × LocalCal)) (st : ProviderState),
      (∀ url c, alookup st.locCals url = some c → NodupKeys c) →
      (∀ url rc, alookup st.remCals url = some rc → NodupKeys rc.items) →
      SourceAligned st →
      (∀ p ∈ cals, alookup st.locCals p.1 = some p.2) →
      (localLoop SF handled cals st).1 = st := by
  intro cals
  induction cals with
  | nil => intro st _ _ _ _; rfl
  | cons p rest ih =>
    intro st hwl hwr hal hsnap
    obtain ⟨url, lcal⟩ := p
    have hlc : alookup st.locCals url = some lcal :=
      hsnap (url, lcal) (List.mem_cons_self _ _)
    obtain ⟨rc, hrc, halign⟩ := hal.1 url lcal hlc
    have hrest := ih st hwl hwr hal (fun q hq => hsnap q (List.mem_cons_of_mem _ hq))
    rw [localLoop]
    by_cases hh : url ∈ handled
    · rw [if_pos hh]
      exact hrest
    · rw [if_neg hh]
      have hg : getOrInsertRemote SF st.remCals url = some (st.remCals, rc) := by
        unfold getOrInsertRemote
        rw [hrc]
      simp only [hg]
      obtain ⟨ol, orr, -⟩ := pair_noop (SF.pair url) lcal rc (hwl url lcal hlc)
        (hwr url rc hrc) halign
      have hst2 : (⟨ainsert st.locCals url (syncCalendarPair (SF.pair url) lcal rc).loc,
          ainsert st.remCals url (syncCalendarPair (SF.pair url) lcal rc).rem⟩ :
            ProviderState) = st := by
        rw [ol, orr, ainsert_self_of_alookup _ _ _ hlc, ainsert_self_of_alookup _ _ _ hrc]
      rw [hst2]
      exact hrest

/-- An aligned, well-formed provider state is a fixed point of `run_sync`,
whatever the fault oracle does. -/
theorem runSync_noop (SF : SourceFaults) (st : ProviderState)
    (hwf : ProviderWF st) (hal : SourceAligned st) : (runSync SF st).1 = st := by
  obtain ⟨hnl, hnr, hwl, hwr⟩ := hwf
  unfold runSync
  cases hg : SF.remoteGetCalsFails with
  | true => rfl
  | false =>
    simp only
    have hrem : (remoteLoop SF st.remCals st).1 = st :=
      remoteLoop_noop SF st.remCals st hwl hwr hal
        (fun p hp => (alookup_eq_some_iff_mem hnr).mpr hp)
    cases hlg : SF.localGetCalsFails with
    | true => exact hrem
    | false =>
      rw [hrem]
      exact localLoop_noop SF (remoteLoop SF st.remCals st).2.2 st.locCals st hwl hwr hal
        (fun p hp => (alookup_eq_some_iff_mem hnl).mpr hp)

theorem getOrInsertLocal_some {SF : SourceFaults} {cals : List (String × LocalCal)}
    {url : String} {cals2 : List (String × LocalCal)} {lcal : LocalCal}
    (h : getOrInsertLocal SF cals url = some (cals2, lcal)) :
    alookup cals2 url = some lcal ∧
    (∀ x, x ≠ url → alookup cals2 x = alookup cals x) ∧
    (NodupKeys cals → NodupKeys cals2) ∧
    ((∀ u c, alookup cals u = some c → NodupKeys c) →
      (∀ u c, alookup cals2 u = some c → NodupKeys c)) ∧
    ((∀ u c, alookup cals u = some c → NodupKeys c) → NodupKeys lcal) := by
  unfold getOrInsertLocal at h
  cases hlk : alookup cals url with
  | some c =>
    rw [hlk] at h
    injection h with h
    injection h with h1 h2
    subst h1
    subst h2
    exact ⟨hlk, fun x _ => rfl, fun hn => hn, fun hc => hc, fun hc => hc _ _ hlk⟩
  | none =>
    rw [hlk] at h
    split_ifs at h with hcf
    injection h with h
    injection h with h1 h2
    subst h1
    subst h2
    refine ⟨alookup_ainsert_self _ _ _, ?_, ?_, ?_, ?_⟩
    · intro x hx
      exact alookup_ainsert_ne _ _ _ _ hx
    · intro hn
      exact nodupKeys_ainsert _ _ _ hn
    · intro hc u c hu
      by_cases hxu : u = url
      · subst hxu
        rw [alookup_ainsert_self] at hu
        injection hu with hu
        subst hu
        exact List.nodup_nil
      · rw [alookup_ainsert_ne _ _ _ _ hxu] at hu
        exact hc u c hu
    · intro hc
      exact List.nodup_nil

theorem getOrInsertRemote_some {SF : SourceFaults} {cals : List (String × RemoteCal)}
    {url : String} {cals2 : List (String × RemoteCal)} {rcal : RemoteCal}
    (h : getOrInsertRemote SF cals url = some (cals2, rcal)) :
    alookup cals2 url = some rcal ∧
    (∀ x, x ≠ url → alookup cals2 x = alookup cals x) ∧
    (NodupKeys cals → NodupKeys cals2) ∧
    ((∀ u c, alookup cals u = some c → NodupKeys c.items) →
      (∀ u c, alookup cals2 u = some c → NodupKeys c.items)) ∧
    ((∀ u c, alookup cals u = some c → NodupKeys c.items) → NodupKeys rcal.items) := by
  unfold getOrInsertRemote at h
  cases hlk : alookup cals url with
  | some c =>
    rw [hlk] at h
    injection h with h
    injection h with h1 h2
    subst h1
    subst h2
    exact ⟨hlk, fun x _ => rfl, fun hn => hn, fun hc => hc, fun hc => hc _ _ hlk⟩
  | none =>
    rw [hlk] at h
    split_ifs at h with hcf
    injection h with h
    injection h with h1 h2
    subst h1
    subst h2
    refine ⟨alookup_ainsert_self _ _ _, ?_, ?_, ?_, ?_⟩
    · intro x hx
      exact alookup_ainsert_ne _ _ _ _ hx
    · intro hn
      exact nodupKeys_ainsert _ _ _ hn
    · intro hc u c hu
      by_cases hxu : u = url
      · subst hxu
        rw [alookup_ainsert_self] at hu
        injection hu with hu
        subst hu
        exact List.nodup_nil
      · rw [alookup_ainsert_ne _ _ _ _ hxu] at hu
        exact hc u c hu
    · intro hc
      exact List.nodup_nil

theorem tagsFail_errors {F : Faults} (loc : LocalCal) (rem : RemoteCal)
    (htf : F.tagsFail = true) : (syncCalendarPair F loc rem).errors = 1 := by
  unfold syncCalendarPair
  rw [htf]
  rfl

theorem remoteLoop_post (SF : SourceFaults) :
    ∀ (cals : List (String × RemoteCal)) (st : ProviderState),
      NodupKeys st.locCals → NodupKeys st.remCals →
      (∀ url c, alookup st.locCals url = some c → NodupKeys c) →
      (∀ url rc, alookup st.remCals url = some rc → NodupKeys rc.items) →
      (∀ p ∈ cals, NodupKeys (Prod.snd p).items) →
      (cals.map Prod.fst).Nodup →
      (remoteLoop SF cals st).2.1 = 0 →
      (remoteLoop SF cals st).2.2 = cals.map Prod.fst ∧
      NodupKeys (remoteLoop SF cals st).1.locCals ∧
      NodupKeys (remoteLoop SF cals st).1.remCals ∧
      (∀ url c, alookup (remoteLoop SF cals st).1.locCals url = some c → NodupKeys c) ∧
      (∀ url rc, alookup (remoteLoop SF cals st).1.remCals url = some rc →
        NodupKeys rc.items) ∧
      (∀ p ∈ cals, ∃ lc rc,
        alookup (remoteLoop SF cals st).1.locCals p.1 = some lc ∧
        alookup (remoteLoop SF cals st).1.remCals p.1 = some rc ∧ tagAligned lc rc) ∧
      (∀ x, x ∉ cals.map Prod.fst →
        alookup (remoteLoop SF cals st).1.locCals x = alookup st.locCals x ∧
        alookup (remoteLoop SF cals st).1.remCals x = alookup st.remCals x) := by
  intro cals
  induction cals with
  | nil =>
    intro st h1 h2 h3 h4 _ _ _
    exact ⟨rfl, h1, h2, h3, h4, fun p hp => absurd hp (List.not_mem_nil p),
      fun x _ => ⟨rfl, rfl⟩⟩
  | cons p rest ih =>
    intro st hnl hnr hwl hwr hcw hnodup herr
    obtain ⟨url, rcal⟩ := p
    rw [List.map_cons, List.nodup_cons] at hnodup
    cases hgo : getOrInsertLocal SF st.locCals url with
    | none =>
      rw [remoteLoop] at herr
      simp [hgo] at herr
    | some pr =>
      obtain ⟨cals2, lcal⟩ := pr
      rw [remoteLoop] at herr ⊢
      simp only [hgo] at herr ⊢
      obtain ⟨hg1, hg2, hg3, hg4, hg5⟩ := getOrInsertLocal_some hgo
      cases htf : (SF.pair url).tagsFail with
      | true =>
        rw [htf] at herr
        rw [tagsFail_errors lcal rcal htf] at herr
        simp at herr
      | false =>
        rw [htf] at herr
        simp only [Bool.false_eq_true, if_false] at herr ⊢
        have hlcal : NodupKeys lcal := hg5 hwl
        have hrcal : NodupKeys rcal.items := hcw (url, rcal) (List.mem_cons_self _ _)
        have hout : (syncCalendarPair (SF.pair url) lcal rcal).errors = 0 := by omega
        have hrest_err : (remoteLoop SF rest
            ⟨ainsert cals2 url (syncCalendarPair (SF.pair url) lcal rcal).loc,
             ainsert st.remCals url (syncCalendarPair (SF.pair url) lcal rcal).rem⟩).2.1
              = 0 := by omega
        have hpn := pair_nodup (SF.pair url) lcal rcal hlcal hrcal
        have hst2l : NodupKeys (ainsert cals2 url (syncCalendarPair (SF.pair url) lcal
            rcal).loc) := nodupKeys_ainsert _ _ _ (hg3 hnl)
        have hst2r : NodupKeys (ainsert st.remCals url (syncCalendarPair (SF.pair url) lcal
            rcal).rem) := nodupKeys_ainsert _ _ _ hnr
        have hst2wl : ∀ u2 c, alookup (ainsert cals2 url (syncCalendarPair (SF.pair url)
            lcal rcal).loc) u2 = some c → NodupKeys c := by
          intro u2 c hu2
          by_cases hx : u2 = url
          · subst hx
            rw [alookup_ainsert_self] at hu2
            injection hu2 with hu2
            subst hu2
            exact hpn.1
          · rw [alookup_ainsert_ne _ _ _ _ hx] at hu2
            exact hg4 hwl u2 c hu2
        have hst2wr : ∀ u2 rc, alookup (ainsert st.remCals url (syncCalendarPair
            (SF.pair url) lcal rcal).rem) u2 = some rc → NodupKeys rc.items := by
          intro u2 rc hu2
          by_cases hx : u2 = url
          · subst hx
            rw [alookup_ainsert_self] at hu2
            injection hu2 with hu2
            subst hu2
            exact hpn.2
          · rw [alookup_ainsert_ne _ _ _ _ hx] at hu2
            exact hwr u2 rc hu2
        obtain ⟨ihH, ihNl, ihNr, ihWl, ihWr, ihMem, ihFrame⟩ := ih
          ⟨ainsert cals2 url (syncCalendarPair (SF.pair url) lcal rcal).loc,
           ainsert st.remCals url (syncCalendarPair (SF.pair url) lcal rcal).rem⟩
          hst2l hst2r hst2wl hst2wr
          (fun q hq => hcw q (List.mem_cons_of_mem _ hq)) hnodup.2 hrest_err
        refine ⟨by rw [ihH, List.map_cons], ihNl, ihNr, ihWl, ihWr, ?_, ?_⟩
        · intro q hq
          rcases List.mem_cons.mp hq with h0 | hmem
          · subst h0
            obtain ⟨fl, fr⟩ := ihFrame url hnodup.1
            refine ⟨(syncCalendarPair (SF.pair url) lcal rcal).loc,
                    (syncCalendarPair (SF.pair url) lcal rcal).rem, ?_, ?_, ?_⟩
            · rw [fl]
              exact alookup_ainsert_self _ _ _
            · rw [fr]
              exact alookup_ainsert_self _ _ _
            · exact pair_aligned (SF.pair url) lcal rcal hlcal hrcal hout
          · exact ihMem q hmem
        · intro x hx
          have hxu : x ≠ url := fun hx2 =>
            hx (hx2 ▸ List.mem_cons_self _ _)
          have hxr : x ∉ rest.map Prod.fst := fun hm => hx (List.mem_cons_of_mem _ hm)
          obtain ⟨fl, fr⟩ := ihFrame x hxr
          constructor
          · rw [fl, alookup_ainsert_ne _ _ _ _ hxu]
            exact hg2 x hxu
          · rw [fr, alookup_ainsert_ne _ _ _ _ hxu]

theorem localLoop_post (SF : SourceFaults) (handled : List String) :
    ∀ (cals : List (String × LocalCal)) (st : ProviderState),
      NodupKeys st.locCals → NodupKeys st.remCals →
      (∀ url c, alookup st.locCals url = some c → NodupKeys c) →
      (∀ url rc, alookup st.remCals url = some rc → NodupKeys rc.items) →
      (∀ p ∈ cals, NodupKeys (Prod.snd p)) →
      (cals.map Prod.fst).Nodup →
      (localLoop SF handled cals st).2 = 0 →
      NodupKeys (localLoop SF handled cals st).1.locCals ∧
      NodupKeys (localLoop SF handled cals st).1.remCals ∧
      (∀ url c, alookup (localLoop SF handled cals st).1.locCals url = some c →
        NodupKeys c) ∧
      (∀ url rc, alookup (localLoop SF handled cals st).1.remCals url = some rc →
        NodupKeys rc.items) ∧
      (∀ p ∈ cals, p.1 ∉ handled → ∃ lc rc,
        alookup (localLoop SF handled cals st).1.locCals p.1 = some lc ∧
        alookup (localLoop SF handled cals st).1.remCals p.1 = some rc ∧
        tagAligned lc rc) ∧
      (∀ x, (x ∉ cals.map Prod.fst ∨ x ∈ handled) →
        alookup (localLoop SF handled cals st).1.locCals x = alookup st.locCals x ∧
        alookup (localLoop SF handled cals st).1.remCals x = alookup st.remCals x) := by
  intro cals
  induction cals with
  | nil =>
    intro st h1 h2 h3 h4 _ _ _
    exact ⟨h1, h2, h3, h4, fun p hp => absurd hp (List.not_mem_nil p),
      fun x _ => ⟨rfl, rfl⟩⟩
  | cons p rest ih =>
    intro st hnl hnr hwl hwr hcw hnodup herr
    obtain ⟨url, lcal⟩ := p
    rw [List.map_cons, List.nodup_cons] at hnodup
    by_cases hh : url ∈ handled
    · rw [localLoop, if_pos hh] at herr ⊢
      obtain ⟨ihNl, ihNr, ihWl, ihWr, ihMem, ihFrame⟩ := ih st hnl hnr hwl hwr
        (fun q hq => hcw q (List.mem_cons_of_mem _ hq)) hnodup.2 herr
      refine ⟨ihNl, ihNr, ihWl, ihWr, ?_, ?_⟩
      · intro q hq hqh
        rcases List.mem_cons.mp hq with h0 | hmem
        · rw [h0] at hqh
          exact absurd hh hqh
        · exact ihMem q hmem hqh
      · intro x hx
        refine ihFrame x ?_
        rcases hx with hx | hx
        · exact Or.inl (fun hm => hx (List.mem_cons_of_mem _ hm))
        · exact Or.inr hx
    · rw [localLoop, if_neg hh] at herr ⊢
      cases hgo : getOrInsertRemote SF st.remCals url with
      | none =>
        simp [hgo] at herr
      | some pr =>
        obtain ⟨remCals2, rcal⟩ := pr
        simp only [hgo] at herr ⊢
        obtain ⟨hg1, hg2, hg3, hg4, hg5⟩ := getOrInsertRemote_some hgo
        have hlcal : NodupKeys lcal := hcw (url, lcal) (List.mem_cons_self _ _)
        have hrcal : NodupKeys rcal.items := hg5 hwr
        have hout : (syncCalendarPair (SF.pair url) lcal rcal).errors = 0 := by omega
        have hrest_err : (localLoop SF handled rest
            ⟨ainsert st.locCals url (syncCalendarPair (SF.pair url) lcal rcal).loc,
             ainsert remCals2 url (syncCalendarPair (SF.pair url) lcal rcal).rem⟩).2
              = 0 := by omega
        have hpn := pair_nodup (SF.pair url) lcal rcal hlcal hrcal
        have hst2l : NodupKeys (ainsert st.locCals url (syncCalendarPair (SF.pair url)
            lcal rcal).loc) := nodupKeys_ainsert _ _ _ hnl
        have hst2r : NodupKeys (ainsert remCals2 url (syncCalendarPair (SF.pair url)
            lcal rcal).rem) := nodupKeys_ainsert _ _ _ (hg3 hnr)
        have hst2wl : ∀ u2 c, alookup (ainsert st.locCals url (syncCalendarPair
            (SF.pair url) lcal rcal).loc) u2 = some c → NodupKeys c := by
          intro u2 c hu2
          by_cases hx : u2 = url
          · subst hx
            rw [alookup_ainsert_self] at hu2
            injection hu2 with hu2
            subst hu2
            exact hpn.1
          · rw [alookup_ainsert_ne _ _ _ _ hx] at hu2
            exact hwl u2 c hu2
        have hst2wr : ∀ u2 rc, alookup (ainsert remCals2 url (syncCalendarPair
            (SF.pair url) lcal rcal).rem) u2 = some rc → NodupKeys rc.items := by
          intro u2 rc hu2
          by_cases hx : u2 = url
          · subst hx
            rw [alookup_ainsert_self] at hu2
            injection hu2 with hu2
            subst hu2
            exact hpn.2
          · rw [alookup_ainsert_ne _ _ _ _ hx] at hu2
            exact hg4 hwr u2 rc hu2
        obtain ⟨ihNl, ihNr, ihWl, ihWr, ihMem, ihFrame⟩ := ih
          ⟨ainsert st.locCals url (syncCalendarPair (SF.pair url) lcal rcal).loc,
           ainsert remCals2 url (syncCalendarPair (SF.pair url) lcal rcal).rem⟩
          hst2l hst2r hst2wl hst2wr
          (fun q hq => hcw q (List.mem_cons_of_mem _ hq)) hnodup.2 hrest_err
        refine ⟨ihNl, ihNr, ihWl, ihWr, ?_, ?_⟩
        · intro q hq hqh
          rcases List.mem_cons.mp hq with h0 | hmem
          · subst h0
            obtain ⟨fl, fr⟩ := ihFrame url (Or.inl hnodup.1)
            refine ⟨(syncCalendarPair (SF.pair url) lcal rcal).loc,
                    (syncCalendarPair (SF.pair url) lcal rcal).rem, ?_, ?_, ?_⟩
            · rw [fl]
              exact alookup_ainsert_self _ _ _
            · rw [fr]
              exact alookup_ainsert_self _ _ _
            · exact pair_aligned (SF.pair url) lcal rcal hlcal hrcal hout
          · exact ihMem q hmem hqh
        · intro x hx
          have hxu : x ≠ url := by
            intro hx2
            subst hx2
            rcases hx with hx | hx
            · exact hx (List.mem_cons_self _ _)
            · exact hh hx
          have hx2 : x ∉ List.map Prod.fst rest ∨ x ∈ handled := by
            rcases hx with hx | hx
            · exact Or.inl (fun hm => hx (List.mem_cons_of_mem _ hm))
            · exact Or.inr hx
          obtain ⟨fl, fr⟩ := ihFrame x hx2
          constructor
          · rw [fl]
            exact alookup_ainsert_ne _ _ _ _ hxu
          · rw [fr, alookup_ainsert_ne _ _ _ _ hxu]
            exact hg2 x hxu

/-- A successful `run_sync` leaves a well-formed, fully aligned state: the
two sources list the same calendar URLs and every counterpart pair is
tag-aligned. -/
theorem runSync_post (SF : SourceFaults) (st : ProviderState)
    (hwf : ProviderWF st) (hsucc : (runSync SF st).2 = 0) :
    ProviderWF (runSync SF st).1 ∧ SourceAligned (runSync SF st).1 := by
  obtain ⟨hnl, hnr, hwl, hwr⟩ := hwf
  cases hrg : SF.remoteGetCalsFails with
  | true =>
    unfold runSync at hsucc
    rw [hrg] at hsucc
    simp at hsucc
  | false =>
    unfold runSync at hsucc ⊢
    rw [hrg] at hsucc ⊢
    simp only [Bool.false_eq_true, if_false] at hsucc ⊢
    cases hlg : SF.localGetCalsFails with
    | true =>
      rw [hlg] at hsucc
      simp at hsucc
    | false =>
      rw [hlg] at hsucc
      simp only [Bool.false_eq_true, if_false] at hsucc ⊢
      have hr_err : (remoteLoop SF st.remCals st).2.1 = 0 := by omega
      have hl_err : (localLoop SF (remoteLoop SF st.remCals st).2.2
          (remoteLoop SF st.remCals st).1.locCals (remoteLoop SF st.remCals st).1).2 = 0 := by
        omega
      obtain ⟨rH, rNl, rNr, rWl, rWr, rMem, rFrame⟩ := remoteLoop_post SF st.remCals st
        hnl hnr hwl hwr
        (fun p hp => hwr p.1 p.2 ((alookup_eq_some_iff_mem hnr).mpr hp)) hnr hr_err
      obtain ⟨lNl, lNr, lWl, lWr, lMem, lFrame⟩ := localLoop_post SF
        (remoteLoop SF st.remCals st).2.2 (remoteLoop SF st.remCals st).1.locCals
        (remoteLoop SF st.remCals st).1 rNl rNr rWl rWr
        (fun p hp => rWl p.1 p.2 ((alookup_eq_some_iff_mem rNl).mpr hp)) rNl hl_err
      refine ⟨⟨lNl, lNr, lWl, lWr⟩, ?_, ?_⟩
      · intro url lc hlc
        by_cases hmem : url ∈ st.remCals.map Prod.fst
        · obtain ⟨p, hp, hp1⟩ := List.mem_map.mp hmem
          obtain ⟨lc0, rc0, hA, hB, hAl⟩ := rMem p hp
          rw [hp1] at hA hB
          obtain ⟨fl, fr⟩ := lFrame url (Or.inr (by rw [rH]; exact hmem))
          rw [fl, hA] at hlc
          injection hlc with hlc
          subst hlc
          exact ⟨rc0, fr.trans hB, hAl⟩
        · by_cases hsnap : url ∈ (remoteLoop SF st.remCals st).1.locCals.map Prod.fst
          · obtain ⟨p, hp, hp1⟩ := List.mem_map.mp hsnap
            have hnh : p.1 ∉ (remoteLoop SF st.remCals st).2.2 := by
              rw [rH, hp1]
              exact hmem
            obtain ⟨lc0, rc0, hA, hB, hAl⟩ := lMem p hp hnh
            rw [hp1] at hA hB
            rw [hA] at hlc
            injection hlc with hlc
            subst hlc
            exact ⟨rc0, hB, hAl⟩
          · obtain ⟨fl, -⟩ := lFrame url (Or.inl hsnap)
            rw [fl] at hlc
            rw [(alookup_eq_none_iff_not_mem _ _).mpr hsnap] at hlc
            cases hlc
      · intro url rc hrc
        by_cases hmem : url ∈ st.remCals.map Prod.fst
        · obtain ⟨p, hp, hp1⟩ := List.mem_map.mp hmem
          obtain ⟨lc0, rc0, hA, hB, hAl⟩ := rMem p hp
          rw [hp1] at hA hB
          obtain ⟨fl, fr⟩ := lFrame url (Or.inr (by rw [rH]; exact hmem))
          rw [fr, hB] at hrc
          injection hrc with hrc
          subst hrc
          exact ⟨lc0, fl.trans hA, hAl⟩
        · by_cases hsnap : url ∈ (remoteLoop SF st.remCals st).1.locCals.map Prod.fst
          · obtain ⟨p, hp, hp1⟩ := List.mem_map.mp hsnap
            have hnh : p.1 ∉ (remoteLoop SF st.remCals st).2.2 := by
              rw [rH, hp1]
              exact hmem
            obtain ⟨lc0, rc0, hA, hB, hAl⟩ := lMem p hp hnh
            rw [hp1] at hA hB
            rw [hB] at hrc
            injection hrc with hrc
            subst hrc
            exact ⟨lc0, hA, hAl⟩
          · obtain ⟨-, fr⟩ := lFrame url (Or.inl hsnap)
            rw [fr] at hrc
            obtain ⟨-, fr2⟩ := rFrame url hmem
            rw [fr2] at hrc
            rw [(alookup_eq_none_iff_not_mem _ _).mpr hmem] at hrc
            cases hrc

/-- C1.  Idempotence of `sync()`: for any initial pair of sources, if a run
of the Provider's sync succeeds (`sync()` returned `true`, i.e. no error was
logged), a second run with no external changes in between — whatever its own
faults — leaves both the local and the remote source exactly in the state
the first run produced.  The first successful run aligns every calendar pair
(same URLs, every local item `Synced(v)` with `v` the server etag), and a
sync of an aligned state classifies nothing and applies nothing. -/
theorem runSync_idempotent (SF SF' : SourceFaults) (st : ProviderState)
    (hwf : ProviderWF st) (hsucc : (runSync SF st).2 = 0) :
    (runSync SF' (runSync SF st).1).1 = (runSync SF st).1 := by
  obtain ⟨hwf2, hal⟩ := runSync_post SF st hwf hsucc
  exact runSync_noop SF' (runSync SF st).1 hwf2 hal

theorem runSync_idempotent_witness :
    ProviderWF ⟨[], []⟩ ∧ (runSync noSourceFaults ⟨[], []⟩).2 = 0 ∧
    (runSync noSourceFaults (runSync noSourceFaults ⟨[], []⟩).1).1 =
      (runSync noSourceFaults ⟨[], []⟩).1 := by
  refine ⟨⟨?_, ?_, ?_, ?_⟩, rfl,
    runSync_idempotent noSourceFaults noSourceFaults ⟨[], []⟩
      ⟨?_, ?_, ?_, ?_⟩ rfl⟩
  · exact List.nodup_nil
  · exact List.nodup_nil
  · exact fun url c h => nomatch h
  · exact fun url rc h => nomatch h
  · exact List.nodup_nil
  · exact List.nodup_nil
  · exact fun url c h => nomatch h
  · exact fun url rc h => nomatch h

/-! ### Convergence: claim, counterexample and amended statement -/

/-- A local calendar holding one `Synced(5)` item whose content differs from
what the server stores under the same URL and etag. -/
def c2Loc : LocalCal := [("u", ⟨⟨"A", .uncompleted, 0⟩, .synced 5⟩)]

/-- The matching remote calendar: same URL, same etag `5`, different data. -/
def c2Rem : RemoteCal := ⟨[("u", ⟨⟨"B", .uncompleted, 0⟩, 5⟩)], 6⟩

theorem c2_aligned : tagAligned c2Loc c2Rem := by
  constructor
  · intro u it hit
    have he : alookup c2Loc u = if "u" = u then some ⟨⟨"A", .uncompleted, 0⟩, .synced 5⟩
        else none := rfl
    rw [he] at hit
    split_ifs at hit with hu
    injection hit with hit
    subst hit
    subst hu
    exact ⟨⟨⟨"B", .uncompleted, 0⟩, 5⟩, rfl, rfl⟩
  · intro u ri hri
    have he : alookup c2Rem.items u = if "u" = u then some ⟨⟨"B", .uncompleted, 0⟩, 5⟩
        else none := rfl
    rw [he] at hri
    split_ifs at hri with hu
    injection hri with hri
    subst hri
    subst hu
    exact ⟨⟨⟨"A", .uncompleted, 0⟩, .synced 5⟩, rfl, rfl⟩

/-- C2, counterexample to the unconditional claim.  The pair `c2Loc`/`c2Rem`
is already tag-aligned, so the sync succeeds (zero errors logged) while
doing nothing; the two sources still disagree on the item's content, so they
have not converged.  Phase A skips a URL whose local copy is `Synced(v)`
with `v` equal to the server's etag without ever comparing the data. -/
theorem convergence_counterexample :
    (syncCalendarPair noFaults c2Loc c2Rem).errors = 0 ∧
    ¬ pairConverged (syncCalendarPair noFaults c2Loc c2Rem).loc
        (syncCalendarPair noFaults c2Loc c2Rem).rem := by
  obtain ⟨hfl, hfr, herr⟩ := pair_noop noFaults c2Loc c2Rem (by decide) (by decide) c2_aligned
  constructor
  · rw [herr]
    decide
  · intro hcv
    obtain ⟨ri, hri, hdata, -⟩ := hcv.1 "u" ⟨⟨"A", .uncompleted, 0⟩, .synced 5⟩
      (by rw [hfl]; rfl)
    rw [hfr] at hri
    have hri2 : alookup c2Rem.items "u" = some ⟨⟨"B", .uncompleted, 0⟩, 5⟩ := by decide
    rw [hri2] at hri
    injection hri with hri
    rw [← hri] at hdata
    exact absurd hdata (by decide)

/-- C2 (amended).  Convergence after a successful pass over one calendar
pair, assuming the initial pair is synced-coherent: any item the server and
the cache both hold as `Synced(v)`/etag `v` already carries the same data
(phase A never re-examines such items).  Then zero logged errors imply that
both sources hold exactly the same URL set, agree on name, completion
status and last-modified of every item, every local sync status is
`Synced(v)` with `v` the etag the server now reports, and no tombstone
(`LocallyDeleted`) survives. -/
theorem syncCalendarPair_convergence (F : Faults) (loc : LocalCal) (rem : RemoteCal)
    (hl : NodupKeys loc) (hr : NodupKeys rem.items) (hcoh : SyncedCoherent loc rem)
    (he : (syncCalendarPair F loc rem).errors = 0) :
    pairConverged (syncCalendarPair F loc rem).loc (syncCalendarPair F loc rem).rem :=
  pair_converged F loc rem hl hr hcoh he

theorem syncCalendarPair_convergence_witness :
    pairConverged (syncCalendarPair noFaults [] ⟨[], 0⟩).loc
      (syncCalendarPair noFaults [] ⟨[], 0⟩).rem := by
  refine syncCalendarPair_convergence noFaults [] ⟨[], 0⟩ List.nodup_nil List.nodup_nil
    (fun u it ri h1 h2 h3 => nomatch h1) ?_
  obtain ⟨-, -, herr⟩ := pair_noop noFaults [] ⟨[], 0⟩ List.nodup_nil List.nodup_nil
    ⟨(fun u it h => nomatch h), (fun u ri h => nomatch h)⟩
  rw [herr]
  decide

/-- C5.  Local durable state changes only after the remote side has
confirmed.  Step 1: while the remote `delete_item` fails, the local
tombstone (and anything else at that URL) is untouched, and when the step
finishes without errors the delete was confirmed (`deleteFails` is false)
and the tombstone has been cleared by `immediately_delete_item`.  Steps 5
and 6: while the remote `add_item` / `update_item` fails, the local item is
untouched (it keeps its `NotSynced` / `LocallyModified(v)` status), and when
the step finishes without errors the upload was confirmed and the local
status has been overwritten with the returned `Synced(new_etag)`. -/
theorem local_update_after_remote_confirm (F : Faults) (urls : List String)
    (loc : LocalCal) (rem : RemoteCal) (u : String)
    (hn : urls.Nodup) (hl : NodupKeys loc) (hr : NodupKeys rem.items) :
    (F.deleteFails u = true →
      alookup (step1 F urls loc rem).loc u = alookup loc u) ∧
    ((step1 F urls loc rem).errs = 0 → u ∈ urls →
      F.deleteFails u = false ∧ alookup (step1 F urls loc rem).loc u = none) ∧
    (F.addFails u = true →
      alookup (step5 F urls loc rem).loc u = alookup loc u) ∧
    ((step5 F urls loc rem).errs = 0 → u ∈ urls → ∀ it, alookup loc u = some it →
      F.addFails u = false ∧
      ∃ w, alookup (step5 F urls loc rem).loc u = some ⟨it.data, .synced w⟩) ∧
    (F.updateFails u = true →
      alookup (step6 F urls loc rem).loc u = alookup loc u) ∧
    ((step6 F urls loc rem).errs = 0 → u ∈ urls → ∀ it, alookup loc u = some it →
      F.updateFails u = false ∧
      ∃ w, alookup (step6 F urls loc rem).loc u = some ⟨it.data, .synced w⟩) := by
  refine ⟨?_, ?_, ?_, ?_, ?_, ?_⟩
  · intro hf
    exact (step1_fail_keep F urls loc rem u hf).1
  · intro he hu
    obtain ⟨a, -, c⟩ := step1_post F urls loc rem hl hr he u hu
    exact ⟨c, a⟩
  · intro hf
    exact (step5_fail_keep F urls loc rem u hf).1
  · intro he hu it hit
    obtain ⟨w, a, -⟩ := step5_post F urls loc rem hn he u hu it hit
    exact ⟨step5_ok F urls loc rem he u hu, w, a⟩
  · intro hf
    exact (step6_fail_keep F urls loc rem u hf).1
  · intro he hu it hit
    obtain ⟨w, a, -⟩ := step6_post F urls loc rem hn he u hu it hit
    exact ⟨step6_ok F urls loc rem he u hu, w, a⟩

theorem local_update_after_remote_confirm_witness :
    (["a"] : List String).Nodup ∧
    NodupKeys [("a", (⟨⟨"x", .uncompleted, 0⟩, .locallyDeleted 3⟩ : LocalItem))] ∧
    NodupKeys (⟨[("a", ⟨⟨"x", .uncompleted, 0⟩, 3⟩)], 4⟩ : RemoteCal).items ∧
    ((noFaults.deleteFails "a" = true →
      alookup (step1 noFaults ["a"]
        [("a", ⟨⟨"x", .uncompleted, 0⟩, .locallyDeleted 3⟩)]
        ⟨[("a", ⟨⟨"x", .uncompleted, 0⟩, 3⟩)], 4⟩).loc "a" =
        alookup [("a", (⟨⟨"x", .uncompleted, 0⟩, .locallyDeleted 3⟩ : LocalItem))] "a") ∧
     ((step1 noFaults ["a"]
        [("a", ⟨⟨"x", .uncompleted, 0⟩, .locallyDeleted 3⟩)]
        ⟨[("a", ⟨⟨"x", .uncompleted, 0⟩, 3⟩)], 4⟩).errs = 0 → "a" ∈ (["a"] : List String) →
      noFaults.deleteFails "a" = false ∧
      alookup (step1 noFaults ["a"]
        [("a", ⟨⟨"x", .uncompleted, 0⟩, .locallyDeleted 3⟩)]
        ⟨[("a", ⟨⟨"x", .uncompleted, 0⟩, 3⟩)], 4⟩).loc "a" = none) ∧
     (noFaults.addFails "a" = true →
      alookup (step5 noFaults ["a"]
        [("a", ⟨⟨"x", .uncompleted, 0⟩, .locallyDeleted 3⟩)]
        ⟨[("a", ⟨⟨"x", .uncompleted, 0⟩, 3⟩)], 4⟩).loc "a" =
        alookup [("a", (⟨⟨"x", .uncompleted, 0⟩, .locallyDeleted 3⟩ : LocalItem))] "a") ∧
     ((step5 noFaults ["a"]
        [("a", ⟨⟨"x", .uncompleted, 0⟩, .locallyDeleted 3⟩)]
        ⟨[("a", ⟨⟨"x", .uncompleted, 0⟩, 3⟩)], 4⟩).errs = 0 → "a" ∈ (["a"] : List String) →
      ∀ it, alookup [("a", (⟨⟨"x", .uncompleted, 0⟩, .locallyDeleted 3⟩ : LocalItem))] "a" =
          some it →
      noFaults.addFails "a" = false ∧
      ∃ w, alookup (step5 noFaults ["a"]
        [("a", ⟨⟨"x", .uncompleted, 0⟩, .locallyDeleted 3⟩)]
        ⟨[("a", ⟨⟨"x", .uncompleted, 0⟩, 3⟩)], 4⟩).loc "a" =
          some ⟨it.data, .synced w⟩) ∧
     (noFaults.updateFails "a" = true →
      alookup (step6 noFaults ["a"]
        [("a", ⟨⟨"x", .uncompleted, 0⟩, .locallyDeleted 3⟩)]
        ⟨[("a", ⟨⟨"x", .uncompleted, 0⟩, 3⟩)], 4⟩).loc "a" =
        alookup [("a", (⟨⟨"x", .uncompleted, 0⟩, .locallyDeleted 3⟩ : LocalItem))] "a") ∧
     ((step6 noFaults ["a"]
        [("a", ⟨⟨"x", .uncompleted, 0⟩, .locallyDeleted 3⟩)]
        ⟨[("a", ⟨⟨"x", .uncompleted, 0⟩, 3⟩)], 4⟩).errs = 0 → "a" ∈ (["a"] : List String) →
      ∀ it, alookup [("a", (⟨⟨"x", .uncompleted, 0⟩, .locallyDeleted 3⟩ : LocalItem))] "a" =
          some it →
      noFaults.updateFails "a" = false ∧
      ∃ w, alookup (step6 noFaults ["a"]
        [("a", ⟨⟨"x", .uncompleted, 0⟩, .locallyDeleted 3⟩)]
        ⟨[("a", ⟨⟨"x", .uncompleted, 0⟩, 3⟩)], 4⟩).loc "a" =
          some ⟨it.data, .synced w⟩)) :=
  ⟨by decide, by decide, by decide,
   local_update_after_remote_confirm noFaults ["a"]
     [("a", ⟨⟨"x", .uncompleted, 0⟩, .locallyDeleted 3⟩)]
     ⟨[("a", ⟨⟨"x", .uncompleted, 0⟩, 3⟩)], 4⟩ "a"
     (by decide) (by decide) (by decide)⟩

/-! ## The local source (`src/cache.rs`)

A `Cache` maps calendar URLs to `CachedCalendar`s (metadata plus item map). -/

/-- Calendar metadata: display name, supported components (a bitset over
EVENT/TODO), optional colour. -/
structure CalMeta where
  name : String
  supportedComponents : Nat
  color : Option String
deriving DecidableEq, Repr

/-- A full local calendar: metadata plus its items (`CachedCalendar`). -/
structure CachedCalendarFull where
  meta : CalMeta
  items : LocalCal
deriving DecidableEq, Repr

/-- The calendar map of a `Cache` (`CachedData::calendars`). -/
abbrev Cache := List (String × CachedCalendarFull)

/-- `Cache::get_calendar_sync`. -/
def cacheGetCalendar (c : Cache) (u : String) : Option CachedCalendarFull :=
  alookup c u

/-- `Cache::create_calendar` (src/cache.rs lines 214-231): builds a fresh
empty calendar, inserts it with `HashMap::insert` — which replaces any
previous binding and returns it — and only then inspects the returned old
value: `Some(_)` means the URL was already present and an error is returned,
`None` means the insertion is reported as successful.  Note that the map has
been updated in both cases.  The result is the new cache state paired with
the `Result` value (`none` = error). -/
def cacheCreateCalendar (c : Cache) (u : String) (meta : CalMeta) :
    Cache × Option CachedCalendarFull :=
  let newCal : CachedCalendarFull := ⟨meta, []⟩
  let old := alookup c u
  (ainsert c u newCal,
   match old with
   | some _ => none
   | none => some newCal)

/-! ## Claim C8: `mark_for_deletion` -/

/-- C8. For every local calendar and URL, `mark_for_deletion(url)`:
moves an item whose status is `Synced(v)`, `LocallyModified(v)` or
`LocallyDeleted(v)` to `LocallyDeleted(v)` (touching no other URL);
removes a `NotSynced` item outright; and fails, changing nothing, when the
URL is absent. -/
theorem markForDeletion_spec (cal : LocalCal) (u : String) (hw : NodupKeys cal) :
    (∀ it v, alookup cal u = some it →
      (it.syncStatus = .synced v ∨ it.syncStatus = .locallyModified v ∨
       it.syncStatus = .locallyDeleted v) →
      markForDeletionSync cal u = some (ainsert cal u ⟨it.data, .locallyDeleted v⟩) ∧
      alookup (ainsert cal u ⟨it.data, .locallyDeleted v⟩) u =
        some ⟨it.data, .locallyDeleted v⟩ ∧
      ∀ x, x ≠ u → alookup (ainsert cal u ⟨it.data, .locallyDeleted v⟩) x = alookup cal x) ∧
    (∀ it, alookup cal u = some it → it.syncStatus = .notSynced →
      markForDeletionSync cal u = some (aremove cal u) ∧
      alookup (aremove cal u) u = none ∧
      ∀ x, x ≠ u → alookup (aremove cal u) x = alookup cal x) ∧
    (alookup cal u = none → markForDeletionSync cal u = none) := by
  refine ⟨?_, ?_, ?_⟩
  · intro it v hlook hst
    have hmark : markForDeletionSync cal u = some (ainsert cal u ⟨it.data, .locallyDeleted v⟩) := by
      unfold markForDeletionSync
      rw [hlook]
      rcases hst with h | h | h <;> simp [h]
    refine ⟨hmark, alookup_ainsert_self _ _ _, fun x hx => alookup_ainsert_ne _ _ _ _ hx⟩
  · intro it hlook hst
    have hmark : markForDeletionSync cal u = some (aremove cal u) := by
      unfold markForDeletionSync
      rw [hlook]
      simp [hst]
    exact ⟨hmark, alookup_aremove_self _ _ hw, fun x hx => alookup_aremove_ne _ _ _ hx⟩
  · intro hlook
    unfold markForDeletionSync
    rw [hlook]

/-- Witness for `markForDeletion_spec` at a concrete calendar: an item with
status `Synced 7` becomes `LocallyDeleted 7`, a `NotSynced` item is removed,
and an absent URL fails. -/
theorem markForDeletion_spec_witness :
    NodupKeys [("a", (⟨⟨"A", .uncompleted, 0⟩, .synced 7⟩ : LocalItem)),
               ("b", ⟨⟨"B", .uncompleted, 0⟩, .notSynced⟩)] ∧
    markForDeletionSync [("a", (⟨⟨"A", .uncompleted, 0⟩, .synced 7⟩ : LocalItem)),
                         ("b", ⟨⟨"B", .uncompleted, 0⟩, .notSynced⟩)] "a" =
      some [("a", ⟨⟨"A", .uncompleted, 0⟩, .locallyDeleted 7⟩),
            ("b", ⟨⟨"B", .uncompleted, 0⟩, .notSynced⟩)] ∧
    markForDeletionSync [("a", (⟨⟨"A", .uncompleted, 0⟩, .synced 7⟩ : LocalItem)),
                         ("b", ⟨⟨"B", .uncompleted, 0⟩, .notSynced⟩)] "c" = none := by
  refine ⟨by decide, ?_, ?_⟩
  · have h := (markForDeletion_spec
      [("a", (⟨⟨"A", .uncompleted, 0⟩, .synced 7⟩ : LocalItem)),
       ("b", ⟨⟨"B", .uncompleted, 0⟩, .notSynced⟩)] "a" (by decide)).1
      ⟨⟨"A", .uncompleted, 0⟩, .synced 7⟩ 7 (by decide) (Or.inl rfl)
    exact h.1.trans (by decide)
  · exact (markForDeletion_spec
      [("a", (⟨⟨"A", .uncompleted, 0⟩, .synced 7⟩ : LocalItem)),
       ("b", ⟨⟨"B", .uncompleted, 0⟩, .notSynced⟩)] "c" (by decide)).2.2 (by decide)

/-! ## Claim C9: `Cache::create_calendar` on an existing URL

The claim says the failed call leaves the mapping unchanged.  The code
inserts the new empty calendar *before* checking for a previous one, so the
pre-existing calendar (and all its items) is replaced by the empty one even
though an error is returned. -/

/-- A cache holding one calendar with one item: the failing input for C9. -/
def c9Cache : Cache :=
  [("https-host-cal", ⟨⟨"My list", 2, none⟩,
    [("https-host-cal-item1", ⟨⟨"Buy milk", .uncompleted, 3⟩, .synced 1⟩)]⟩)]

/-- C9 (code bug): calling `create_calendar` on `c9Cache` with the already
present URL returns an error, yet afterwards `get_calendar` returns the fresh
empty calendar — the previously existing calendar and its item are gone. -/
theorem cacheCreateCalendar_existing_replaces :
    (cacheCreateCalendar c9Cache "https-host-cal" ⟨"My list", 2, none⟩).2 = none ∧
    cacheGetCalendar (cacheCreateCalendar c9Cache "https-host-cal" ⟨"My list", 2, none⟩).1
        "https-host-cal" = some ⟨⟨"My list", 2, none⟩, []⟩ ∧
    cacheGetCalendar (cacheCreateCalendar c9Cache "https-host-cal" ⟨"My list", 2, none⟩).1
        "https-host-cal" ≠ cacheGetCalendar c9Cache "https-host-cal" := by
  decide

/-! ## Claim C10: the `RemoteCalendar::update_item` guard -/

/-- C10. `RemoteCalendar::update_item` rejects items whose status is
`NotSynced` or `Synced(_)` before issuing any request; for
`LocallyModified(v)` or `LocallyDeleted(v)` it issues exactly one `PUT`
carrying `If-Match: v`. -/
theorem remoteUpdateItem_guard (F : Faults) (r : RemoteCal) (u : String) (it : LocalItem) :
    (it.syncStatus = .notSynced ∨ (∃ v, it.syncStatus = .synced v) →
      remoteUpdateItem F r u it = (none, [])) ∧
    (∀ v, it.syncStatus = .locallyModified v ∨ it.syncStatus = .locallyDeleted v →
      (remoteUpdateItem F r u it).2 = [⟨"PUT", u, some (.ifMatch v)⟩]) := by
  constructor
  · rintro (h | ⟨v, h⟩) <;> simp [remoteUpdateItem, h]
  · rintro v (h | h) <;>
      · simp only [remoteUpdateItem, h]
        by_cases hF : F.updateFails u
        · simp [hF]
        · simp only [if_neg hF]
          cases halook : alookup r.items u with
          | none => rfl
          | some ri =>
            by_cases ht : ri.tag = v <;> simp [ht]

/-- Witness for `remoteUpdateItem_guard`: concrete instances of both
branches. -/
theorem remoteUpdateItem_guard_witness :
    remoteUpdateItem noFaults ⟨[], 0⟩ "u" ⟨⟨"T", .uncompleted, 0⟩, .notSynced⟩ = (none, []) ∧
    (remoteUpdateItem noFaults ⟨[], 0⟩ "u" ⟨⟨"T", .uncompleted, 0⟩, .locallyModified 5⟩).2 =
      [⟨"PUT", "u", some (.ifMatch 5)⟩] :=
  ⟨(remoteUpdateItem_guard noFaults ⟨[], 0⟩ "u" ⟨⟨"T", .uncompleted, 0⟩, .notSynced⟩).1
      (Or.inl rfl),
   (remoteUpdateItem_guard noFaults ⟨[], 0⟩ "u" ⟨⟨"T", .uncompleted, 0⟩, .locallyModified 5⟩).2
      5 (Or.inl rfl)⟩

/-! ## The iCal codec (`src/ical/parser.rs`, `src/ical/builder.rs`)

An iCal property line `NAME;P1=V1;...:VALUE` is modelled structurally as its
name, parameter list and optional value (the `ical` crate's `Property`; its
parameter values are modelled single-valued).  A `VCALENDAR` blob containing
exactly one `VTODO` — the only shape the parser accepts, and the shape the
claims quantify over — is modelled as the calendar-level property lines plus
the `VTODO` property lines, in source order.  `BEGIN`/`END` delimiter lines
are common to input and output and are not represented.

Timestamps: `parse_date_time` accepts `%Y%m%dT%H%M%SZ` then `%Y%m%dT%H%M%S`,
both denoting UTC, and the builder always re-emits `%Y%m%dT%H%M%S`; a parsed
timestamp is therefore modelled by its canonical 15-character text. -/

/-- One iCal property line. -/
structure ICalProp where
  name : String
  params : List (String × String)
  value : Option String
deriving DecidableEq, Repr

/-- A `VCALENDAR` containing exactly one `VTODO`. -/
structure VTodoCalendar where
  calProps : List ICalProp
  todoProps : List ICalProp
deriving DecidableEq, Repr

/-- All property lines of a blob (calendar level first, then the VTODO). -/
def calendarLines (x : VTodoCalendar) : List ICalProp :=
  x.calProps ++ x.todoProps

/-- Two digits to a number (both characters must be digits, checked by the
caller). -/
def twoDigits (a b : Char) : Nat := (a.toNat - 48) * 10 + (b.toNat - 48)

/-- Leap years of the proleptic Gregorian calendar. -/
def isLeapYear (y : Nat) : Bool := (y % 4 = 0 && y % 100 ≠ 0) || y % 400 = 0

/-- Number of days of a month. -/
def daysInMonth (y m : Nat) : Nat :=
  if m = 2 then (if isLeapYear y then 29 else 28)
  else if m = 4 || m = 6 || m = 9 || m = 11 then 30
  else 31

/-- Whether a string matches chrono's `%Y%m%dT%H%M%S` (a valid calendar date,
`T`, a valid time; chrono accepts a leap second `60`). -/
def validDateTime (s : String) : Bool :=
  match s.toList with
  | [y1, y2, y3, y4, mo1, mo2, d1, d2, t, h1, h2, mi1, mi2, s1, s2] =>
    [y1, y2, y3, y4, mo1, mo2, d1, d2, h1, h2, mi1, mi2, s1, s2].all Char.isDigit &&
    t = 'T' &&
    (let y := ((y1.toNat - 48) * 10 + (y2.toNat - 48)) * 100 + twoDigits y3 y4
     let mo := twoDigits mo1 mo2
     let d := twoDigits d1 d2
     1 ≤ mo && mo ≤ 12 && 1 ≤ d && d ≤ daysInMonth y mo &&
     twoDigits h1 h2 ≤ 23 && twoDigits mi1 mi2 ≤ 59 && twoDigits s1 s2 ≤ 60)
  | _ => false

/-- `parse_date_time` (parser.rs lines 125-128): try `%Y%m%dT%H%M%SZ`, then
`%Y%m%dT%H%M%S`; the result is the canonical 15-character text. -/
def parse_date_time (s : String) : Option String :=
  let cs := s.toList
  if cs.getLast? = some 'Z' then
    (let core := String.mk cs.dropLast
     if validDateTime core then some core else none)
  else if validDateTime s then some s else none

/-- `parse_date_time_from_property`: a missing value or an unparseable
timestamp both yield `None` (the latter logs a warning). -/
def parse_date_time_from_property (value : Option String) : Option String :=
  value.bind parse_date_time

/-- The mutable locals of the parser's property loop (parser.rs lines
37-43). -/
structure ParseAcc where
  name : Option String
  uid : Option String
  completed : Bool
  lastModified : Option String
  completionDate : Option String
  creationDate : Option String
  extras : List ICalProp
deriving DecidableEq, Repr

def ParseAcc.init : ParseAcc := ⟨none, none, false, none, none, none, []⟩

/-- One iteration of the property loop (parser.rs lines 45-89): recognised
property names update the corresponding local (`DTSTAMP` and `LAST-MODIFIED`
both assign `last_modified`; `STATUS` only sets the completed flag when its
value is `COMPLETED`); anything else is pushed onto `extra_parameters`. -/
def processProp (acc : ParseAcc) (p : ICalProp) : ParseAcc :=
  if p.name = "SUMMARY" then { acc with name := p.value }
  else if p.name = "UID" then { acc with uid := p.value }
  else if p.name = "DTSTAMP" then
    { acc with lastModified := parse_date_time_from_property p.value }
  else if p.name = "LAST-MODIFIED" then
    { acc with lastModified := parse_date_time_from_property p.value }
  else if p.name = "COMPLETED" then
    { acc with completionDate := parse_date_time_from_property p.value }
  else if p.name = "CREATED" then
    { acc with creationDate := parse_date_time_from_property p.value }
  else if p.name = "STATUS" then
    (if p.value = some "COMPLETED" then { acc with completed := true } else acc)
  else { acc with extras := acc.extras ++ [p] }

/-- `extract_ical_prod_id`: the value of the first `PRODID` calendar
property. -/
def extract_ical_prod_id : List ICalProp → Option String
  | [] => none
  | p :: rest => if p.name = "PRODID" then p.value else extract_ical_prod_id rest

/-- `default_prod_id()` with the default compile-time configuration. -/
def default_prod_id : String := "-//My organization//KitchenFridge//EN"

/-- Completion status as the codec sees it (timestamps as canonical text). -/
inductive TodoCompletion where
  | uncompleted : TodoCompletion
  | completed (date : Option String) : TodoCompletion
deriving DecidableEq, Repr

/-- The task produced by parsing a VTODO (the codec-relevant fields of
`Task::new_with_parameters`). -/
structure ParsedTask where
  name : String
  uid : String
  completion : TodoCompletion
  creationDate : Option String
  lastModified : String
  icalProdId : String
  extras : List ICalProp
deriving DecidableEq, Repr

/-- `ical::parse` on a `VCALENDAR` holding a single `VTODO` (parser.rs lines
36-113): run the property loop, then require name (`SUMMARY`), `UID` and a
last-modified timestamp (`DTSTAMP`'s error message), and assemble the
completion status (`COMPLETED` without `STATUS:COMPLETED` is dropped with a
warning). -/
def parseVTodo (x : VTodoCalendar) : Option ParsedTask :=
  let prodId := (extract_ical_prod_id x.calProps).getD default_prod_id
  let acc := x.todoProps.foldl processProp ParseAcc.init
  match acc.name, acc.uid, acc.lastModified with
  | some n, some u, some lm =>
    some { name := n
           uid := u
           completion := if acc.completed then .completed acc.completionDate else .uncompleted
           creationDate := acc.creationDate
           lastModified := lm
           icalProdId := prodId
           extras := acc.extras }
  | _, _, _ => none

/-- `ical_to_ics_property` (builder.rs lines 69-81): a property with no value
is emitted with the empty value; parameters pass through. -/
def icalToIcsProp (p : ICalProp) : ICalProp :=
  ⟨p.name, p.params, some (p.value.getD "")⟩

/-- `build_from_task` (builder.rs lines 25-62), as the property lines it
emits: `VERSION:2.0` and `PRODID` at calendar level, then `UID`, `DTSTAMP`
(the last-modified timestamp), `CREATED` if present, `LAST-MODIFIED`,
`SUMMARY`, the completion fields, and finally every preserved extra
property. -/
def buildFromTask (t : ParsedTask) : VTodoCalendar :=
  { calProps := [⟨"VERSION", [], some "2.0"⟩, ⟨"PRODID", [], some t.icalProdId⟩]
    todoProps :=
      [⟨"UID", [], some t.uid⟩, ⟨"DTSTAMP", [], some t.lastModified⟩]
      ++ (match t.creationDate with
          | some d => [⟨"CREATED", [], some d⟩]
          | none => [])
      ++ [⟨"LAST-MODIFIED", [], some t.lastModified⟩, ⟨"SUMMARY", [], some t.name⟩]
      ++ (match t.completion with
          | .uncompleted => [⟨"STATUS", [], some "NEEDS-ACTION"⟩]
          | .completed d =>
            ⟨"PERCENT-COMPLETE", [], some "100"⟩ ::
            ((match d with
              | some dd => [⟨"COMPLETED", [], some dd⟩]
              | none => []) ++ [⟨"STATUS", [], some "COMPLETED"⟩]))
      ++ t.extras.map icalToIcsProp }

/-- Boolean set-equality of two lists of property lines. -/
def sameLineSet (a b : List ICalProp) : Bool :=
  a.all (fun p => b.contains p) && b.all (fun p => a.contains p)

/-- The property names the parser's loop recognises (every other property is
preserved in `extra_parameters`). -/
def recognisedNames : List String :=
  ["SUMMARY", "UID", "DTSTAMP", "LAST-MODIFIED", "COMPLETED", "CREATED", "STATUS"]

theorem foldl_processProp_extras (extras : List ICalProp) (acc : ParseAcc)
    (h : ∀ e ∈ extras, e.name ∉ recognisedNames) :
    extras.foldl processProp acc = { acc with extras := acc.extras ++ extras } := by
  induction extras generalizing acc with
  | nil => simp
  | cons e rest ih =>
    have he := h e (by simp)
    simp only [recognisedNames, List.mem_cons, List.not_mem_nil, or_false, not_or] at he
    obtain ⟨h1, h2, h3, h4, h5, h6, h7⟩ := he
    have hstep : processProp acc e = { acc with extras := acc.extras ++ [e] } := by
      simp only [processProp, if_neg h1, if_neg h2, if_neg h3, if_neg h4, if_neg h5,
        if_neg h6, if_neg h7]
    have hrest : ∀ x ∈ rest, x.name ∉ recognisedNames := fun x hx => h x (by simp [hx])
    rw [List.foldl_cons, hstep, ih _ hrest]
    simp

theorem map_icalToIcsProp_eq_self (extras : List ICalProp)
    (h : ∀ e ∈ extras, (e.value).isSome) :
    extras.map icalToIcsProp = extras := by
  induction extras with
  | nil => rfl
  | cons e rest ih =>
    have he := h e (by simp)
    obtain ⟨n, ps, val⟩ := e
    obtain ⟨v, hv⟩ := Option.isSome_iff_exists.mp he
    have hs : icalToIcsProp ⟨n, ps, val⟩ = ⟨n, ps, val⟩ := by
      simp only at hv
      simp [icalToIcsProp, hv]
    simp only [List.map_cons, hs, List.cons.injEq, true_and]
    exact ih (fun x hx => h x (by simp [hx]))

/-! ## Claim C6: the round-trip law

The law fails as stated: serialising the parse of a minimal accepted VTODO
adds `LAST-MODIFIED` and `STATUS:NEEDS-ACTION` lines that were not in the
input.  It holds for inputs that are already in the serialiser's normal
form. -/

/-- C6 counterexample: a minimal accepted input (`UID`, `SUMMARY`, `DTSTAMP`
plus `VERSION`/`PRODID`).  Parsing succeeds, but the serialised output's
property-line set differs from the input's (it gains `LAST-MODIFIED` and
`STATUS:NEEDS-ACTION`). -/
theorem roundTrip_counterexample :
    parseVTodo ⟨[⟨"VERSION", [], some "2.0"⟩, ⟨"PRODID", [], some "-//A//B//EN"⟩],
      [⟨"UID", [], some "u1"⟩, ⟨"SUMMARY", [], some "Call Mom"⟩,
       ⟨"DTSTAMP", [], some "20210321T001600"⟩]⟩ =
      some ⟨"Call Mom", "u1", .uncompleted, none, "20210321T001600", "-//A//B//EN", []⟩ ∧
    sameLineSet
      (calendarLines (buildFromTask ⟨"Call Mom", "u1", .uncompleted, none,
        "20210321T001600", "-//A//B//EN", []⟩))
      (calendarLines ⟨[⟨"VERSION", [], some "2.0"⟩, ⟨"PRODID", [], some "-//A//B//EN"⟩],
        [⟨"UID", [], some "u1"⟩, ⟨"SUMMARY", [], some "Call Mom"⟩,
         ⟨"DTSTAMP", [], some "20210321T001600"⟩]⟩) = false := by
  decide

/-- An uncompleted-task input in the serialiser's normal form: the exact
lines `build_from_task` emits (matching `DTSTAMP`/`LAST-MODIFIED`, an
explicit `STATUS:NEEDS-ACTION`, a canonical timestamp) followed by arbitrary
unrecognised extra properties. -/
def normalFormInput (u s t p : String) (extras : List ICalProp) : VTodoCalendar :=
  ⟨[⟨"VERSION", [], some "2.0"⟩, ⟨"PRODID", [], some p⟩],
   [⟨"UID", [], some u⟩, ⟨"DTSTAMP", [], some t⟩, ⟨"LAST-MODIFIED", [], some t⟩,
    ⟨"SUMMARY", [], some s⟩, ⟨"STATUS", [], some "NEEDS-ACTION"⟩] ++ extras⟩

/-- C6 as amended: for inputs already in the serialiser's normal form the
round trip reproduces the input's property lines exactly (hence as a set).
In general serialisation normalises (counterexample above). -/
theorem roundTrip_normalForm (u s t p : String) (extras : List ICalProp)
    (ht : validDateTime t = true) (hz : t.toList.getLast? ≠ some 'Z')
    (hex : ∀ e ∈ extras, e.name ∉ recognisedNames ∧ (e.value).isSome) :
    parseVTodo (normalFormInput u s t p extras) =
      some ⟨s, u, .uncompleted, none, t, p, extras⟩ ∧
    calendarLines (buildFromTask ⟨s, u, .uncompleted, none, t, p, extras⟩) =
      calendarLines (normalFormInput u s t p extras) := by
  have hz2 : t.data.getLast? ≠ some 'Z' := hz
  have hdt : parse_date_time t = some t := by
    simp [parse_date_time, String.toList, hz2, ht]
  constructor
  · unfold parseVTodo normalFormInput
    rw [List.foldl_append]
    have hpre :
        ([⟨"UID", [], some u⟩, ⟨"DTSTAMP", [], some t⟩, ⟨"LAST-MODIFIED", [], some t⟩,
          ⟨"SUMMARY", [], some s⟩,
          (⟨"STATUS", [], some "NEEDS-ACTION"⟩ : ICalProp)] : List ICalProp).foldl
          processProp ParseAcc.init =
          ⟨some s, some u, false, some t, none, none, []⟩ := by
      simp [processProp, ParseAcc.init, parse_date_time_from_property, hdt]
    rw [hpre, foldl_processProp_extras _ _ (fun e he => (hex e he).1)]
    simp [extract_ical_prod_id]
  · unfold buildFromTask normalFormInput calendarLines
    simp [map_icalToIcsProp_eq_self extras (fun e he => (hex e he).2)]

/-- Witness for `roundTrip_normalForm` at a concrete normal-form input with
one extra property. -/
theorem roundTrip_normalForm_witness :
    validDateTime "20210402T081557" = true ∧
    "20210402T081557".toList.getLast? ≠ some 'Z' ∧
    parseVTodo (normalFormInput "u9" "Water plants" "20210402T081557" "-//A//B//EN"
        [⟨"X-MOZ-GENERATION", [("X", "1")], some "1"⟩]) =
      some ⟨"Water plants", "u9", .uncompleted, none, "20210402T081557", "-//A//B//EN",
        [⟨"X-MOZ-GENERATION", [("X", "1")], some "1"⟩]⟩ ∧
    calendarLines (buildFromTask ⟨"Water plants", "u9", .uncompleted, none,
        "20210402T081557", "-//A//B//EN", [⟨"X-MOZ-GENERATION", [("X", "1")], some "1"⟩]⟩) =
      calendarLines (normalFormInput "u9" "Water plants" "20210402T081557" "-//A//B//EN"
        [⟨"X-MOZ-GENERATION", [("X", "1")], some "1"⟩]) := by
  refine ⟨by decide, by decide, ?_⟩
  exact roundTrip_normalForm "u9" "Water plants" "20210402T081557" "-//A//B//EN"
    [⟨"X-MOZ-GENERATION", [("X", "1")], some "1"⟩] (by decide) (by decide) (by decide)

/-! ## Claim C7: required VTODO fields

`UID` and `SUMMARY` are required, but `DTSTAMP` is not on its own: both
`DTSTAMP` and `LAST-MODIFIED` assign the same `last_modified` local, so a
VTODO carrying `LAST-MODIFIED` but no `DTSTAMP` parses successfully. -/

/-- C7 counterexample: a VTODO with `UID` and `SUMMARY` but no `DTSTAMP`
(only `LAST-MODIFIED`) is accepted by the parser. -/
theorem parse_missing_dtstamp_succeeds :
    parseVTodo ⟨[⟨"VERSION", [], some "2.0"⟩, ⟨"PRODID", [], some "-//A//B//EN"⟩],
      [⟨"UID", [], some "u1"⟩, ⟨"SUMMARY", [], some "S"⟩,
       ⟨"LAST-MODIFIED", [], some "20210321T001600"⟩]⟩ =
      some ⟨"S", "u1", .uncompleted, none, "20210321T001600", "-//A//B//EN", []⟩ := by
  decide

theorem foldl_processProp_uid (props : List ICalProp) (acc : ParseAcc)
    (h : ∀ pr ∈ props, pr.name ≠ "UID") :
    (props.foldl processProp acc).uid = acc.uid := by
  induction props generalizing acc with
  | nil => rfl
  | cons e rest ih =>
    have he := h e (by simp)
    have hrest : ∀ x ∈ rest, x.name ≠ "UID" := fun x hx => h x (by simp [hx])
    rw [List.foldl_cons, ih _ hrest]
    unfold processProp
    split_ifs <;> rfl

theorem foldl_processProp_name (props : List ICalProp) (acc : ParseAcc)
    (h : ∀ pr ∈ props, pr.name ≠ "SUMMARY") :
    (props.foldl processProp acc).name = acc.name := by
  induction props generalizing acc with
  | nil => rfl
  | cons e rest ih =>
    have he := h e (by simp)
    have hrest : ∀ x ∈ rest, x.name ≠ "SUMMARY" := fun x hx => h x (by simp [hx])
    rw [List.foldl_cons, ih _ hrest]
    unfold processProp
    split_ifs with h1
    · exact absurd h1 he
    all_goals rfl

theorem foldl_processProp_lastModified (props : List ICalProp) (acc : ParseAcc)
    (h : ∀ pr ∈ props, pr.name ≠ "DTSTAMP" ∧ pr.name ≠ "LAST-MODIFIED") :
    (props.foldl processProp acc).lastModified = acc.lastModified := by
  induction props generalizing acc with
  | nil => rfl
  | cons e rest ih =>
    have he := h e (by simp)
    have hrest : ∀ x ∈ rest, x.name ≠ "DTSTAMP" ∧ x.name ≠ "LAST-MODIFIED" :=
      fun x hx => h x (by simp [hx])
    rw [List.foldl_cons, ih _ hrest]
    unfold processProp
    split_ifs with h1 h2 h3 h4
    · rfl
    · rfl
    · exact absurd h3 he.1
    · exact absurd h4 he.2
    all_goals rfl

theorem parseVTodo_none_of_missing (x : VTodoCalendar)
    (hcase :
      (x.todoProps.foldl processProp ⟨none, none, false, none, none, none, []⟩).name = none ∨
      (x.todoProps.foldl processProp ⟨none, none, false, none, none, none, []⟩).uid = none ∨
      (x.todoProps.foldl processProp
          ⟨none, none, false, none, none, none, []⟩).lastModified = none) :
    parseVTodo x = none := by
  unfold parseVTodo
  cases hn : (x.todoProps.foldl processProp
      (⟨none, none, false, none, none, none, []⟩ : ParseAcc)).name
  all_goals cases hu : (x.todoProps.foldl processProp
      (⟨none, none, false, none, none, none, []⟩ : ParseAcc)).uid
  all_goals cases hl : (x.todoProps.foldl processProp
      (⟨none, none, false, none, none, none, []⟩ : ParseAcc)).lastModified
  all_goals simp_all [ParseAcc.init]

/-- C7 as amended: parsing fails whenever the VTODO has no `UID` property, or
no `SUMMARY` property, or neither a `DTSTAMP` nor a `LAST-MODIFIED` property
(either of the latter two supplies the required timestamp). -/
theorem parse_required_fields (x : VTodoCalendar) :
    ((∀ pr ∈ x.todoProps, pr.name ≠ "UID") → parseVTodo x = none) ∧
    ((∀ pr ∈ x.todoProps, pr.name ≠ "SUMMARY") → parseVTodo x = none) ∧
    ((∀ pr ∈ x.todoProps, pr.name ≠ "DTSTAMP" ∧ pr.name ≠ "LAST-MODIFIED") →
      parseVTodo x = none) := by
  refine ⟨?_, ?_, ?_⟩
  · intro h
    exact parseVTodo_none_of_missing x
      (Or.inr (Or.inl (foldl_processProp_uid x.todoProps _ h)))
  · intro h
    exact parseVTodo_none_of_missing x
      (Or.inl (foldl_processProp_name x.todoProps _ h))
  · intro h
    exact parseVTodo_none_of_missing x
      (Or.inr (Or.inr (foldl_processProp_lastModified x.todoProps _ h)))

/-- Witness for `parse_required_fields` at concrete inputs missing each
field. -/
theorem parse_required_fields_witness :
    parseVTodo ⟨[], [⟨"SUMMARY", [], some "S"⟩, ⟨"DTSTAMP", [], some "20210321T001600"⟩]⟩
      = none ∧
    parseVTodo ⟨[], [⟨"UID", [], some "u"⟩, ⟨"DTSTAMP", [], some "20210321T001600"⟩]⟩
      = none ∧
    parseVTodo ⟨[], [⟨"UID", [], some "u"⟩, ⟨"SUMMARY", [], some "S"⟩]⟩ = none :=
  ⟨(parse_required_fields _).1 (by decide),
   (parse_required_fields _).2.1 (by decide),
   (parse_required_fields _).2.2 (by decide)⟩

end KitchenFridge
